import Mathlib

/-!
Buffer / SM3 toolkit: shallow embedding and verified properties

Bytes (`char`, `uint8_t`) are natural numbers holding the bit pattern `0..255`;
`uint32_t` words are natural numbers reduced modulo `2^32` wherever the C++ arithmetic
wraps.  C arrays are lists; `memcpy(dst + off, src, len)` is `memcpy dst off src len`.
Sizes and positions (`int`) are mathematical integers: the embedding follows the source
as long as every `int` the source computes stays within `INT_MAX`, and the theorems
whose code path does `int` arithmetic on sizes carry that as a hypothesis.  A 32-bit shift whose count
is outside `0..31` has no value in C++; the SM3 functions take it from a `ShiftTarget`.
-/

namespace crypto

/-! ## Memory helpers -/

/-- Writes the first `len` bytes of `src` over `dst` starting at offset `off`
(`memcpy(dst + off, src, len)`); the bytes of `dst` outside the window keep their value. -/
def memcpy (dst : List Nat) (off : Nat) (src : List Nat) (len : Nat) : List Nat :=
  dst.take off ++ src.take len ++ dst.drop (off + len)

/-- Value `INT_MAX` of the 32-bit `int`. -/
def INT_MAX : Int := 2147483647

/-- Conversion `static_cast<int>(n)` of a `size_t` value `n`: the value modulo `2^32`,
read in two's complement. -/
def static_cast_int (n : Nat) : Int :=
  if n % 2 ^ 32 < 2 ^ 31 then ((n % 2 ^ 32 : Nat) : Int)
  else ((n % 2 ^ 32 : Nat) : Int) - 2 ^ 32

/-! ## SM3 (src/sm3.cpp) -/

/-- Value a target produces for a 32-bit shift whose count lies outside `0..31`.
C++ leaves such a shift undefined, so the embedding takes its result from the target:
`shlOut x n` for `x << n` and `shrOut x n` for `x >> n`. -/
structure ShiftTarget where
  shlOut : Nat → Int → Nat
  shrOut : Nat → Int → Nat

/-- Target that reduces the shift count modulo 32 (the x86 `shl`/`shr` behaviour). -/
def ShiftTarget.mod32 : ShiftTarget where
  shlOut := fun x n => x <<< (n % 32).toNat
  shrOut := fun x n => x >>> (n % 32).toNat

/-- Target on which a shift by a count outside `0..31` yields zero
(register-specified shifts that saturate, as on 32-bit ARM). -/
def ShiftTarget.zero : ShiftTarget where
  shlOut := fun _ _ => 0
  shrOut := fun _ _ => 0

/-- The C expression `x << n` on a `uint32_t`. -/
def shl32 (t : ShiftTarget) (x : Nat) (n : Int) : Nat :=
  if 0 ≤ n ∧ n < 32 then (x <<< n.toNat) % 2 ^ 32 else t.shlOut x n % 2 ^ 32

/-- The C expression `x >> n` on a `uint32_t`. -/
def shr32 (t : ShiftTarget) (x : Nat) (n : Int) : Nat :=
  if 0 ≤ n ∧ n < 32 then x >>> n.toNat else t.shrOut x n % 2 ^ 32

/-- Macro `SM3_GET_ULONG_BE(n, b, i)`. -/
def SM3_GET_ULONG_BE (b : List Nat) (i : Nat) : Nat :=
  ((b.getD i 0 <<< 24) % 2 ^ 32) ||| ((b.getD (i + 1) 0 <<< 16) % 2 ^ 32)
    ||| ((b.getD (i + 2) 0 <<< 8) % 2 ^ 32) ||| (b.getD (i + 3) 0 % 2 ^ 32)

/-- Macro `SM3_PUT_ULONG_BE(n, b, i)`: four `(uint8_t)` casts of shifted copies of `n`. -/
def SM3_PUT_ULONG_BE (n : Nat) (b : List Nat) (i : Nat) : List Nat :=
  (((b.set i ((n >>> 24) % 256)).set (i + 1) ((n >>> 16) % 256)).set (i + 2)
    ((n >>> 8) % 256)).set (i + 3) (n % 256)

/-- Context `sm3_context` (the HMAC pads are never touched by the code embedded here).
`nproc` is a ghost counter of the calls of `sm3_process`; no code reads it. -/
structure sm3_context where
  total0 : Nat
  total1 : Nat
  state : List Nat
  buffer : List Nat
  nproc : Nat

/-- Function `sm3_init`: it sets `total` and `state` and leaves `buffer` as it finds it. -/
def sm3_init (ctx : sm3_context) : sm3_context :=
  { ctx with
    total0 := 0
    total1 := 0
    state := [0x7380166F, 0x4914B2B9, 0x172442D7, 0xDA8A0600,
              0xA96F30BC, 0x163138AA, 0xE38DEE4D, 0xB0FB0E4E] }

/-- Macro `FF0`. -/
def FF0 (x y z : Nat) : Nat := x ^^^ y ^^^ z

/-- Macro `FF1`. -/
def FF1 (x y z : Nat) : Nat := (x &&& y) ||| (x &&& z) ||| (y &&& z)

/-- Macro `GG0`. -/
def GG0 (x y z : Nat) : Nat := x ^^^ y ^^^ z

/-- Macro `GG1`; `~x` on a `uint32_t` flips the low 32 bits. -/
def GG1 (x y z : Nat) : Nat := (x &&& y) ||| ((0xFFFFFFFF ^^^ x) &&& z)

/-- Macro `SHL(x, n)`. -/
def SHL (t : ShiftTarget) (x : Nat) (n : Int) : Nat := shl32 t (x &&& 0xFFFFFFFF) n

/-- Macro `ROTL(x, n)`: `SHL(x, n) | (x >> (32 - n))`, with no reduction of `n`. -/
def ROTL (t : ShiftTarget) (x : Nat) (n : Int) : Nat := SHL t x n ||| shr32 t x (32 - n)

/-- Macro `P0`. -/
def P0 (t : ShiftTarget) (x : Nat) : Nat := x ^^^ ROTL t x 9 ^^^ ROTL t x 17

/-- Macro `P1`. -/
def P1 (t : ShiftTarget) (x : Nat) : Nat := x ^^^ ROTL t x 15 ^^^ ROTL t x 23

/-- The eight working registers `A..H` of `sm3_process`. -/
structure Regs where
  A : Nat
  B : Nat
  C : Nat
  D : Nat
  E : Nat
  F : Nat
  G : Nat
  H : Nat
deriving DecidableEq, Repr

/-- Body of the two round loops of `sm3_process`; `ff` and `gg` are `FF0`/`GG0` in the
first loop and `FF1`/`GG1` in the second. -/
def sm3_process.round (t : ShiftTarget) (ff gg : Nat → Nat → Nat → Nat)
    (T W W1 : List Nat) (r : Regs) (j : Nat) : Regs :=
  let SS1 := ROTL t ((ROTL t r.A 12 + r.E + ROTL t (T.getD j 0) j) % 2 ^ 32) 7
  let SS2 := SS1 ^^^ ROTL t r.A 12
  let TT1 := (ff r.A r.B r.C + r.D + SS2 + W1.getD j 0) % 2 ^ 32
  let TT2 := (gg r.E r.F r.G + r.H + SS1 + W.getD j 0) % 2 ^ 32
  { D := r.C, C := ROTL t r.B 9, B := r.A, A := TT1,
    H := r.G, G := ROTL t r.F 19, F := r.E, E := P0 t TT2 }

/-- The table `T[64]` as the two initial loops of `sm3_process` fill it. -/
def sm3_process.T : List Nat :=
  (List.range' 16 48).foldl (fun T j => T.set j 0x7A879D8A)
    ((List.range' 0 16).foldl (fun T j => T.set j 0x79CC4519) (List.replicate 64 0))

/-- The schedule `W[68]`: sixteen big-endian loads, then the expansion loop. -/
def sm3_process.W (t : ShiftTarget) (data : List Nat) : List Nat :=
  (List.range' 16 52).foldl
    (fun W j =>
      let Temp1 := W.getD (j - 16) 0 ^^^ W.getD (j - 9) 0
      let Temp2 := ROTL t (W.getD (j - 3) 0) 15
      let Temp3 := Temp1 ^^^ Temp2
      let Temp4 := P1 t Temp3
      let Temp5 := ROTL t (W.getD (j - 13) 0) 7 ^^^ W.getD (j - 6) 0
      W.set j (Temp4 ^^^ Temp5))
    ((List.range 16).foldl (fun W k => W.set k (SM3_GET_ULONG_BE data (4 * k)))
      (List.replicate 68 0))

/-- The array `W1[64]`. -/
def sm3_process.W1 (W : List Nat) : List Nat :=
  (List.range' 0 64).foldl (fun W1 j => W1.set j (W.getD j 0 ^^^ W.getD (j + 4) 0))
    (List.replicate 64 0)

/-- Function `sm3_process`: one compression of the 64-byte block `data` into `ctx.state`.
The local arrays start as zeros; every cell is written before it is read. -/
def sm3_process (t : ShiftTarget) (ctx : sm3_context) (data : List Nat) : sm3_context :=
  let T := sm3_process.T
  let W := sm3_process.W t data
  let W1 := sm3_process.W1 W
  let r0 : Regs :=
    { A := ctx.state.getD 0 0, B := ctx.state.getD 1 0, C := ctx.state.getD 2 0,
      D := ctx.state.getD 3 0, E := ctx.state.getD 4 0, F := ctx.state.getD 5 0,
      G := ctx.state.getD 6 0, H := ctx.state.getD 7 0 }
  let r1 := (List.range' 0 16).foldl (sm3_process.round t FF0 GG0 T W W1) r0
  let r2 := (List.range' 16 48).foldl (sm3_process.round t FF1 GG1 T W W1) r1
  { ctx with
    state := [ctx.state.getD 0 0 ^^^ r2.A, ctx.state.getD 1 0 ^^^ r2.B,
              ctx.state.getD 2 0 ^^^ r2.C, ctx.state.getD 3 0 ^^^ r2.D,
              ctx.state.getD 4 0 ^^^ r2.E, ctx.state.getD 5 0 ^^^ r2.F,
              ctx.state.getD 6 0 ^^^ r2.G, ctx.state.getD 7 0 ^^^ r2.H]
    nproc := ctx.nproc + 1 }

/-- The loop `while (ilen >= 64)` of `sm3_update`: returns the context and the input
left over.  `fuel` bounds the number of iterations; each one consumes 64 bytes, so any
`fuel ≥ input.length / 64` runs the loop to its end. -/
def sm3_update.loop (t : ShiftTarget) : Nat → sm3_context → List Nat → sm3_context × List Nat
  | 0, ctx, input => (ctx, input)
  | fuel + 1, ctx, input =>
    if 64 ≤ input.length then
      sm3_update.loop t fuel (sm3_process t ctx (input.take 64)) (input.drop 64)
    else (ctx, input)

/-- The closing `if (ilen > 0) memcpy(ctx->buffer + left, input, ilen)` of `sm3_update`. -/
def sm3_update.store (ctx : sm3_context) (left : Nat) (input : List Nat) : sm3_context :=
  if 0 < input.length then
    { ctx with buffer := memcpy ctx.buffer left input input.length }
  else ctx

/-- Function `sm3_update`, with `ilen = input.length` (an `int`, so below `2^31`). -/
def sm3_update (t : ShiftTarget) (ctx : sm3_context) (input : List Nat) : sm3_context :=
  let ilen : Nat := input.length
  if ilen = 0 then ctx
  else
    let left := ctx.total0 &&& 0x3F
    let fill := 64 - left
    let total0 := ((ctx.total0 + ilen) % 2 ^ 32) &&& 0xFFFFFFFF
    let total1 := if total0 < ilen % 2 ^ 32 then (ctx.total1 + 1) % 2 ^ 32 else ctx.total1
    let ctx1 := { ctx with total0 := total0, total1 := total1 }
    if left ≠ 0 ∧ fill ≤ ilen then
      let ctx2 := { ctx1 with buffer := memcpy ctx1.buffer left input fill }
      let ctx3 := sm3_process t ctx2 ctx2.buffer
      let r := sm3_update.loop t (input.drop fill).length ctx3 (input.drop fill)
      sm3_update.store r.1 0 r.2
    else
      let r := sm3_update.loop t input.length ctx1 input
      sm3_update.store r.1 left r.2

/-- The table `padding[64]` of `sm3_finish`. -/
def sm3_finish.padding : List Nat := 0x80 :: List.replicate 63 0

/-- The local `padn` of `sm3_finish`. -/
def sm3_finish.padn (ctx : sm3_context) : Nat :=
  let last := ctx.total0 &&& 0x3F
  if last < 56 then 56 - last else 120 - last

/-- The local `msglen[8]` of `sm3_finish`: `high` then `low`, each stored big-endian. -/
def sm3_finish.msglen (ctx : sm3_context) : List Nat :=
  let high := (ctx.total0 >>> 29) ||| ((ctx.total1 <<< 3) % 2 ^ 32)
  let low := (ctx.total0 <<< 3) % 2 ^ 32
  SM3_PUT_ULONG_BE low (SM3_PUT_ULONG_BE high (List.replicate 8 0) 0) 4

/-- Function `sm3_finish`: returns the final context and `output` (the caller's 32 bytes
overwritten by the eight state words). -/
def sm3_finish (t : ShiftTarget) (ctx : sm3_context) (output : List Nat) :
    sm3_context × List Nat :=
  let msglen := sm3_finish.msglen ctx
  let padn := sm3_finish.padn ctx
  let ctx1 := sm3_update t ctx (sm3_finish.padding.take padn)
  let ctx2 := sm3_update t ctx1 msglen
  let out := (List.range 8).foldl
    (fun o k => SM3_PUT_ULONG_BE (ctx2.state.getD k 0) o (4 * k)) output
  (ctx2, out)


/-! ## Byte buffer (src/buffer.cpp, src/buffer.h) -/

/-- Class `BufferPrivate`: `m_data = none` is the null pointer, `some mem` an allocated
block with its current bytes. -/
structure BufferPrivate where
  m_size : Int
  m_capacity : Int
  m_data : Option (List Nat)
deriving DecidableEq

/-- Function `BufferPrivate::reserve`: a fresh zero-filled block receiving the first
`m_size` old bytes. -/
def BufferPrivate.reserve (b : BufferPrivate) (size : Int) : BufferPrivate :=
  if size ≤ b.m_capacity then b
  else
    let tmp := List.replicate size.toNat 0
    let tmp := if 0 < b.m_size then memcpy tmp 0 (b.m_data.getD []) b.m_size.toNat else tmp
    { b with m_data := some tmp, m_capacity := size }

/-- Function `BufferPrivate::resize`. -/
def BufferPrivate.resize (b : BufferPrivate) (size : Int) : BufferPrivate :=
  let b1 := b.reserve size
  if 0 ≤ size then { b1 with m_size := size } else b1

/-- Function `BufferPrivate::clear`. -/
def BufferPrivate.clear (_b : BufferPrivate) : BufferPrivate :=
  { m_size := 0, m_capacity := 0, m_data := none }

/-- Length `strlen(data)`: the number of bytes before the first zero byte. -/
def strlen (data : List Nat) : Nat := (data.takeWhile (fun c => c != 0)).length

/-- The call `memmove(mem + dst, mem + src, n)` inside one block. -/
def memmove (mem : List Nat) (dst src n : Nat) : List Nat :=
  memcpy mem dst (mem.drop src) n

/-- Function `BufferPrivate::insert`; `data` is the pointer argument (`none` when null,
otherwise the bytes readable from it).  The source computes `len + 64`, `left` and the
request `m_capacity + left` in `int`; the embedding follows it while these stay within
`INT_MAX` (`BufferPrivate.insertFits`), beyond that the source overflows. -/
def BufferPrivate.insert (b : BufferPrivate) (pos : Int) (data : Option (List Nat))
    (size : Int) : BufferPrivate :=
  match data with
  | none => b
  | some d =>
    let len : Int := if size < 0 then (strlen d : Int) + 1 else size
    let left := b.m_capacity - b.m_size
    let b1 :=
      if len > left then b.reserve (b.m_capacity + (left + ((len + 64) / 64 + 1) * 64))
      else b
    match b1.m_data with
    | none => b1
    | some mem =>
      if pos ≥ b1.m_size then
        { b1 with
          m_data := some (memcpy mem b1.m_size.toNat d len.toNat)
          m_size := b1.m_size + len }
      else
        let mem1 :=
          if 0 < b1.m_size then
            memmove mem (pos + len).toNat pos.toNat (b1.m_size - pos).toNat
          else mem
        { b1 with
          m_data := some (memcpy mem1 pos.toNat d len.toNat)
          m_size := b1.m_size + len }

/-- Constructor `BufferPrivate(int size = -1)`. -/
def BufferPrivate.ofSize (size : Int) : BufferPrivate :=
  BufferPrivate.resize { m_size := 0, m_capacity := 0, m_data := none } size

/-- Constructor `BufferPrivate(const char* data, int size = -1)`. -/
def BufferPrivate.ofData (data : Option (List Nat)) (size : Int) : BufferPrivate :=
  BufferPrivate.insert { m_size := 0, m_capacity := 0, m_data := none } 0 data size

/-- Class `Buffer`: the owner of one `BufferPrivate`. -/
structure Buffer where
  m_ptr : BufferPrivate
deriving DecidableEq

/-- Constructor `Buffer(int size = -1)`; `Buffer{}` is `Buffer.ofSize (-1)`. -/
def Buffer.ofSize (size : Int) : Buffer := ⟨BufferPrivate.ofSize size⟩

/-- Constructor `Buffer(const char* data, int size = -1)`. -/
def Buffer.ofData (data : Option (List Nat)) (size : Int) : Buffer :=
  ⟨BufferPrivate.ofData data size⟩

/-- Constructor `Buffer(const std::string& data)`: `c_str()` points at the characters
followed by a terminating zero. -/
def Buffer.ofString (data : List Nat) : Buffer :=
  Buffer.ofData (some (data ++ [0])) data.length

/-- Function `Buffer::isEmpty`. -/
def Buffer.isEmpty (b : Buffer) : Bool := b.m_ptr.m_size == 0

/-- Function `Buffer::size`. -/
def Buffer.size (b : Buffer) : Int := b.m_ptr.m_size

/-- Function `Buffer::data`: the bytes reachable from the returned pointer. -/
def Buffer.data (b : Buffer) : List Nat := b.m_ptr.m_data.getD []

/-- The logical content: the first `size` bytes of the storage. -/
def Buffer.bytes (b : Buffer) : List Nat := b.data.take b.size.toNat

/-- Operator `Buffer::operator==`: equal sizes and `memcmp` over `size` bytes. -/
def Buffer.eq (a b : Buffer) : Bool :=
  if a.m_ptr.m_size ≠ b.size then false
  else a.data.take a.m_ptr.m_size.toNat == b.data.take a.m_ptr.m_size.toNat

/-- Function `Buffer::resize`. -/
def Buffer.resize (b : Buffer) (size : Int) : Buffer := ⟨b.m_ptr.resize size⟩

/-- Function `Buffer::insert(int, const char*, int)`. -/
def Buffer.insert (b : Buffer) (pos : Int) (data : Option (List Nat)) (size : Int) : Buffer :=
  ⟨b.m_ptr.insert pos data size⟩

/-- Function `Buffer::append(const char*, int)`. -/
def Buffer.append (b : Buffer) (data : Option (List Nat)) (size : Int) : Buffer :=
  b.insert b.m_ptr.m_size data size

/-- The buffer invariant: `0 ≤ size ≤ capacity`, and the storage is a block of
`capacity` bytes, absent only when the capacity is zero. -/
def BufferPrivate.wf (b : BufferPrivate) : Prop :=
  0 ≤ b.m_size ∧ b.m_size ≤ b.m_capacity ∧
    match b.m_data with
    | none => b.m_capacity = 0
    | some mem => (mem.length : Int) = b.m_capacity

/-- The invariant of the owned `BufferPrivate`. -/
def Buffer.wf (b : Buffer) : Prop := b.m_ptr.wf

/-- The `int` arithmetic of `insert` of `len` bytes into `b` does not overflow: the
capacity is an `int`, and when the buffer has to grow, the request
`m_capacity + left` (with `left` already increased by `((len + 64) / 64 + 1) * 64`) is
at most `INT_MAX`.  It bounds `len` and `len + 64` as well. -/
def BufferPrivate.insertFits (b : BufferPrivate) (len : Int) : Prop :=
  b.m_capacity ≤ INT_MAX ∧
    (len > b.m_capacity - b.m_size →
      b.m_capacity + (b.m_capacity - b.m_size + ((len + 64) / 64 + 1) * 64) ≤ INT_MAX)

/-- Whether the arithmetic of an insert stays in range is decidable. -/
instance BufferPrivate.decInsertFits (b : BufferPrivate) (len : Int) :
    Decidable (b.insertFits len) := by
  unfold BufferPrivate.insertFits
  infer_instance

/-! ## SM3 entry point -/

/-- Function `sm3::encode`; `ctx` is the uninitialised local context. -/
def sm3.encode (t : ShiftTarget) (ctx : sm3_context) (data : Buffer) : Buffer :=
  if data.isEmpty then Buffer.ofSize (-1)
  else
    let buf := List.replicate 32 0
    let ctx1 := sm3_init ctx
    let ctx2 := sm3_update t ctx1 (data.data.take data.size.toNat)
    let r := sm3_finish t ctx2 buf
    Buffer.ofData (some r.2) 32

/-! ## Codecs -/

/-- Value `std::string::npos` for a 64-bit `size_t`. -/
def npos : Nat := 2 ^ 64 - 1

/-- Function `std::string::find(char)` from position 0. -/
def find (s : List Nat) (ch : Nat) : Nat :=
  match s.indexOf? ch with
  | some i => i
  | none => npos

/-- Constant `Hex::Chars`. -/
def Hex.Chars : List Nat := "0123456789ABCDEF".toList.map Char.toNat

/-- Function `Hex::isHex` on the bit pattern of a `char`. -/
def Hex.isHex (ch : Nat) : Bool :=
  (0x30 ≤ ch && ch ≤ 0x39) || (0x41 ≤ ch && ch ≤ 0x46) || (0x61 ≤ ch && ch ≤ 0x66)

/-- Function `Hex::hexToUpper`. -/
def Hex.hexToUpper (ch : Nat) : Nat :=
  if ch = 0x61 then 0x41
  else if ch = 0x62 then 0x42
  else if ch = 0x63 then 0x43
  else if ch = 0x64 then 0x44
  else if ch = 0x65 then 0x45
  else if ch = 0x66 then 0x46
  else ch

/-- Function `Hex::encode`. -/
def Hex.encode (buffer : Buffer) : List Nat :=
  let size := buffer.size
  let data := buffer.data
  (List.range size.toNat).foldl
    (fun hexStr i =>
      (hexStr ++ [Hex.Chars.getD ((data.getD i 0 &&& 0xf0) >>> 4) 0])
        ++ [Hex.Chars.getD ((data.getD i 0 &&& 0x0f) >>> 0) 0])
    []

/-- The `for` loop of `Hex::decode` over the characters not yet read: it stops at the
first pair whose first character fails `isHex`, and stores one byte per pair. -/
def Hex.decode.loop : List Nat → List Nat → Nat → List Nat
  | a :: b :: rest, data, j =>
    if !Hex.isHex (Hex.hexToUpper a) then data
    else
      Hex.decode.loop rest
        (data.set j ((((find Hex.Chars a <<< 4) % 2 ^ 64) ||| find Hex.Chars b) % 256)) (j + 1)
  | _, data, _ => data

/-- Function `Hex::decode`.  `size` is `hex.size()` narrowed to `int`, and the loop reads
the characters below index `size`.  For a text of `2^31` characters or more the narrowed
size is negative or too small; with a negative one the source stores through the null
pointer of the unsized buffer, which the embedding does not follow (it returns that
buffer). -/
def Hex.decode (hex : List Nat) : Buffer :=
  let buffer := Buffer.ofSize (-1)
  let size : Int := static_cast_int hex.length
  if size % 2 ≠ 0 then buffer
  else
    let buffer1 := buffer.resize (size / 2)
    match buffer1.m_ptr.m_data with
    | none => buffer1
    | some data =>
      ⟨{ buffer1.m_ptr with
         m_data := some (Hex.decode.loop (hex.take size.toNat) data 0) }⟩

/-- Function `Buffer::toHex`. -/
def Buffer.toHex (b : Buffer) : List Nat := Hex.encode b

/-- Function `Buffer::fromHex`. -/
def Buffer.fromHex (hex : List Nat) : Buffer := Hex.decode hex

/-- Constant `Base64::Chars`. -/
def Base64.Chars : List Nat :=
  "ABCDEFGHIJKLMNOPQRSTUVWXYZabcdefghijklmnopqrstuvwxyz0123456789+/".toList.map Char.toNat

/-- Function `Base64::isBase64`, with `std::isalnum` of the "C" locale. -/
def Base64.isBase64 (ch : Nat) : Bool :=
  ((0x30 ≤ ch && ch ≤ 0x39) || (0x41 ≤ ch && ch ≤ 0x5A) || (0x61 ≤ ch && ch ≤ 0x7A))
    || ch == 0x2B || ch == 0x2F

/-- The four assignments to `charArray_4` in `Base64::encode`. -/
def Base64.encode.quad (c3 : List Nat) : List Nat :=
  [((c3.getD 0 0 &&& 0xfc) >>> 2) % 256,
   (((c3.getD 0 0 &&& 0x03) <<< 4) + ((c3.getD 1 0 &&& 0xf0) >>> 4)) % 256,
   (((c3.getD 1 0 &&& 0x0f) <<< 2) + ((c3.getD 2 0 &&& 0xc0) >>> 6)) % 256,
   (c3.getD 2 0 &&& 0x3f) % 256]

/-- Loop state of `Base64::encode`: the index `i`, `charArray_3` and `ret`. -/
structure Base64.EncState where
  i : Nat
  charArray_3 : List Nat
  ret : List Nat

/-- One iteration of `while (inLen--)` in `Base64::encode`. -/
def Base64.encode.step (s : Base64.EncState) (byte : Nat) : Base64.EncState :=
  let c3 := s.charArray_3.set s.i byte
  let i := s.i + 1
  if i = 3 then
    { i := 0, charArray_3 := c3,
      ret := s.ret ++ (Base64.encode.quad c3).map (fun k => Base64.Chars.getD k 0) }
  else { i := i, charArray_3 := c3, ret := s.ret }

/-- The part of `Base64::encode` after the loop: the partial group and its `=` padding. -/
def Base64.encode.tail (s : Base64.EncState) : List Nat :=
  if s.i ≠ 0 then
    let c3 := (List.range' s.i (3 - s.i)).foldl (fun c j => c.set j 0) s.charArray_3
    let c4 := Base64.encode.quad c3
    let ret := s.ret ++ (c4.take (s.i + 1)).map (fun k => Base64.Chars.getD k 0)
    ret ++ List.replicate (3 - s.i) 0x3D
  else s.ret

/-- Function `Base64::encode`.  The local `charArray_3` starts as zeros; each cell is
written before it is read. -/
def Base64.encode (buffer : Buffer) : List Nat :=
  Base64.encode.tail
    ((buffer.data.take buffer.size.toNat).foldl Base64.encode.step
      { i := 0, charArray_3 := [0, 0, 0], ret := [] })

/-- The three assignments to `charArray_3` in `Base64::decode`, each truncated to a `char`. -/
def Base64.decode.triple (c4 : List Nat) : List Nat :=
  [((c4.getD 0 0 <<< 2) + ((c4.getD 1 0 &&& 0x30) >>> 4)) % 256,
   (((c4.getD 1 0 &&& 0xf) <<< 4) + ((c4.getD 2 0 &&& 0x3c) >>> 2)) % 256,
   (((c4.getD 2 0 &&& 0x3) <<< 6) + c4.getD 3 0) % 256]

/-- Loop state of `Base64::decode`: the index `i`, `charArray_4` and `ret`. -/
structure Base64.DecState where
  i : Nat
  charArray_4 : List Nat
  ret : List Nat

/-- The cast `static_cast<char>(Chars.find(c))`. -/
def Base64.decode.index (c : Nat) : Nat := find Base64.Chars c % 256

/-- The `while` loop of `Base64::decode` over the characters not yet read; it stops at
the end, at `=` or at a character failing `isBase64`. -/
def Base64.decode.loop : List Nat → Base64.DecState → Base64.DecState
  | [], s => s
  | ch :: rest, s =>
    if ch != 0x3D && Base64.isBase64 ch then
      let c4 := s.charArray_4.set s.i ch
      let i := s.i + 1
      if i = 4 then
        let c4' := c4.map Base64.decode.index
        Base64.decode.loop rest
          { i := 0, charArray_4 := c4', ret := s.ret ++ Base64.decode.triple c4' }
      else Base64.decode.loop rest { i := i, charArray_4 := c4, ret := s.ret }
    else s

/-- The part of `Base64::decode` after the loop: the bytes of a trailing partial group. -/
def Base64.decode.tail (s : Base64.DecState) : List Nat :=
  if s.i ≠ 0 then
    let c4 := (List.range' s.i (4 - s.i)).foldl (fun c j => c.set j 0) s.charArray_4
    let c4' := c4.map Base64.decode.index
    s.ret ++ (Base64.decode.triple c4').take (s.i - 1)
  else s.ret

/-- Function `Base64::decode`.  The local `charArray_4` starts as zeros; each cell is
written before it is read.  The source walks the text with the `int` index `in`; the
recursion over the list follows it for texts of at most `INT_MAX` characters, beyond
that the index overflows. -/
def Base64.decode (base64 : List Nat) : Buffer :=
  Buffer.ofString
    (Base64.decode.tail
      (Base64.decode.loop base64 { i := 0, charArray_4 := [0, 0, 0, 0], ret := [] }))

/-- Function `Buffer::toBase64`. -/
def Buffer.toBase64 (b : Buffer) : List Nat := Base64.encode b

/-- Function `Buffer::fromBase64`. -/
def Buffer.fromBase64 (base64 : List Nat) : Buffer := Base64.decode base64

/-! ## The compression function as the SM3 standard words it -/

/-- Left rotation of a 32-bit word `x` (below `2^32`) by `n mod 32` bits. -/
def Std.rotl (x n : Nat) : Nat := ((x <<< (n % 32)) % 2 ^ 32) ||| (x >>> (32 - n % 32))

/-- Permutation `P0(x) = x ^ rotl(x,9) ^ rotl(x,17)`. -/
def Std.P0 (x : Nat) : Nat := x ^^^ Std.rotl x 9 ^^^ Std.rotl x 17

/-- Permutation `P1(x) = x ^ rotl(x,15) ^ rotl(x,23)`. -/
def Std.P1 (x : Nat) : Nat := x ^^^ Std.rotl x 15 ^^^ Std.rotl x 23

/-- Round constant `T_j`. -/
def Std.T (j : Nat) : Nat := if j < 16 then 0x79CC4519 else 0x7A879D8A

/-- Boolean function `FF_j`. -/
def Std.FF (j x y z : Nat) : Nat :=
  if j < 16 then x ^^^ y ^^^ z else (x &&& y) ||| (x &&& z) ||| (y &&& z)

/-- Boolean function `GG_j`, with the complement taken on 32 bits. -/
def Std.GG (j x y z : Nat) : Nat :=
  if j < 16 then x ^^^ y ^^^ z else (x &&& y) ||| ((0xFFFFFFFF ^^^ x) &&& z)

/-- Big-endian 32-bit word number `k` of a block. -/
def Std.word (B : List Nat) (k : Nat) : Nat :=
  (B.getD (4 * k) 0 * 2 ^ 24 + B.getD (4 * k + 1) 0 * 2 ^ 16 + B.getD (4 * k + 2) 0 * 2 ^ 8
    + B.getD (4 * k + 3) 0) % 2 ^ 32

/-- Message expansion: `W[0..15]` are the words of the block and
`W[j] = P1(W[j-16] ^ W[j-9] ^ rotl(W[j-3],15)) ^ rotl(W[j-13],7) ^ W[j-6]` for `16 ≤ j < 68`. -/
def Std.W (B : List Nat) : List Nat :=
  (List.range' 16 52).foldl
    (fun W j =>
      W ++ [Std.P1 (W.getD (j - 16) 0 ^^^ W.getD (j - 9) 0 ^^^ Std.rotl (W.getD (j - 3) 0) 15)
              ^^^ Std.rotl (W.getD (j - 13) 0) 7 ^^^ W.getD (j - 6) 0])
    ((List.range 16).map (Std.word B))

/-- Round `j` of the compression function on the registers. -/
def Std.round (W : List Nat) (r : Regs) (j : Nat) : Regs :=
  let SS1 := Std.rotl ((Std.rotl r.A 12 + r.E + Std.rotl (Std.T j) (j % 32)) % 2 ^ 32) 7
  let SS2 := SS1 ^^^ Std.rotl r.A 12
  let TT1 := (Std.FF j r.A r.B r.C + r.D + SS2 + (W.getD j 0 ^^^ W.getD (j + 4) 0)) % 2 ^ 32
  let TT2 := (Std.GG j r.E r.F r.G + r.H + SS1 + W.getD j 0) % 2 ^ 32
  { A := TT1, B := r.A, C := Std.rotl r.B 9, D := r.C,
    E := Std.P0 TT2, F := r.E, G := Std.rotl r.F 19, H := r.G }

/-- Compression function `CF(V, B)`: 64 rounds from the registers `V`, then the XOR with `V`. -/
def Std.CF (V : List Nat) (B : List Nat) : List Nat :=
  let r := (List.range 64).foldl (Std.round (Std.W B))
    { A := V.getD 0 0, B := V.getD 1 0, C := V.getD 2 0, D := V.getD 3 0,
      E := V.getD 4 0, F := V.getD 5 0, G := V.getD 6 0, H := V.getD 7 0 }
  [V.getD 0 0 ^^^ r.A, V.getD 1 0 ^^^ r.B, V.getD 2 0 ^^^ r.C, V.getD 3 0 ^^^ r.D,
   V.getD 4 0 ^^^ r.E, V.getD 5 0 ^^^ r.F, V.getD 6 0 ^^^ r.G, V.getD 7 0 ^^^ r.H]

/-- The padded single block of the message "abc". -/
def abcBlock : List Nat :=
  [0x61, 0x62, 0x63, 0x80] ++ List.replicate 59 0 ++ [0x18]

/-- The digest of "abc" published with the SM3 standard, as 32 bytes. -/
def abcDigest : List Nat :=
  [0x66, 0xc7, 0xf0, 0xf4, 0x62, 0xee, 0xed, 0xd9, 0xd1, 0xf2, 0xd4, 0x6b, 0xdc, 0x10, 0xe4, 0xe2,
   0x41, 0x67, 0xc4, 0x87, 0x5c, 0xf2, 0xf7, 0xa2, 0x29, 0x7d, 0xa0, 0x2b, 0x8f, 0x4b, 0xa8, 0xe0]

/-- The hex string the specification prints for the digest of "abc" (63 characters). -/
def abcSpecHex : List Nat :=
  "66c7f0f462eeedd9d1f2d46bdc10e4e24167c4875cf2f7a2297da02b8f4ba8e".toList.map Char.toNat

/-! ### Proof-side view of the streaming state -/

/-- State words after one compression of `data` from the state `st`. -/
def compress (t : ShiftTarget) (st : List Nat) (data : List Nat) : List Nat :=
  (sm3_process t ⟨0, 0, st, [], 0⟩ data).state

/-- Pure counterpart of `sm3_update.loop` on the state words alone. -/
def absorbBlocks (t : ShiftTarget) : Nat → List Nat → List Nat → List Nat × List Nat
  | 0, st, input => (st, input)
  | fuel + 1, st, input =>
    if 64 ≤ input.length then
      absorbBlocks t fuel (compress t st (input.take 64)) (input.drop 64)
    else (st, input)

/-- The blocks of `input` absorbed into `st`, and the bytes left over. -/
def absorbAll (t : ShiftTarget) (st input : List Nat) : List Nat × List Nat :=
  absorbBlocks t input.length st input

/-- What the code reads of a context between two calls: the counters, the state words and
the first `total0 mod 64` bytes of `buffer`. -/
structure View where
  total0 : Nat
  total1 : Nat
  state : List Nat
  pending : List Nat
deriving DecidableEq

/-- The view of a context. -/
def view (ctx : sm3_context) : View :=
  ⟨ctx.total0, ctx.total1, ctx.state, ctx.buffer.take (ctx.total0 % 64)⟩

/-- Effect of absorbing `x` on a view. -/
def View.absorb (t : ShiftTarget) (v : View) (x : List Nat) : View :=
  if x.length = 0 then v
  else
    let total0 := (v.total0 + x.length) % 2 ^ 32
    let total1 := if total0 < x.length % 2 ^ 32 then (v.total1 + 1) % 2 ^ 32 else v.total1
    let r := absorbAll t v.state (v.pending ++ x)
    ⟨total0, total1, r.1, r.2⟩

/-- The view reached from `sm3_init` once the message `m` has been absorbed. -/
def msgView (t : ShiftTarget) (m : List Nat) : View :=
  ⟨m.length, 0,
    (absorbAll t [0x7380166F, 0x4914B2B9, 0x172442D7, 0xDA8A0600,
                  0xA96F30BC, 0x163138AA, 0xE38DEE4D, 0xB0FB0E4E] m).1,
    (absorbAll t [0x7380166F, 0x4914B2B9, 0x172442D7, 0xDA8A0600,
                  0xA96F30BC, 0x163138AA, 0xE38DEE4D, 0xB0FB0E4E] m).2⟩

/-- Big-endian serialization of a 32-bit word: most significant byte first. -/
def be32 (w : Nat) : List Nat := [w / 2 ^ 24 % 256, w / 2 ^ 16 % 256, w / 2 ^ 8 % 256, w % 256]

/-- The two characters `Hex::encode` emits for one byte. -/
def Hex.pair (x : Nat) : List Nat :=
  [Hex.Chars.getD ((x &&& 0xf0) >>> 4) 0, Hex.Chars.getD ((x &&& 0x0f) >>> 0) 0]

/-- The characters `Base64::encode` emits for a full group of three bytes. -/
def Base64.enc3 (a b c : Nat) : List Nat :=
  (Base64.encode.quad [a, b, c]).map (fun k => Base64.Chars.getD k 0)

/-- The text `Base64::encode` produces, group by group. -/
def Base64.encBlocks : List Nat → List Nat
  | a :: b :: c :: rest => Base64.enc3 a b c ++ Base64.encBlocks rest
  | [a, b] => ((Base64.encode.quad [a, b, 0]).take 3).map (fun k => Base64.Chars.getD k 0) ++ [0x3D]
  | [a] => ((Base64.encode.quad [a, 0, 0]).take 2).map (fun k => Base64.Chars.getD k 0)
      ++ [0x3D, 0x3D]
  | [] => []

/-! ## Endian canonicalizer (src/endian.h) and serialization cursor -/

/-- Byte order of the host: which end of an integer lies at the lowest address. -/
inductive ByteOrder where
  | little
  | big
deriving DecidableEq, Repr

/-- The fixed-width integer types handled by `swap`, `write` and `read`. -/
inductive IntType where
  | uint8_t
  | uint16_t
  | uint32_t
  | uint64_t
  | int8_t
  | int16_t
  | int32_t
  | int64_t
deriving DecidableEq, Repr

/-- Value `sizeof(T)`. -/
def IntType.sizeof : IntType → Nat
  | .uint8_t => 1
  | .uint16_t => 2
  | .uint32_t => 4
  | .uint64_t => 8
  | .int8_t => 1
  | .int16_t => 2
  | .int32_t => 4
  | .int64_t => 8

/-- Width of `T` in bits. -/
def IntType.bits (T : IntType) : Nat := 8 * T.sizeof

/-- Whether `T` is one of the `intN_t` types. -/
def IntType.isSigned : IntType → Bool
  | .int8_t => true
  | .int16_t => true
  | .int32_t => true
  | .int64_t => true
  | _ => false

/-- The values a variable of type `T` can hold. -/
def IntType.inRange (T : IntType) (v : Int) : Prop :=
  if T.isSigned then -(2 ^ (T.bits - 1) : Int) ≤ v ∧ v < 2 ^ (T.bits - 1)
  else 0 ≤ v ∧ v < 2 ^ T.bits

/-- Membership in the range of a type is decidable. -/
instance IntType.decInRange (T : IntType) (v : Int) : Decidable (T.inRange v) := by
  unfold IntType.inRange
  infer_instance

/-- Conversion of `v` to the unsigned type of `bits` bits: the two's-complement pattern. -/
def toUnsigned (bits : Nat) (v : Int) : Nat := (v % 2 ^ bits).toNat

/-- Conversion of the pattern `u` to the signed type of `bits` bits. -/
def toSigned (bits : Nat) (u : Nat) : Int :=
  if u % 2 ^ bits < 2 ^ (bits - 1) then ((u % 2 ^ bits : Nat) : Int)
  else ((u % 2 ^ bits : Nat) : Int) - 2 ^ bits

/-- Object representation of an unsigned value in `n` bytes of host memory, lowest
address first. -/
def objectBytes (h : ByteOrder) (n : Nat) (v : Nat) : List Nat :=
  match h with
  | .little => (List.range n).map (fun i => v / 256 ^ i % 256)
  | .big => ((List.range n).map (fun i => v / 256 ^ i % 256)).reverse

/-- Unsigned value held by the bytes of an object, lowest address first. -/
def objectValue (h : ByteOrder) (bytes : List Nat) : Nat :=
  match h with
  | .little => bytes.foldr (fun b acc => b + 256 * acc) 0
  | .big => bytes.foldl (fun acc b => acc * 256 + b) 0

/-- Function `isBigEndian`: the first byte of the `unsigned int` 1 (4 bytes) is not 1. -/
def isBigEndian (h : ByteOrder) : Bool := (objectBytes h 4 1).getD 0 0 != 1

/-- Specialisation `swap<uint64_t>`. -/
def swap_uint64_t (v : Nat) : Nat :=
  0 ||| ((v &&& 0x00000000000000ff) <<< 56) % 2 ^ 64
    ||| ((v &&& 0x000000000000ff00) <<< 40) % 2 ^ 64
    ||| ((v &&& 0x0000000000ff0000) <<< 24) % 2 ^ 64
    ||| ((v &&& 0x00000000ff000000) <<< 8) % 2 ^ 64
    ||| ((v &&& 0x000000ff00000000) >>> 8)
    ||| ((v &&& 0x0000ff0000000000) >>> 24)
    ||| ((v &&& 0x00ff000000000000) >>> 40)
    ||| ((v &&& 0xff00000000000000) >>> 56)

/-- Specialisation `swap<uint32_t>`. -/
def swap_uint32_t (v : Nat) : Nat :=
  0 ||| ((v &&& 0x000000ff) <<< 24) % 2 ^ 32
    ||| ((v &&& 0x0000ff00) <<< 8) % 2 ^ 32
    ||| ((v &&& 0x00ff0000) >>> 8)
    ||| ((v &&& 0xff000000) >>> 24)

/-- Specialisation `swap<uint16_t>`; the result is cast to `uint16_t`. -/
def swap_uint16_t (v : Nat) : Nat :=
  (0 ||| ((v &&& 0x00ff) <<< 8) ||| ((v &&& 0xff00) >>> 8)) % 2 ^ 16

/-- Specialisation `swap<uint8_t>`. -/
def swap_uint8_t (v : Nat) : Nat := v

/-- Template `swap<T>`: the signed specialisations convert to the unsigned type, swap,
and convert back; the 8-bit ones return their argument. -/
def swap (T : IntType) (v : Int) : Int :=
  match T with
  | .uint64_t => swap_uint64_t v.toNat
  | .uint32_t => swap_uint32_t v.toNat
  | .uint16_t => swap_uint16_t v.toNat
  | .uint8_t => swap_uint8_t v.toNat
  | .int64_t => toSigned 64 (swap_uint64_t (toUnsigned 64 v))
  | .int32_t => toSigned 32 (swap_uint32_t (toUnsigned 32 v))
  | .int16_t => toSigned 16 (swap_uint16_t (toUnsigned 16 v))
  | .int8_t => v

/-- Template `toBigEndian<T>`. -/
def toBigEndian (h : ByteOrder) (T : IntType) (v : Int) : Int :=
  if isBigEndian h then v else swap T v

/-- Template `fromBigEndian<T>`. -/
def fromBigEndian (h : ByteOrder) (T : IntType) (v : Int) : Int :=
  if isBigEndian h then v else swap T v

/-- The bytes of a variable of type `T` holding `v`, lowest address first. -/
def IntType.objectBytes (h : ByteOrder) (T : IntType) (v : Int) : List Nat :=
  crypto.objectBytes h T.sizeof (toUnsigned T.bits v)

/-- The value of a variable of type `T` whose bytes are `bytes`. -/
def IntType.objectValue (h : ByteOrder) (T : IntType) (bytes : List Nat) : Int :=
  if T.isSigned then toSigned T.bits (crypto.objectValue h bytes)
  else crypto.objectValue h bytes

/-- Class `BufferWriter`: a reference to the buffer written to. -/
structure BufferWriter where
  m_buffer : Buffer

/-- Class `BufferReader`: a reference to the buffer read and the position. -/
structure BufferReader where
  m_buffer : Buffer
  m_position : Int

/-- Constructor `BufferReader(const Buffer&)`. -/
def BufferReader.ofBuffer (buffer : Buffer) : BufferReader := ⟨buffer, 0⟩

/-- Function `BufferReader::read(char*, int)`: the reader, the caller's memory after the
copy, and the returned count. -/
def BufferReader.read (r : BufferReader) (buffer : List Nat) (len : Int) :
    BufferReader × List Nat × Int :=
  let size := r.m_buffer.size
  if r.m_position ≥ size then (r, buffer, 0)
  else
    let left := size - r.m_position
    let count := if len > left then left else len
    ({ r with m_position := r.m_position + count },
      memcpy buffer 0 (r.m_buffer.data.drop r.m_position.toNat) count.toNat, count)

/-- Function `BufferReader::position`. -/
def BufferReader.position (r : BufferReader) : Int := r.m_position

/-- Template `read<T>(BufferReader&, T&)`, the body of every integer `operator>>`:
`data` is the variable before the call, the result its value after it. -/
def read (h : ByteOrder) (T : IntType) (reader : BufferReader) (data : Int) :
    BufferReader × Int :=
  let r := reader.read (T.objectBytes h data) T.sizeof
  let data1 := T.objectValue h r.2.1
  if r.2.2 = T.sizeof then (r.1, fromBigEndian h T data1) else (r.1, data1)

/-- Big-endian serialization of a value of type `T`: byte `i` holds the bits
`[w - 8(i+1), w - 8i)` of the two's-complement pattern, `w` the width of `T`. -/
def beBytes (T : IntType) (v : Int) : List Nat :=
  (List.range T.sizeof).map (fun i => toUnsigned T.bits v / 2 ^ (T.bits - 8 * (i + 1)) % 256)

/-! ## Further buffer and cursor operations (src/buffer.cpp) -/

/-- Function `BufferPrivate::truncate`: the fresh block of `size` bytes receives the
first `size` old bytes.  The block comes from `malloc`; the embedding starts it at zero,
and the copy overwrites all of it whenever the old size is positive. -/
def BufferPrivate.truncate (b : BufferPrivate) (size : Int) : BufferPrivate :=
  if b.m_size ≤ size then b
  else if size = 0 then b.clear
  else
    let tmp := List.replicate size.toNat 0
    let tmp := if 0 < b.m_size then memcpy tmp 0 (b.m_data.getD []) size.toNat else tmp
    { m_size := size, m_capacity := size, m_data := some tmp }

/-- Function `BufferPrivate::remove`: one `memmove` inside the block, then the size drops. -/
def BufferPrivate.remove (b : BufferPrivate) (pos len : Int) : BufferPrivate :=
  { b with
    m_data := b.m_data.map
      (fun mem => memmove mem pos.toNat (pos + len).toNat (b.m_size - pos - len).toNat)
    m_size := b.m_size - len }

/-- Operator `BufferPrivate::operator=(const BufferPrivate&)` for `this != &other`. -/
def BufferPrivate.assign (b other : BufferPrivate) : BufferPrivate :=
  let b1 :=
    if b.m_capacity ≠ other.m_capacity then
      if 0 < other.m_size then b.clear.resize other.m_size else b.clear
    else b
  if 0 < other.m_size then
    { b1 with
      m_data := b1.m_data.map
        (fun mem => memcpy mem 0 (other.m_data.getD []) other.m_size.toNat) }
  else b1

/-- Operator `BufferPrivate::operator=(BufferPrivate&&)` for `this != &other`: the new
value of `*this` and of `other`. -/
def BufferPrivate.move (_b other : BufferPrivate) : BufferPrivate × BufferPrivate :=
  (other, { m_size := 0, m_capacity := 0, m_data := none })

/-- Operator `Buffer::operator=(const Buffer&)`. -/
def Buffer.assign (a other : Buffer) : Buffer := ⟨a.m_ptr.assign other.m_ptr⟩

/-- Function `Buffer::truncate`. -/
def Buffer.truncate (b : Buffer) (size : Int) : Buffer := ⟨b.m_ptr.truncate size⟩

/-- Function `Buffer::remove`. -/
def Buffer.remove (b : Buffer) (pos len : Int) : Buffer := ⟨b.m_ptr.remove pos len⟩

/-- Function `Buffer::append(char)`. -/
def Buffer.append_char (b : Buffer) (ch : Nat) : Buffer := b.append (some [ch]) 1

/-- Function `Buffer::append(const std::string&)`: the characters, then a zero byte. -/
def Buffer.append_string (b : Buffer) (data : List Nat) : Buffer :=
  (b.append (some (data ++ [0])) data.length).append_char 0

/-- Operator `BufferWriter::operator<<(const std::string&)`. -/
def BufferWriter.writeString (w : BufferWriter) (value : List Nat) : BufferWriter :=
  ⟨w.m_buffer.append_string value⟩

/-- Function `BufferReader::seek`: the reader and the returned previous position. -/
def BufferReader.seek (r : BufferReader) (position : Int) : BufferReader × Int :=
  let tmp := r.m_position
  let size := r.m_buffer.size
  let np := if position < 0 then 0 else if position > size then size else position
  ({ r with m_position := np }, tmp)

/-- The loop `while (tmp < size) { if (data[tmp] == 0) break; ++tmp; }` of the string
read; `fuel` bounds the iterations, and `size - tmp` of them always suffice. -/
def BufferReader.readString.scan (data : List Nat) (size : Int) : Nat → Int → Int
  | 0, tmp => tmp
  | fuel + 1, tmp =>
    if tmp < size then
      if data.getD tmp.toNat 0 = 0 then tmp
      else BufferReader.readString.scan data size fuel (tmp + 1)
    else tmp

/-- Operator `BufferReader::operator>>(std::string&)`: the reader and the string after
the call, `value` being the string before it. -/
def BufferReader.readString (r : BufferReader) (value : List Nat) :
    BufferReader × List Nat :=
  let size := r.m_buffer.size
  let data := r.m_buffer.data
  let tmp := BufferReader.readString.scan data size (size - r.m_position).toNat r.m_position
  if tmp > r.m_position then
    ({ r with m_position := tmp + 1 },
      (data.drop r.m_position.toNat).take (tmp - r.m_position).toNat)
  else (r, value)

/-- Operator `BufferReader::operator>>(Buffer&)`: `read(buffer.data(), buffer.size())`;
returns the reader and the buffer whose storage received the bytes. -/
def BufferReader.readBuffer (r : BufferReader) (buffer : Buffer) : BufferReader × Buffer :=
  let res := r.read buffer.data buffer.size
  (res.1, ⟨{ buffer.m_ptr with m_data := buffer.m_ptr.m_data.map (fun _ => res.2.1) }⟩)

/-! ## Proof-side notions for the cursor -/

/-- The reader invariant `0 ≤ position ≤ size`. -/
def BufferReader.inv (r : BufferReader) : Prop :=
  0 ≤ r.m_position ∧ r.m_position ≤ r.m_buffer.size

/-- The reader invariant is decidable. -/
instance BufferReader.decInv (r : BufferReader) : Decidable r.inv := by
  unfold BufferReader.inv
  infer_instance

/-- Unsigned value of a big-endian byte string. -/
def beValue (bytes : List Nat) : Nat := bytes.foldl (fun acc b => acc * 256 + b) 0

/-- The 64-bit bit count `8 * (total[1] * 2^32 + total[0])` reduced modulo `2^64`. -/
def bitLength (ctx : sm3_context) : Nat := (8 * (ctx.total1 * 2 ^ 32 + ctx.total0)) % 2 ^ 64

/-! # Theorems -/

set_option maxRecDepth 1000000

/-! ### SM3 streaming lemmas -/

theorem sm3_process_state (t : ShiftTarget) (ctx : sm3_context) (data : List Nat) :
    (sm3_process t ctx data).state = compress t ctx.state data := rfl

theorem sm3_process_frame (t : ShiftTarget) (ctx : sm3_context) (data : List Nat) :
    (sm3_process t ctx data).total0 = ctx.total0 ∧ (sm3_process t ctx data).total1 = ctx.total1
      ∧ (sm3_process t ctx data).buffer = ctx.buffer := ⟨rfl, rfl, rfl⟩

theorem loop_spec (t : ShiftTarget) (fuel : Nat) (ctx : sm3_context) (input : List Nat) :
    (sm3_update.loop t fuel ctx input).1.state = (absorbBlocks t fuel ctx.state input).1
      ∧ (sm3_update.loop t fuel ctx input).2 = (absorbBlocks t fuel ctx.state input).2
      ∧ (sm3_update.loop t fuel ctx input).1.total0 = ctx.total0
      ∧ (sm3_update.loop t fuel ctx input).1.total1 = ctx.total1
      ∧ (sm3_update.loop t fuel ctx input).1.buffer = ctx.buffer := by
  induction fuel generalizing ctx input with
  | zero => simp [sm3_update.loop, absorbBlocks]
  | succ n ih =>
    by_cases h : 64 ≤ input.length
    · simp only [sm3_update.loop, absorbBlocks, h, if_true]
      have := ih (sm3_process t ctx (input.take 64)) (input.drop 64)
      simpa [sm3_process_state, sm3_process_frame] using this
    · simp [sm3_update.loop, absorbBlocks, h]

theorem absorbBlocks_fuel (t : ShiftTarget) (fuel : Nat) :
    ∀ (fuel' : Nat) (st input : List Nat), input.length < 64 * (fuel + 1) →
      input.length < 64 * (fuel' + 1) →
      absorbBlocks t fuel st input = absorbBlocks t fuel' st input := by
  induction fuel with
  | zero =>
    intro fuel' st input h _
    cases fuel' with
    | zero => rfl
    | succ m =>
      have : ¬ 64 ≤ input.length := by omega
      simp [absorbBlocks, this]
  | succ n ih =>
    intro fuel' st input h h'
    by_cases hb : 64 ≤ input.length
    · cases fuel' with
      | zero => omega
      | succ m =>
        simp only [absorbBlocks, hb, if_true]
        apply ih
        · simp only [List.length_drop]; omega
        · simp only [List.length_drop]; omega
    · cases fuel' with
      | zero => simp [absorbBlocks, hb]
      | succ m => simp [absorbBlocks, hb]

theorem absorbAll_eq (t : ShiftTarget) (fuel : Nat) (st input : List Nat)
    (h : input.length < 64 * (fuel + 1)) :
    absorbBlocks t fuel st input = absorbAll t st input :=
  absorbBlocks_fuel t fuel input.length st input h (by omega)

theorem absorbAll_short (t : ShiftTarget) (st input : List Nat) (h : input.length < 64) :
    absorbAll t st input = (st, input) := by
  rw [← absorbAll_eq t 0 st input (by omega)]; rfl

theorem absorbAll_block (t : ShiftTarget) (st block rest : List Nat) (h : block.length = 64) :
    absorbAll t st (block ++ rest) = absorbAll t (compress t st block) rest := by
  rw [← absorbAll_eq t (rest.length + 1) st (block ++ rest) (by simp; omega)]
  rw [← absorbAll_eq t rest.length _ rest (by omega)]
  simp [absorbBlocks, h]

theorem absorbAll_rest_length (t : ShiftTarget) (n : Nat) :
    ∀ (st input : List Nat), input.length = n →
      (absorbAll t st input).2.length = n % 64 := by
  induction n using Nat.strong_induction_on with
  | _ n ih =>
    intro st input hn
    by_cases hb : 64 ≤ input.length
    · have hsplit : input = input.take 64 ++ input.drop 64 := (List.take_append_drop 64 input).symm
      rw [hsplit, absorbAll_block t st _ _ (by simp; omega)]
      rw [ih (n - 64) (by omega) _ _ (by simp; omega)]
      omega
    · rw [absorbAll_short t st input (by omega)]
      simp; omega

theorem absorbAll_append (t : ShiftTarget) (n : Nat) :
    ∀ (st m x : List Nat), m.length = n →
      absorbAll t st (m ++ x)
        = absorbAll t (absorbAll t st m).1 ((absorbAll t st m).2 ++ x) := by
  induction n using Nat.strong_induction_on with
  | _ n ih =>
    intro st m x hn
    by_cases hb : 64 ≤ m.length
    · have hsplit : m = m.take 64 ++ m.drop 64 := (List.take_append_drop 64 m).symm
      have hlen : (m.take 64).length = 64 := by simp; omega
      rw [hsplit, List.append_assoc, absorbAll_block t st _ _ hlen,
        absorbAll_block t st _ _ hlen]
      exact ih (n - 64) (by omega) _ _ _ (by simp; omega)
    · rw [absorbAll_short t st m (by omega)]

theorem memcpy_length (dst src : List Nat) (off len : Nat) (h1 : off + len ≤ dst.length)
    (h2 : len ≤ src.length) : (memcpy dst off src len).length = dst.length := by
  simp [memcpy]; omega

theorem memcpy_take (dst src : List Nat) (off len : Nat) (h1 : off ≤ dst.length)
    (h2 : len ≤ src.length) :
    (memcpy dst off src len).take (off + len) = dst.take off ++ src.take len := by
  have hl : (dst.take off ++ src.take len).length = off + len := by
    rw [List.length_append, List.length_take, List.length_take]; omega
  unfold memcpy
  exact List.take_left' hl

theorem and_3F (x : Nat) : x &&& 0x3F = x % 64 := Nat.and_pow_two_sub_one_eq_mod x 6

theorem and_FFFFFFFF (x : Nat) : x &&& 0xFFFFFFFF = x % 2 ^ 32 :=
  Nat.and_pow_two_sub_one_eq_mod x 32

theorem loop_all (t : ShiftTarget) (ctx : sm3_context) (input : List Nat) :
    (sm3_update.loop t input.length ctx input).1.state = (absorbAll t ctx.state input).1
      ∧ (sm3_update.loop t input.length ctx input).2 = (absorbAll t ctx.state input).2
      ∧ (sm3_update.loop t input.length ctx input).1.total0 = ctx.total0
      ∧ (sm3_update.loop t input.length ctx input).1.total1 = ctx.total1
      ∧ (sm3_update.loop t input.length ctx input).1.buffer = ctx.buffer :=
  loop_spec t input.length ctx input

theorem loop_store (t : ShiftTarget) (c : sm3_context) (input : List Nat) (off : Nat)
    (hb : c.buffer.length = 64) (hoff : off + input.length % 64 ≤ 64) :
    (sm3_update.store (sm3_update.loop t input.length c input).1 off
        (sm3_update.loop t input.length c input).2).state = (absorbAll t c.state input).1
      ∧ (sm3_update.store (sm3_update.loop t input.length c input).1 off
        (sm3_update.loop t input.length c input).2).total0 = c.total0
      ∧ (sm3_update.store (sm3_update.loop t input.length c input).1 off
        (sm3_update.loop t input.length c input).2).total1 = c.total1
      ∧ (sm3_update.store (sm3_update.loop t input.length c input).1 off
        (sm3_update.loop t input.length c input).2).buffer.length = 64
      ∧ (sm3_update.store (sm3_update.loop t input.length c input).1 off
        (sm3_update.loop t input.length c input).2).buffer.take (off + input.length % 64)
          = c.buffer.take off ++ (absorbAll t c.state input).2 := by
  obtain ⟨h1, h2, h3, h4, h5⟩ := loop_all t c input
  have hrest := absorbAll_rest_length t _ c.state input rfl
  generalize sm3_update.loop t input.length c input = r at h1 h2 h3 h4 h5
  obtain ⟨r1, r2⟩ := r
  simp only at h1 h2 h3 h4 h5
  subst h2
  unfold sm3_update.store
  split
  · refine ⟨h1, h3, h4, ?_, ?_⟩
    · simp only [h5]
      rw [memcpy_length c.buffer _ off _ (by rw [hb]; omega) (le_refl _), hb]
    · simp only [h5]
      rw [← hrest, memcpy_take c.buffer _ off _ (by rw [hb]; omega) (le_refl _)]
      simp
  · rename_i hpos
    have hnil : (absorbAll t c.state input).2 = [] := by
      simpa using hpos
    refine ⟨h1, h3, h4, by rw [h5, hb], ?_⟩
    rw [h5, ← hrest, hnil]; simp

/-- One call of `sm3_update` acts on the view as `View.absorb`, and keeps the block
buffer 64 bytes long. -/
theorem view_update (t : ShiftTarget) (ctx : sm3_context) (x : List Nat)
    (hb : ctx.buffer.length = 64) :
    view (sm3_update t ctx x) = (view ctx).absorb t x
      ∧ (sm3_update t ctx x).buffer.length = 64 := by
  by_cases hx : x.length = 0
  · simp [sm3_update, View.absorb, hx, hb]
  · have hmod : ctx.total0 % 64 < 64 := Nat.mod_lt _ (by norm_num)
    by_cases hA : ctx.total0 % 64 ≠ 0 ∧ 64 - ctx.total0 % 64 ≤ x.length
    · -- the pending bytes and the head of `x` make one block
      obtain ⟨hl, hf⟩ := hA
      have hblock : memcpy ctx.buffer (ctx.total0 % 64) x (64 - ctx.total0 % 64)
          = ctx.buffer.take (ctx.total0 % 64) ++ x.take (64 - ctx.total0 % 64) := by
        have := memcpy_take ctx.buffer x (ctx.total0 % 64) (64 - ctx.total0 % 64)
          (by omega) hf
        rw [← this]
        rw [List.take_of_length_le]
        rw [memcpy_length _ _ _ _ (by omega) hf]; omega
      have hblen : (ctx.buffer.take (ctx.total0 % 64)
          ++ x.take (64 - ctx.total0 % 64)).length = 64 := by
        rw [← hblock, memcpy_length _ _ _ _ (by omega) hf, hb]
      have hsplit : ctx.buffer.take (ctx.total0 % 64) ++ x
          = (ctx.buffer.take (ctx.total0 % 64) ++ x.take (64 - ctx.total0 % 64))
            ++ x.drop (64 - ctx.total0 % 64) := by simp
      simp only [sm3_update, hx, if_false, and_3F, and_FFFFFFFF, hl, hf, ne_eq,
        not_false_eq_true, and_self, if_true, View.absorb, view]
      rw [hsplit, absorbAll_block t _ _ _ hblen, hblock]
      generalize hc : sm3_process t _ _ = c
      have hcs : c.state = compress t ctx.state (ctx.buffer.take (ctx.total0 % 64)
          ++ x.take (64 - ctx.total0 % 64)) := by rw [← hc]; rfl
      have hc0 : c.total0 = (ctx.total0 + x.length) % 2 ^ 32 % 2 ^ 32 := by rw [← hc]; rfl
      have hc1 : c.total1 = if (ctx.total0 + x.length) % 2 ^ 32 % 2 ^ 32 < x.length % 2 ^ 32
          then (ctx.total1 + 1) % 2 ^ 32 else ctx.total1 := by rw [← hc]; rfl
      have hcb : c.buffer.length = 64 := by rw [← hc]; exact hblen
      obtain ⟨h1, h2, h3, h4, h5⟩ := loop_store t c (x.drop (64 - ctx.total0 % 64)) 0 hcb
        (by have := Nat.mod_lt (x.drop (64 - ctx.total0 % 64)).length (by norm_num : 0 < 64)
            omega)
      refine ⟨?_, h4⟩
      rw [h1, h2, h3, hcs, hc0, hc1]
      simp only [Nat.mod_mod, View.mk.injEq, true_and]
      have hk : (ctx.total0 + x.length) % 2 ^ 32 % 64
          = 0 + (x.drop (64 - ctx.total0 % 64)).length % 64 := by
        rw [List.length_drop]; omega
      rw [hk, h5, hcs]; simp
    · -- no block is completed by the pending bytes: the loop runs on `x` itself
      have hoff : ctx.total0 % 64 + x.length % 64 ≤ 64 := by
        have := Nat.mod_lt x.length (by norm_num : 0 < 64)
        omega
      have hjoin : absorbAll t ctx.state (ctx.buffer.take (ctx.total0 % 64) ++ x)
          = ((absorbAll t ctx.state x).1,
              ctx.buffer.take (ctx.total0 % 64) ++ (absorbAll t ctx.state x).2) := by
        by_cases h0 : ctx.total0 % 64 = 0
        · simp [h0]
        · have hlen : (ctx.buffer.take (ctx.total0 % 64) ++ x).length < 64 := by
            rw [List.length_append, List.length_take]; omega
          rw [absorbAll_short t _ _ hlen, absorbAll_short t _ x (by omega)]
      simp only [sm3_update, hx, if_false, and_3F, and_FFFFFFFF, hA, View.absorb, view]
      generalize hc : ({ ctx with
        total0 := (ctx.total0 + x.length) % 2 ^ 32 % 2 ^ 32
        total1 := if (ctx.total0 + x.length) % 2 ^ 32 % 2 ^ 32 < x.length % 2 ^ 32
          then (ctx.total1 + 1) % 2 ^ 32 else ctx.total1 } : sm3_context) = c
      have hcs : c.state = ctx.state := by rw [← hc]
      have hc0 : c.total0 = (ctx.total0 + x.length) % 2 ^ 32 % 2 ^ 32 := by rw [← hc]
      have hc1 : c.total1 = if (ctx.total0 + x.length) % 2 ^ 32 % 2 ^ 32 < x.length % 2 ^ 32
          then (ctx.total1 + 1) % 2 ^ 32 else ctx.total1 := by rw [← hc]
      have hcb : c.buffer = ctx.buffer := by rw [← hc]
      obtain ⟨h1, h2, h3, h4, h5⟩ := loop_store t c x (ctx.total0 % 64)
        (by rw [hcb]; exact hb) hoff
      refine ⟨?_, h4⟩
      rw [h1, h2, h3, hcs, hc0, hc1, hjoin]
      simp only [Nat.mod_mod, View.mk.injEq, true_and]
      have hk : (ctx.total0 + x.length) % 2 ^ 32 % 64
          = ctx.total0 % 64 + x.length % 64 := by omega
      rw [hk, h5, hcs, hcb]

theorem view_init (t : ShiftTarget) (c : sm3_context) : view (sm3_init c) = msgView t [] := by
  simp [view, sm3_init, msgView, absorbAll_short]

theorem msgView_absorb (t : ShiftTarget) (m x : List Nat) (h : (m ++ x).length < 2 ^ 32) :
    (msgView t m).absorb t x = msgView t (m ++ x) := by
  rw [List.length_append] at h
  by_cases hx : x.length = 0
  · have : x = [] := List.eq_nil_of_length_eq_zero hx
    subst this
    simp [View.absorb]
  · have h0 : (m.length + x.length) % 2 ^ 32 = m.length + x.length := Nat.mod_eq_of_lt h
    have h1 : x.length % 2 ^ 32 = x.length := Nat.mod_eq_of_lt (by omega)
    simp only [View.absorb, hx, if_false, msgView, h0, h1, List.length_append]
    rw [← absorbAll_append t m.length _ m x rfl]
    have : ¬ (m.length + x.length < x.length) := by omega
    simp [this]

theorem view_foldl_update (t : ShiftTarget) (chunks : List (List Nat)) :
    ∀ (ctx : sm3_context) (m : List Nat), ctx.buffer.length = 64 → view ctx = msgView t m →
      (m ++ chunks.flatten).length < 2 ^ 32 →
      view (chunks.foldl (sm3_update t) ctx) = msgView t (m ++ chunks.flatten)
        ∧ (chunks.foldl (sm3_update t) ctx).buffer.length = 64 := by
  induction chunks with
  | nil => intro ctx m hb hv _; simpa using ⟨hv, hb⟩
  | cons x rest ih =>
    intro ctx m hb hv hlen
    simp only [List.flatten_cons, List.foldl_cons] at hlen ⊢
    obtain ⟨h1, h2⟩ := view_update t ctx x hb
    rw [← List.append_assoc] at hlen ⊢
    apply ih _ _ h2 _ hlen
    rw [h1, hv]
    apply msgView_absorb
    simp only [List.length_append] at hlen ⊢
    omega

theorem sm3_finish_view (t : ShiftTarget) (ctx ctx' : sm3_context) (o : List Nat)
    (hb : ctx.buffer.length = 64) (hb' : ctx'.buffer.length = 64) (hv : view ctx = view ctx') :
    (sm3_finish t ctx o).2 = (sm3_finish t ctx' o).2 := by
  have h0 : ctx.total0 = ctx'.total0 := congrArg View.total0 hv
  have h1 : ctx.total1 = ctx'.total1 := congrArg View.total1 hv
  have hp : sm3_finish.padn ctx = sm3_finish.padn ctx' := by simp [sm3_finish.padn, h0]
  have hm : sm3_finish.msglen ctx = sm3_finish.msglen ctx' := by
    simp [sm3_finish.msglen, h0, h1]
  obtain ⟨a1, a2⟩ := view_update t ctx (sm3_finish.padding.take (sm3_finish.padn ctx)) hb
  obtain ⟨b1, b2⟩ := view_update t ctx' (sm3_finish.padding.take (sm3_finish.padn ctx')) hb'
  obtain ⟨c1, _⟩ := view_update t _ (sm3_finish.msglen ctx) a2
  obtain ⟨d1, _⟩ := view_update t _ (sm3_finish.msglen ctx') b2
  have hs : view (sm3_update t (sm3_update t ctx
      (sm3_finish.padding.take (sm3_finish.padn ctx))) (sm3_finish.msglen ctx))
      = view (sm3_update t (sm3_update t ctx'
      (sm3_finish.padding.take (sm3_finish.padn ctx'))) (sm3_finish.msglen ctx')) := by
    rw [c1, d1, a1, b1, hv, hp, hm]
  have hst := congrArg View.state hs
  simp only [view] at hst
  simp only [sm3_finish, hst]

/-- C1: for a message below `2^31` bytes cut into any list of chunks (empty ones
included), `sm3_init`, one `sm3_update` per chunk and `sm3_finish` write the same 32
output bytes as `sm3_init`, a single `sm3_update` of the whole message and `sm3_finish`;
the two runs may start from different uninitialised contexts. -/
theorem sm3_chunked_eq_whole (t : ShiftTarget) (c c' : sm3_context) (o : List Nat)
    (chunks : List (List Nat)) (hc : c.buffer.length = 64) (hc' : c'.buffer.length = 64)
    (hm : chunks.flatten.length < 2 ^ 31) :
    (sm3_finish t (chunks.foldl (sm3_update t) (sm3_init c)) o).2
      = (sm3_finish t (sm3_update t (sm3_init c') chunks.flatten) o).2 := by
  have hlen : (([] : List Nat) ++ chunks.flatten).length < 2 ^ 32 := by
    simp only [List.nil_append]; omega
  obtain ⟨h1, h2⟩ := view_foldl_update t chunks (sm3_init c) [] hc (view_init t c) hlen
  obtain ⟨h3, h4⟩ := view_update t (sm3_init c') chunks.flatten hc'
  apply sm3_finish_view t _ _ o h2 h4
  rw [h1, h3, view_init t c', msgView_absorb t [] _ hlen]

theorem sm3_chunked_eq_whole_witness :
    ([[0x61], [], [0x62, 0x63]] : List (List Nat)).flatten.length < 2 ^ 31
      ∧ (sm3_finish ShiftTarget.mod32
          ([[0x61], [], [0x62, 0x63]].foldl (sm3_update ShiftTarget.mod32)
            (sm3_init ⟨5, 7, [], List.replicate 64 0xAA, 0⟩)) (List.replicate 32 0)).2
        = (sm3_finish ShiftTarget.mod32
          (sm3_update ShiftTarget.mod32 (sm3_init ⟨0, 0, [], List.replicate 64 0, 0⟩)
            [[0x61], [], [0x62, 0x63]].flatten) (List.replicate 32 0)).2 :=
  ⟨by decide,
   sm3_chunked_eq_whole ShiftTarget.mod32 ⟨5, 7, [], List.replicate 64 0xAA, 0⟩
    ⟨0, 0, [], List.replicate 64 0, 0⟩ (List.replicate 32 0) [[0x61], [], [0x62, 0x63]]
    (by decide) (by decide) (by decide)⟩

/-! ### SM3 finalisation -/

theorem put_state (s0 s1 s2 s3 s4 s5 s6 s7 : Nat) :
    (List.range 8).foldl
      (fun o k => SM3_PUT_ULONG_BE ([s0, s1, s2, s3, s4, s5, s6, s7].getD k 0) o (4 * k))
      (List.replicate 32 0)
    = be32 s0 ++ be32 s1 ++ be32 s2 ++ be32 s3 ++ be32 s4 ++ be32 s5 ++ be32 s6 ++ be32 s7 := by
  have hr : List.range 8 = [0, 1, 2, 3, 4, 5, 6, 7] := by decide
  rw [hr]
  simp [SM3_PUT_ULONG_BE, be32, List.replicate, Nat.shiftRight_eq_div_pow]

theorem update_block_tail (t : ShiftTarget) (ctx : sm3_context) (x : List Nat)
    (h56 : ctx.total0 % 64 = 56) (hx : x.length = 8) :
    sm3_update t ctx x
      = sm3_process t
          { ctx with
            total0 := (ctx.total0 + 8) % 2 ^ 32 % 2 ^ 32
            total1 := if (ctx.total0 + 8) % 2 ^ 32 % 2 ^ 32 < 8 then (ctx.total1 + 1) % 2 ^ 32
              else ctx.total1
            buffer := memcpy ctx.buffer 56 x 8 }
          (memcpy ctx.buffer 56 x 8) := by
  have hd : x.drop 8 = [] := by simp [hx]
  simp [sm3_update, hx, and_3F, and_FFFFFFFF, h56, hd, sm3_update.loop, sm3_update.store]

theorem padn_bounds (ctx : sm3_context) :
    1 ≤ sm3_finish.padn ctx ∧ sm3_finish.padn ctx ≤ 64
      ∧ (ctx.total0 + sm3_finish.padn ctx) % 64 = 56 := by
  unfold sm3_finish.padn
  simp only [and_3F]
  have := Nat.mod_lt ctx.total0 (by norm_num : 0 < 64)
  split <;> omega

theorem padding_take (k : Nat) (h1 : 1 ≤ k) (h2 : k ≤ 64) :
    sm3_finish.padding.take k = 0x80 :: List.replicate (k - 1) 0 := by
  obtain ⟨m, rfl⟩ : ∃ m, k = m + 1 := ⟨k - 1, by omega⟩
  simp only [sm3_finish.padding, List.take_succ_cons, List.take_replicate,
    Nat.add_sub_cancel]
  congr 2
  omega

theorem msglen_length (ctx : sm3_context) : (sm3_finish.msglen ctx).length = 8 := by
  simp [sm3_finish.msglen, SM3_PUT_ULONG_BE]

theorem padded_total (t : ShiftTarget) (ctx : sm3_context) (hb : ctx.buffer.length = 64) :
    (sm3_update t ctx (sm3_finish.padding.take (sm3_finish.padn ctx))).total0 % 64 = 56
      ∧ (sm3_update t ctx (sm3_finish.padding.take (sm3_finish.padn ctx))).buffer.length
          = 64 := by
  obtain ⟨h1, h2, h3⟩ := padn_bounds ctx
  obtain ⟨hv, hl⟩ := view_update t ctx (sm3_finish.padding.take (sm3_finish.padn ctx)) hb
  refine ⟨?_, hl⟩
  have hlen : (sm3_finish.padding.take (sm3_finish.padn ctx)).length = sm3_finish.padn ctx := by
    rw [padding_take _ h1 h2]; simp; omega
  have := congrArg View.total0 hv
  have hne : sm3_finish.padn ctx ≠ 0 := by omega
  simp only [view, View.absorb, hlen, hne, if_false] at this
  rw [this]; omega

/-- The two updates of `sm3_finish`: after the padding 56 bytes are pending, and the
update with the 8 length bytes is one call of `sm3_process` on the completed block. -/
theorem sm3_finish_last_block (t : ShiftTarget) (ctx : sm3_context) (o : List Nat)
    (hb : ctx.buffer.length = 64) :
    (sm3_finish t ctx o).1
        = sm3_update t (sm3_update t ctx (0x80 :: List.replicate (sm3_finish.padn ctx - 1) 0))
            (sm3_finish.msglen ctx)
      ∧ (sm3_update t ctx (0x80 :: List.replicate (sm3_finish.padn ctx - 1) 0)).total0 % 64 = 56
      ∧ (sm3_finish t ctx o).1.nproc
          = (sm3_update t ctx (0x80 :: List.replicate (sm3_finish.padn ctx - 1) 0)).nproc + 1
      ∧ (sm3_finish t ctx o).1.state
          = compress t (sm3_update t ctx (0x80 :: List.replicate (sm3_finish.padn ctx - 1) 0)).state
              ((sm3_update t ctx
                  (0x80 :: List.replicate (sm3_finish.padn ctx - 1) 0)).buffer.take 56
                ++ sm3_finish.msglen ctx)
      ∧ (sm3_finish t ctx o).1.total0 % 64 = 0 := by
  obtain ⟨h1, h2, h3⟩ := padn_bounds ctx
  obtain ⟨h56, hl⟩ := padded_total t ctx hb
  have hpad := padding_take _ h1 h2
  rw [hpad] at h56 hl
  have hfin : (sm3_finish t ctx o).1
      = sm3_update t (sm3_update t ctx (0x80 :: List.replicate (sm3_finish.padn ctx - 1) 0))
          (sm3_finish.msglen ctx) := by
    simp only [sm3_finish, hpad]
  have hcopy : memcpy (sm3_update t ctx
        (0x80 :: List.replicate (sm3_finish.padn ctx - 1) 0)).buffer 56 (sm3_finish.msglen ctx) 8
      = (sm3_update t ctx (0x80 :: List.replicate (sm3_finish.padn ctx - 1) 0)).buffer.take 56
          ++ sm3_finish.msglen ctx := by
    have ht : (sm3_finish.msglen ctx).take 8 = sm3_finish.msglen ctx :=
      List.take_of_length_le (by rw [msglen_length])
    unfold memcpy
    rw [List.drop_of_length_le (by omega), List.append_nil, ht]
  refine ⟨hfin, h56, ?_, ?_, ?_⟩
  · rw [hfin, update_block_tail t _ _ h56 (msglen_length ctx)]
    rfl
  · rw [hfin, update_block_tail t _ _ h56 (msglen_length ctx), sm3_process_state, hcopy]
  · rw [hfin, update_block_tail t _ _ h56 (msglen_length ctx)]
    simp only [sm3_process_frame, Nat.mod_mod]
    omega

/-- C4: with `n` the byte counter of the context, `sm3_finish` takes a pad length `padn`
with `1 ≤ padn ≤ 64` and `(n + padn) mod 64 = 56`, feeds `0x80` followed by `padn - 1`
zero bytes to `sm3_update` (after which 56 bytes are pending), and the update with the
8 length bytes calls `sm3_process` exactly once, on the 56 pending bytes followed by the
length bytes, leaving the counter a multiple of 64. -/
theorem sm3_finish_padding (t : ShiftTarget) (ctx : sm3_context) (o : List Nat)
    (hb : ctx.buffer.length = 64) :
    1 ≤ sm3_finish.padn ctx ∧ sm3_finish.padn ctx ≤ 64
      ∧ (ctx.total1 * 2 ^ 32 + ctx.total0 + sm3_finish.padn ctx) % 64 = 56
      ∧ sm3_finish.padding.take (sm3_finish.padn ctx)
          = 0x80 :: List.replicate (sm3_finish.padn ctx - 1) 0
      ∧ (sm3_finish t ctx o).1
          = sm3_update t (sm3_update t ctx (0x80 :: List.replicate (sm3_finish.padn ctx - 1) 0))
              (sm3_finish.msglen ctx)
      ∧ (sm3_update t ctx (0x80 :: List.replicate (sm3_finish.padn ctx - 1) 0)).total0 % 64 = 56
      ∧ (sm3_finish t ctx o).1.nproc
          = (sm3_update t ctx (0x80 :: List.replicate (sm3_finish.padn ctx - 1) 0)).nproc + 1
      ∧ (sm3_finish t ctx o).1.state
          = compress t (sm3_update t ctx (0x80 :: List.replicate (sm3_finish.padn ctx - 1) 0)).state
              ((sm3_update t ctx
                  (0x80 :: List.replicate (sm3_finish.padn ctx - 1) 0)).buffer.take 56
                ++ sm3_finish.msglen ctx)
      ∧ (sm3_finish t ctx o).1.total0 % 64 = 0 := by
  obtain ⟨h1, h2, h3⟩ := padn_bounds ctx
  obtain ⟨k1, k2, k3, k4, k5⟩ := sm3_finish_last_block t ctx o hb
  have hn : (ctx.total1 * 2 ^ 32 + ctx.total0 + sm3_finish.padn ctx) % 64 = 56 := by omega
  exact ⟨h1, h2, hn, padding_take _ h1 h2, k1, k2, k3, k4, k5⟩

theorem sm3_finish_padding_witness :
    (sm3_init ⟨0, 0, [], List.replicate 64 0, 0⟩).buffer.length = 64
      ∧ sm3_finish.padn (sm3_init ⟨0, 0, [], List.replicate 64 0, 0⟩) = 56
      ∧ (sm3_finish ShiftTarget.mod32 (sm3_init ⟨0, 0, [], List.replicate 64 0, 0⟩)
          (List.replicate 32 0)).1.nproc = 1
      ∧ (sm3_finish ShiftTarget.mod32 (sm3_init ⟨0, 0, [], List.replicate 64 0, 0⟩)
          (List.replicate 32 0)).1.total0 % 64 = 0 := by
  have h := sm3_finish_padding ShiftTarget.mod32 (sm3_init ⟨0, 0, [], List.replicate 64 0, 0⟩)
    (List.replicate 32 0) (by decide)
  exact ⟨by decide, by decide, by rw [h.2.2.2.2.2.2.1]; decide, h.2.2.2.2.2.2.2.2⟩

/-! ### Byte buffer lemmas -/

theorem BufferPrivate.reserve_spec (b : BufferPrivate) (size : Int) (hwf : b.wf) :
    (b.reserve size).wf ∧ (b.reserve size).m_size = b.m_size
      ∧ (b.reserve size).m_capacity = max b.m_capacity size
      ∧ ((b.reserve size).m_data.getD []).take b.m_size.toNat
          = (b.m_data.getD []).take b.m_size.toNat := by
  obtain ⟨sz, cap, dat⟩ := b
  obtain ⟨h0, hc, hd⟩ := hwf
  simp only at h0 hc hd
  unfold BufferPrivate.reserve
  by_cases hle : size ≤ cap
  · simp only [hle, if_true]
    exact ⟨⟨h0, hc, hd⟩, trivial, by omega, trivial⟩
  · simp only [hle, if_false]
    have hlen : (sz.toNat : Int) = sz := Int.toNat_of_nonneg h0
    have hsrc : sz.toNat ≤ (dat.getD []).length := by
      cases dat with
      | none => simp at hd; simp; omega
      | some mem => simp at hd ⊢; omega
    refine ⟨⟨h0, by show sz ≤ size; omega, ?_⟩, trivial, by show size = max cap size; omega, ?_⟩
    · simp only
      split
      · rw [memcpy_length _ _ _ _ (by simp; omega) hsrc]; simp; omega
      · simp; omega
    · simp only [Option.getD_some]
      split
      · have := memcpy_take (List.replicate size.toNat 0) (dat.getD []) 0 sz.toNat
          (by simp) hsrc
        simpa using this
      · have : sz.toNat = 0 := by omega
        simp [this]

theorem BufferPrivate.insert_end (b : BufferPrivate) (d : List Nat) (n : Nat) (hwf : b.wf)
    (hn : n ≤ d.length) :
    (b.insert b.m_size (some d) n).wf
      ∧ (b.insert b.m_size (some d) n).m_size = b.m_size + n
      ∧ ((b.insert b.m_size (some d) n).m_data.getD []).take (b.m_size + n).toNat
          = (b.m_data.getD []).take b.m_size.toNat ++ d.take n := by
  have hneg : ¬ ((n : Int) < 0) := by omega
  simp only [BufferPrivate.insert, hneg, if_false]
  have key : ∃ b1 : BufferPrivate,
      (if (n : Int) > b.m_capacity - b.m_size then
        b.reserve (b.m_capacity + (b.m_capacity - b.m_size + (((n : Int) + 64) / 64 + 1) * 64))
      else b) = b1 ∧ b1.wf ∧ b1.m_size = b.m_size
        ∧ (b1.m_data.getD []).take b.m_size.toNat = (b.m_data.getD []).take b.m_size.toNat
        ∧ b.m_size + n ≤ b1.m_capacity := by
    refine ⟨_, rfl, ?_⟩
    split
    · rename_i hg
      obtain ⟨h1, h2, h3, h4⟩ := BufferPrivate.reserve_spec b
        (b.m_capacity + (b.m_capacity - b.m_size + (((n : Int) + 64) / 64 + 1) * 64)) hwf
      refine ⟨h1, h2, h4, ?_⟩
      rw [h3]
      have := hwf.1
      have := hwf.2.1
      omega
    · rename_i hg
      exact ⟨hwf, rfl, rfl, by omega⟩
  obtain ⟨b1, hb1, hwf1, hs1, ht1, hcap1⟩ := key
  rw [hb1]
  obtain ⟨sz, cap, dat⟩ := b1
  obtain ⟨h0, hc, hd⟩ := hwf1
  simp only at h0 hc hd hs1 ht1 hcap1
  subst hs1
  cases dat with
  | none =>
    simp only at hd
    have hs0 : b.m_size = 0 := by omega
    have hn0 : n = 0 := by omega
    subst hn0
    rw [hs0] at ht1 ⊢
    simp only [Option.getD_none] at ht1
    dsimp only
    rw [hs0] at hc
    refine ⟨⟨le_refl _, hc, hd⟩, by simp, ?_⟩
    simp
  | some mem =>
    simp only at hd
    simp only [ge_iff_le, le_refl, if_true, Option.getD_some, Int.toNat_ofNat] at ht1 ⊢
    have hlen : (b.m_size.toNat : Int) = b.m_size := Int.toNat_of_nonneg h0
    have hfit : b.m_size.toNat + n ≤ mem.length := by omega
    refine ⟨⟨by show 0 ≤ b.m_size + (n : Int); omega,
      by show b.m_size + (n : Int) ≤ cap; omega, ?_⟩, trivial, ?_⟩
    · show ((memcpy mem b.m_size.toNat d n).length : Int) = cap
      rw [memcpy_length _ _ _ _ hfit hn]; exact hd
    · have hto : (b.m_size + (n : Int)).toNat = b.m_size.toNat + n := by omega
      rw [hto, memcpy_take _ _ _ _ (by omega) hn, ht1]

theorem Buffer.append_spec (b : Buffer) (d : List Nat) (n : Nat) (hwf : b.wf)
    (hn : n ≤ d.length) :
    (b.append (some d) n).wf ∧ (b.append (some d) n).size = b.size + n
      ∧ (b.append (some d) n).bytes = b.bytes ++ d.take n := by
  obtain ⟨h1, h2, h3⟩ := BufferPrivate.insert_end b.m_ptr d n hwf hn
  refine ⟨h1, h2, ?_⟩
  simp only [Buffer.bytes, Buffer.size, Buffer.data, Buffer.append, Buffer.insert] at h2 ⊢
  rw [h2]
  exact h3

theorem Buffer.ofData_spec (d : List Nat) (n : Nat) (hn : n ≤ d.length) :
    (Buffer.ofData (some d) n).wf ∧ (Buffer.ofData (some d) n).size = n
      ∧ (Buffer.ofData (some d) n).bytes = d.take n := by
  have hwf : (⟨⟨0, 0, none⟩⟩ : Buffer).wf := ⟨le_refl _, le_refl _, rfl⟩
  obtain ⟨h1, h2, h3⟩ := Buffer.append_spec ⟨⟨0, 0, none⟩⟩ d n hwf hn
  refine ⟨h1, ?_, ?_⟩
  · simpa [Buffer.size] using h2
  · simpa [Buffer.bytes, Buffer.size, Buffer.data] using h3

theorem Buffer.ofString_spec (d : List Nat) :
    (Buffer.ofString d).wf ∧ (Buffer.ofString d).size = d.length
      ∧ (Buffer.ofString d).bytes = d := by
  obtain ⟨h1, h2, h3⟩ := Buffer.ofData_spec (d ++ [0]) d.length (by simp)
  exact ⟨h1, h2, by simpa [Buffer.ofString] using h3⟩

/-! ### SM3 entry point -/

theorem compress_length (t : ShiftTarget) (st data : List Nat) :
    ∃ s0 s1 s2 s3 s4 s5 s6 s7, compress t st data = [s0, s1, s2, s3, s4, s5, s6, s7] :=
  ⟨_, _, _, _, _, _, _, _, rfl⟩

theorem sm3_finish_output (t : ShiftTarget) (ctx : sm3_context)
    (hb : ctx.buffer.length = 64) :
    (sm3_finish t ctx (List.replicate 32 0)).1.state.length = 8
      ∧ (sm3_finish t ctx (List.replicate 32 0)).2
          = ((sm3_finish t ctx (List.replicate 32 0)).1.state.map be32).flatten := by
  have hst := (sm3_finish_last_block t ctx (List.replicate 32 0) hb).2.2.2.1
  obtain ⟨s0, s1, s2, s3, s4, s5, s6, s7, hs⟩ := compress_length t
    (sm3_update t ctx (0x80 :: List.replicate (sm3_finish.padn ctx - 1) 0)).state
    ((sm3_update t ctx (0x80 :: List.replicate (sm3_finish.padn ctx - 1) 0)).buffer.take 56
      ++ sm3_finish.msglen ctx)
  rw [hs] at hst
  have hout : (sm3_finish t ctx (List.replicate 32 0)).2
      = (List.range 8).foldl (fun o k => SM3_PUT_ULONG_BE
          ((sm3_finish t ctx (List.replicate 32 0)).1.state.getD k 0) o (4 * k))
          (List.replicate 32 0) := by
    simp only [sm3_finish]
  rw [hout, hst, put_state]
  simp

/-- C5: `sm3::encode` returns the empty buffer for an empty input, and for a non-empty
input a buffer of exactly 32 bytes: the eight state words left by `sm3_finish`, each
serialized big-endian, `state[0]` first. -/
theorem sm3_encode_output (t : ShiftTarget) (ctx : sm3_context) (data : Buffer)
    (hb : ctx.buffer.length = 64) :
    (data.isEmpty = true →
        (sm3.encode t ctx data).size = 0 ∧ (sm3.encode t ctx data).bytes = [])
      ∧ (data.isEmpty = false →
        (sm3.encode t ctx data).size = 32
          ∧ (sm3_finish t (sm3_update t (sm3_init ctx) data.bytes)
              (List.replicate 32 0)).1.state.length = 8
          ∧ (sm3.encode t ctx data).bytes
              = ((sm3_finish t (sm3_update t (sm3_init ctx) data.bytes)
                  (List.replicate 32 0)).1.state.map be32).flatten) := by
  constructor
  · intro he
    simp only [sm3.encode, he, if_true]
    exact ⟨rfl, rfl⟩
  · intro he
    have hb2 : (sm3_update t (sm3_init ctx) data.bytes).buffer.length = 64 :=
      (view_update t (sm3_init ctx) data.bytes hb).2
    obtain ⟨h8, hout⟩ := sm3_finish_output t _ hb2
    have hlen : (sm3_finish t (sm3_update t (sm3_init ctx) data.bytes)
        (List.replicate 32 0)).2.length = 32 := by
      rw [hout]
      generalize (sm3_finish t (sm3_update t (sm3_init ctx) data.bytes)
        (List.replicate 32 0)).1.state = st at h8
      match st, h8 with
      | [_, _, _, _, _, _, _, _], _ => simp [be32]
    obtain ⟨_, h2, h3⟩ := Buffer.ofData_spec (sm3_finish t (sm3_update t (sm3_init ctx)
      data.bytes) (List.replicate 32 0)).2 32 (by rw [hlen])
    simp only [sm3.encode, he, Bool.false_eq_true, if_false]
    refine ⟨h2, h8, ?_⟩
    rw [← hout]
    rw [List.take_of_length_le (by rw [hlen])] at h3
    exact h3

theorem sm3_encode_output_witness :
    (⟨0, 0, [], List.replicate 64 0, 0⟩ : sm3_context).buffer.length = 64
      ∧ (sm3.encode ShiftTarget.mod32 ⟨0, 0, [], List.replicate 64 0, 0⟩
          (Buffer.ofString [0x61, 0x62, 0x63])).size = 32
      ∧ (sm3.encode ShiftTarget.mod32 ⟨0, 0, [], List.replicate 64 0, 0⟩
          (Buffer.ofSize (-1))).size = 0 :=
  ⟨by decide,
   ((sm3_encode_output ShiftTarget.mod32 ⟨0, 0, [], List.replicate 64 0, 0⟩
      (Buffer.ofString [0x61, 0x62, 0x63]) (by decide)).2 (by decide)).1,
   ((sm3_encode_output ShiftTarget.mod32 ⟨0, 0, [], List.replicate 64 0, 0⟩
      (Buffer.ofSize (-1)) (by decide)).1 (by decide)).1⟩

theorem sm3_encode_ctx_irrelevant (t : ShiftTarget) (c c' : sm3_context) (data : Buffer)
    (hc : c.buffer.length = 64) (hc' : c'.buffer.length = 64) :
    sm3.encode t c data = sm3.encode t c' data := by
  unfold sm3.encode
  split
  · rfl
  · obtain ⟨h1, h2⟩ := view_update t (sm3_init c) (data.data.take data.size.toNat) hc
    obtain ⟨h3, h4⟩ := view_update t (sm3_init c') (data.data.take data.size.toNat) hc'
    have hv : view (sm3_update t (sm3_init c) (data.data.take data.size.toNat))
        = view (sm3_update t (sm3_init c') (data.data.take data.size.toNat)) := by
      rw [h1, h3, view_init t c, view_init t c']
    simp only [sm3_finish_view t _ _ (List.replicate 32 0) h2 h4 hv]

/-- C2 (as stated, refuted): the digest `sm3::encode` returns for "abc" has 64 hex digits,
so in no letter case is it the 63-character string printed in the specification; that
string is not even decodable as hex (odd length gives the empty buffer). -/
theorem sm3_abc_spec_hex_mismatch :
    Buffer.toHex (sm3.encode ShiftTarget.mod32 ⟨0, 0, [], List.replicate 64 0, 0⟩
        (Buffer.ofString [0x61, 0x62, 0x63])) ≠ abcSpecHex.map Hex.hexToUpper
      ∧ (Buffer.toHex (sm3.encode ShiftTarget.mod32 ⟨0, 0, [], List.replicate 64 0, 0⟩
        (Buffer.ofString [0x61, 0x62, 0x63]))).length = 64
      ∧ abcSpecHex.length = 63
      ∧ (Buffer.fromHex abcSpecHex).size = 0 := by
  decide!

/-- C2 (amended): on a target that reduces shift counts modulo 32, `sm3::encode` of the
3-byte buffer "abc" returns the 32 bytes of the published SM3 vector
`66c7f0f4 62eeedd9 d1f2d46b dc10e4e2 4167c487 5cf2f7a2 297da02b 8f4ba8e0`, whatever the
uninitialised context held; its hex form is the specification's string followed by `0`. -/
theorem sm3_abc_digest (ctx : sm3_context) (hb : ctx.buffer.length = 64) :
    (sm3.encode ShiftTarget.mod32 ctx (Buffer.ofString [0x61, 0x62, 0x63])).size = 32
      ∧ (sm3.encode ShiftTarget.mod32 ctx (Buffer.ofString [0x61, 0x62, 0x63])).bytes = abcDigest
      ∧ Buffer.toHex (sm3.encode ShiftTarget.mod32 ctx (Buffer.ofString [0x61, 0x62, 0x63]))
          = (abcSpecHex ++ [0x30]).map Hex.hexToUpper := by
  rw [sm3_encode_ctx_irrelevant ShiftTarget.mod32 ctx ⟨0, 0, [], List.replicate 64 0, 0⟩ _ hb
    (by decide)]
  decide!

theorem sm3_abc_digest_witness :
    (⟨1, 2, [3], List.replicate 64 0xFF, 0⟩ : sm3_context).buffer.length = 64
      ∧ (sm3.encode ShiftTarget.mod32 ⟨1, 2, [3], List.replicate 64 0xFF, 0⟩
          (Buffer.ofString [0x61, 0x62, 0x63])).bytes = abcDigest :=
  ⟨by decide, (sm3_abc_digest ⟨1, 2, [3], List.replicate 64 0xFF, 0⟩ (by decide)).2.1⟩

/-- C3 (failing input): on a target where a 32-bit shift by a count outside `0..31` yields
zero, `sm3_process` applied to the initial state and the padded block of "abc" does not
produce `CF(V, B)`, and the digest of "abc" is not the published one: `ROTL(T[j], j)`
is evaluated with `j` up to 63 and no reduction modulo 32. -/
theorem sm3_process_unreduced_rotation :
    (sm3_process ShiftTarget.zero (sm3_init ⟨0, 0, [], List.replicate 64 0, 0⟩) abcBlock).state
        ≠ Std.CF (sm3_init ⟨0, 0, [], List.replicate 64 0, 0⟩).state abcBlock
      ∧ (sm3.encode ShiftTarget.zero ⟨0, 0, [], List.replicate 64 0, 0⟩
          (Buffer.ofString [0x61, 0x62, 0x63])).bytes ≠ abcDigest
      ∧ ROTL ShiftTarget.zero (sm3_process.T.getD 33 0) 33 = 0
      ∧ Std.rotl (Std.T 33) (33 % 32) = 0xF50F3B14 := by
  decide!

/-! ### Hex codec -/

theorem static_cast_int_of_lt (n : Nat) (h : n < 2 ^ 31) : static_cast_int n = (n : Int) := by
  unfold static_cast_int
  have h1 : n % 2 ^ 32 = n := Nat.mod_eq_of_lt (by omega)
  rw [h1, if_pos h]

theorem Buffer.size_le_data (b : Buffer) (hwf : b.wf) : b.size.toNat ≤ b.data.length := by
  obtain ⟨h0, hc, hd⟩ := hwf
  unfold Buffer.size Buffer.data
  cases hm : b.m_ptr.m_data with
  | none => rw [hm] at hd; simp at hd ⊢; omega
  | some mem => rw [hm] at hd; simp at hd ⊢; omega

theorem Hex.encode_fold (l : List Nat) (n : Nat) (h : n ≤ l.length) :
    (List.range n).foldl
      (fun hexStr i =>
        (hexStr ++ [Hex.Chars.getD ((l.getD i 0 &&& 0xf0) >>> 4) 0])
          ++ [Hex.Chars.getD ((l.getD i 0 &&& 0x0f) >>> 0) 0]) []
      = ((l.take n).map Hex.pair).flatten := by
  induction n with
  | zero => simp
  | succ k ih =>
    have hk : k < l.length := by omega
    rw [List.range_succ, List.foldl_append, ih (by omega)]
    rw [List.take_succ, List.getElem?_eq_getElem hk]
    simp only [List.foldl_cons, List.foldl_nil, List.map_append, List.flatten_append,
      Option.toList, List.map_cons, List.map_nil, List.flatten_cons, List.flatten_nil,
      List.append_nil, Hex.pair, List.getD_eq_getElem?_getD, List.getElem?_eq_getElem hk,
      Option.getD_some, List.append_assoc, List.singleton_append]

theorem Hex.encode_eq (b : Buffer) (hwf : b.wf) :
    Hex.encode b = (b.bytes.map Hex.pair).flatten :=
  Hex.encode_fold b.data b.size.toNat (Buffer.size_le_data b hwf)

theorem Hex.pair_ok : ∀ x : Fin 256,
    Hex.isHex (Hex.hexToUpper (Hex.Chars.getD ((x.val &&& 0xf0) >>> 4) 0)) = true
      ∧ (((find Hex.Chars (Hex.Chars.getD ((x.val &&& 0xf0) >>> 4) 0) <<< 4) % 2 ^ 64)
          ||| find Hex.Chars (Hex.Chars.getD ((x.val &&& 0x0f) >>> 0) 0)) % 256 = x.val := by
  decide!

theorem Hex.decode_loop_encode (bytes : List Nat) :
    ∀ (data : List Nat) (j : Nat), j + bytes.length ≤ data.length →
      (∀ x ∈ bytes, x < 256) →
      Hex.decode.loop ((bytes.map Hex.pair).flatten) data j
        = data.take j ++ bytes ++ data.drop (j + bytes.length) := by
  induction bytes with
  | nil => intro data j _ _; simp [Hex.decode.loop]
  | cons x rest ih =>
    intro data j hj hx
    have hx256 : x < 256 := hx x (List.mem_cons_self _ _)
    obtain ⟨h1, h2⟩ := Hex.pair_ok ⟨x, hx256⟩
    simp only at h1 h2
    simp only [List.map_cons, List.flatten_cons, Hex.pair, List.cons_append, List.nil_append,
      Hex.decode.loop, h1, h2, Bool.not_true, Bool.false_eq_true, if_false]
    simp only [List.length_cons] at hj
    have hfold : ∀ l : List Nat, List.map (fun x => [Hex.Chars.getD ((x &&& 0xf0) >>> 4) 0,
        Hex.Chars.getD ((x &&& 0x0f) >>> 0) 0]) l = List.map Hex.pair l := fun _ => rfl
    change Hex.decode.loop (List.map Hex.pair rest).flatten (data.set j x) (j + 1) = _
    rw [ih (data.set j x) (j + 1) (by simp; omega) (fun y hy => hx y (List.mem_cons_of_mem _ hy))]
    have hjl : j < data.length := by omega
    have hset : data.set j x = (data.take j ++ [x]) ++ data.drop (j + 1) := by
      rw [List.set_eq_take_append_cons_drop]; simp [hjl]
    have hl : (data.take j ++ [x]).length = j + 1 := by simp; omega
    rw [hset, List.take_left' hl]
    have hd : List.drop (j + 1 + rest.length) (List.take j data ++ [x] ++ List.drop (j + 1) data)
        = List.drop (j + (rest.length + 1)) data := by
      rw [List.drop_append_eq_append_drop, hl]
      have h1 : List.drop (j + 1 + rest.length) (List.take j data ++ [x]) = [] :=
        List.drop_of_length_le (by rw [hl]; omega)
      rw [h1, List.drop_drop, List.nil_append]
      congr 1; omega
    rw [hd]; simp

theorem Buffer.resize_empty (n : Nat) :
    Buffer.resize (Buffer.ofSize (-1)) n
      = if n = 0 then ⟨⟨0, 0, none⟩⟩ else ⟨⟨n, n, some (List.replicate n 0)⟩⟩ := by
  have h1 : Buffer.ofSize (-1) = ⟨⟨0, 0, none⟩⟩ := by decide
  rw [h1]
  by_cases hn : n = 0
  · subst hn; decide
  · have : ¬ ((n : Int) ≤ 0) := by omega
    simp [Buffer.resize, BufferPrivate.resize, BufferPrivate.reserve, this, hn]

theorem Buffer.bytes_length (b : Buffer) (hwf : b.wf) :
    (b.bytes.length : Int) = b.size := by
  have h := Buffer.size_le_data b hwf
  have h0 : 0 ≤ b.size := hwf.1
  simp only [Buffer.bytes, List.length_take]
  omega

theorem Hex.pair_flatten_length (bytes : List Nat) :
    ((bytes.map Hex.pair).flatten).length = 2 * bytes.length := by
  induction bytes with
  | nil => rfl
  | cons x rest ih => simp [Hex.pair, ih]; omega

/-- C6: for every buffer `b` of fewer than `2^30` bytes (any byte values), so that the
length of its hex text survives the narrowing to `int` in `Hex::decode`,
`Buffer::fromHex(b.toHex())` compares equal to `b` under `operator==`: it has the same
size and the same bytes. -/
theorem hex_roundtrip (b : Buffer) (hwf : b.wf) (hbytes : ∀ x ∈ b.bytes, x < 256)
    (hfit : b.size < 2 ^ 30) :
    Buffer.eq (Buffer.fromHex b.toHex) b = true
      ∧ (Buffer.fromHex b.toHex).size = b.size
      ∧ (Buffer.fromHex b.toHex).bytes = b.bytes
      ∧ static_cast_int b.toHex.length = 2 * b.size := by
  have hlen := Buffer.bytes_length b hwf
  have hcast : static_cast_int (2 * b.bytes.length) = ((2 * b.bytes.length : Nat) : Int) :=
    static_cast_int_of_lt _ (by omega)
  have htake : List.take (2 * b.bytes.length) ((b.bytes.map Hex.pair).flatten)
      = (b.bytes.map Hex.pair).flatten :=
    List.take_of_length_le (by rw [Hex.pair_flatten_length])
  have hnarrow : static_cast_int b.toHex.length = 2 * b.size := by
    simp only [Buffer.toHex, Hex.encode_eq b hwf, Hex.pair_flatten_length, hcast]
    push_cast
    omega
  have key : (Buffer.fromHex b.toHex).size = b.size
      ∧ (Buffer.fromHex b.toHex).bytes = b.bytes := by
    simp only [Buffer.fromHex, Buffer.toHex, Hex.encode_eq b hwf, Hex.decode,
      Hex.pair_flatten_length, hcast]
    have h2 : ((2 * b.bytes.length : Nat) : Int) % 2 = 0 := by omega
    have h3 : ((2 * b.bytes.length : Nat) : Int) / 2 = (b.bytes.length : Nat) := by omega
    simp only [h2, ne_eq, not_true_eq_false, if_false, h3, Buffer.resize_empty,
      Int.toNat_ofNat, htake]
    by_cases hn : b.bytes.length = 0
    · have hnil : b.bytes = [] := List.eq_nil_of_length_eq_zero hn
      simp only [hn, if_true]
      rw [hn] at hlen
      refine ⟨by rw [← hlen]; rfl, by rw [hnil]; rfl⟩
    · simp only [hn, if_false]
      rw [Hex.decode_loop_encode b.bytes _ 0 (by simp) hbytes]
      refine ⟨by rw [← hlen]; rfl, ?_⟩
      have hdrop : List.drop (0 + b.bytes.length) (List.replicate b.bytes.length 0) = [] :=
        List.drop_of_length_le (by simp)
      rw [hdrop]
      show List.take ((b.bytes.length : Int)).toNat (List.take 0 _ ++ b.bytes ++ []) = b.bytes
      simp
  refine ⟨?_, key.1, key.2, hnarrow⟩
  unfold Buffer.eq
  have hs : (Buffer.fromHex b.toHex).m_ptr.m_size = b.size := key.1
  have hb := key.2
  simp only [Buffer.bytes, Buffer.size] at hb
  rw [hs] at hb ⊢
  simp only [ne_eq, not_true_eq_false, if_false]
  simp only [Buffer.size] at hb ⊢
  rw [hb]
  simp

theorem hex_roundtrip_witness :
    (Buffer.ofString [0x00, 0x7f, 0x80, 0xff]).wf
      ∧ (Buffer.ofString [0x00, 0x7f, 0x80, 0xff]).size < 2 ^ 30
      ∧ Buffer.eq (Buffer.fromHex (Buffer.ofString [0x00, 0x7f, 0x80, 0xff]).toHex)
          (Buffer.ofString [0x00, 0x7f, 0x80, 0xff]) = true :=
  ⟨(Buffer.ofString_spec _).1, by decide,
   (hex_roundtrip (Buffer.ofString [0x00, 0x7f, 0x80, 0xff]) (Buffer.ofString_spec _).1
      (by decide) (by decide)).1⟩

/-! ### Base64 codec -/

theorem Base64.encode_tail_fold (bytes : List Nat) :
    ∀ s : Base64.EncState, s.i = 0 → s.charArray_3.length = 3 →
      Base64.encode.tail (bytes.foldl Base64.encode.step s) = s.ret ++ Base64.encBlocks bytes := by
  induction bytes using Base64.encBlocks.induct with
  | case1 a b c rest ih =>
    intro s hi hl
    obtain ⟨i, c3, ret⟩ := s
    simp only at hi hl
    subst hi
    match c3, hl with
    | [x, y, z], _ =>
      simp only [List.foldl_cons, Base64.encode.step, Base64.encBlocks]
      simp only [List.set, Nat.zero_add, Nat.reduceAdd, Nat.reduceEqDiff, if_false, if_true,
        OfNat.ofNat_ne_one, OfNat.one_ne_ofNat]
      rw [ih ⟨0, [a, b, c],
        ret ++ (Base64.encode.quad [a, b, c]).map (fun k => Base64.Chars.getD k 0)⟩ rfl rfl]
      simp [Base64.enc3]
  | case2 a b =>
    intro s hi hl
    obtain ⟨i, c3, ret⟩ := s
    simp only at hi hl
    subst hi
    match c3, hl with
    | [x, y, z], _ =>
      simp [Base64.encode.step, Base64.encBlocks, Base64.encode.tail, List.range']
  | case3 a =>
    intro s hi hl
    obtain ⟨i, c3, ret⟩ := s
    simp only at hi hl
    subst hi
    match c3, hl with
    | [x, y, z], _ =>
      simp [Base64.encode.step, Base64.encBlocks, Base64.encode.tail, List.range']
  | case4 =>
    intro s hi _
    simp [Base64.encode.tail, Base64.encBlocks, hi]

theorem Base64.chars_ok : ∀ k : Fin 64,
    (Base64.Chars.getD k.val 0 != 0x3D && Base64.isBase64 (Base64.Chars.getD k.val 0)) = true
      ∧ Base64.decode.index (Base64.Chars.getD k.val 0) = k.val := by
  decide!

theorem Base64.bits_ok : ∀ a : Fin 256,
    (a.val &&& 0xfc) >>> 2 = a.val / 4 ∧ (a.val &&& 0x03) <<< 4 = a.val % 4 * 16
      ∧ (a.val &&& 0xf0) >>> 4 = a.val / 16 ∧ (a.val &&& 0x0f) <<< 2 = a.val % 16 * 4
      ∧ (a.val &&& 0xc0) >>> 6 = a.val / 64 ∧ a.val &&& 0x3f = a.val % 64
      ∧ (a.val &&& 0x30) >>> 4 = a.val / 16 % 4 ∧ (a.val &&& 0xf) <<< 4 = a.val % 16 * 16
      ∧ (a.val &&& 0x3c) >>> 2 = a.val / 4 % 16 ∧ (a.val &&& 0x3) <<< 6 = a.val % 4 * 64
      ∧ a.val <<< 2 = a.val * 4 := by
  decide!

theorem Base64.quad_eq (a b c : Nat) (ha : a < 256) (hb : b < 256) (hc : c < 256) :
    Base64.encode.quad [a, b, c]
      = [a / 4, a % 4 * 16 + b / 16, b % 16 * 4 + c / 64, c % 64] := by
  obtain ⟨a1, a2, -, -, -, -, -, -, -, -, -⟩ := Base64.bits_ok ⟨a, ha⟩
  obtain ⟨-, -, b3, b4, -, -, -, -, -, -, -⟩ := Base64.bits_ok ⟨b, hb⟩
  obtain ⟨-, -, -, -, c5, c6, -, -, -, -, -⟩ := Base64.bits_ok ⟨c, hc⟩
  simp only at a1 a2 b3 b4 c5 c6
  simp only [Base64.encode.quad, List.getD_cons_zero, List.getD_cons_succ, a1, a2, b3, b4, c5, c6]
  have h0 : a / 4 % 256 = a / 4 := by omega
  have h1 : (a % 4 * 16 + b / 16) % 256 = a % 4 * 16 + b / 16 := by omega
  have h2 : (b % 16 * 4 + c / 64) % 256 = b % 16 * 4 + c / 64 := by omega
  have h3 : c % 64 % 256 = c % 64 := by omega
  rw [h0, h1, h2, h3]

theorem Base64.triple_eq (q0 q1 q2 q3 : Nat) (h0 : q0 < 256) (h1 : q1 < 256) (h2 : q2 < 256) :
    Base64.decode.triple [q0, q1, q2, q3]
      = [(q0 * 4 + q1 / 16 % 4) % 256, (q1 % 16 * 16 + q2 / 4 % 16) % 256,
         (q2 % 4 * 64 + q3) % 256] := by
  obtain ⟨-, -, -, -, -, -, -, -, -, -, a11⟩ := Base64.bits_ok ⟨q0, h0⟩
  obtain ⟨-, -, -, -, -, -, b7, b8, -, -, -⟩ := Base64.bits_ok ⟨q1, h1⟩
  obtain ⟨-, -, -, -, -, -, -, -, c9, c10, -⟩ := Base64.bits_ok ⟨q2, h2⟩
  simp only at a11 b7 b8 c9 c10
  simp only [Base64.decode.triple, List.getD_cons_zero, List.getD_cons_succ, a11, b7, b8, c9,
    c10]

theorem Base64.decode_loop_valid (ch : Nat) (rest : List Nat) (s : Base64.DecState)
    (h : (ch != 0x3D && Base64.isBase64 ch) = true) :
    Base64.decode.loop (ch :: rest) s
      = if s.i + 1 = 4 then
          Base64.decode.loop rest
            { i := 0, charArray_4 := (s.charArray_4.set s.i ch).map Base64.decode.index,
              ret := s.ret ++ Base64.decode.triple
                ((s.charArray_4.set s.i ch).map Base64.decode.index) }
        else Base64.decode.loop rest
          { i := s.i + 1, charArray_4 := s.charArray_4.set s.i ch, ret := s.ret } := by
  simp only [Base64.decode.loop, h, if_true]

theorem Base64.decode_loop_stop (rest : List Nat) (s : Base64.DecState) :
    Base64.decode.loop (0x3D :: rest) s = s := by
  simp [Base64.decode.loop]

theorem Base64.decode_tail_loop (bytes : List Nat) :
    ∀ s : Base64.DecState, s.i = 0 → s.charArray_4.length = 4 → (∀ x ∈ bytes, x < 256) →
      Base64.decode.tail (Base64.decode.loop (Base64.encBlocks bytes) s) = s.ret ++ bytes := by
  induction bytes using Base64.encBlocks.induct with
  | case1 a b c rest ih =>
    intro s hi hl hx
    have ha : a < 256 := hx a (by simp)
    have hb : b < 256 := hx b (by simp)
    have hc : c < 256 := hx c (by simp)
    obtain ⟨i, c4, ret⟩ := s
    simp only at hi hl
    subst hi
    match c4, hl with
    | [w, x, y, z], _ =>
      obtain ⟨v0, i0⟩ := Base64.chars_ok ⟨a / 4, by omega⟩
      obtain ⟨v1, i1⟩ := Base64.chars_ok ⟨a % 4 * 16 + b / 16, by omega⟩
      obtain ⟨v2, i2⟩ := Base64.chars_ok ⟨b % 16 * 4 + c / 64, by omega⟩
      obtain ⟨v3, i3⟩ := Base64.chars_ok ⟨c % 64, by omega⟩
      simp only at v0 i0 v1 i1 v2 i2 v3 i3
      simp only [Base64.encBlocks, Base64.enc3, Base64.quad_eq a b c ha hb hc, List.map_cons,
        List.map_nil, List.cons_append, List.nil_append]
      simp only [Base64.decode_loop_valid _ _ _ v0, Base64.decode_loop_valid _ _ _ v1,
        Base64.decode_loop_valid _ _ _ v2, Base64.decode_loop_valid _ _ _ v3,
        Nat.zero_add, Nat.reduceAdd, Nat.reduceEqDiff, if_false, if_true, List.set,
        List.map_cons, List.map_nil, i0, i1, i2, i3, OfNat.ofNat_ne_one, OfNat.one_ne_ofNat]
      rw [ih ⟨0, [a / 4, a % 4 * 16 + b / 16, b % 16 * 4 + c / 64, c % 64], _⟩ rfl rfl
        (fun y hy => hx y (by simp [hy]))]
      rw [Base64.triple_eq _ _ _ _ (by omega) (by omega) (by omega)]
      have e0 : (a / 4 * 4 + (a % 4 * 16 + b / 16) / 16 % 4) % 256 = a := by omega
      have e1 : ((a % 4 * 16 + b / 16) % 16 * 16 + (b % 16 * 4 + c / 64) / 4 % 16) % 256 = b := by
        omega
      have e2 : ((b % 16 * 4 + c / 64) % 4 * 64 + c % 64) % 256 = c := by omega
      rw [e0, e1, e2]
      simp
  | case2 a b =>
    intro s hi hl hx
    have ha : a < 256 := hx a (by simp)
    have hb : b < 256 := hx b (by simp)
    obtain ⟨i, c4, ret⟩ := s
    simp only at hi hl
    subst hi
    match c4, hl with
    | [w, x, y, z], _ =>
      obtain ⟨v0, i0⟩ := Base64.chars_ok ⟨a / 4, by omega⟩
      obtain ⟨v1, i1⟩ := Base64.chars_ok ⟨a % 4 * 16 + b / 16, by omega⟩
      obtain ⟨v2, i2⟩ := Base64.chars_ok ⟨b % 16 * 4 + 0 / 64, by omega⟩
      simp only at v0 i0 v1 i1 v2 i2
      have hz : Base64.decode.index 0 = 255 := by decide
      simp only [Base64.encBlocks, Base64.quad_eq a b 0 ha hb (by omega), List.map_cons,
        List.map_nil, List.cons_append, List.nil_append, List.take_succ_cons, List.take_zero,
        Base64.decode_loop_valid _ _ _ v0, Base64.decode_loop_valid _ _ _ v1,
        Base64.decode_loop_valid _ _ _ v2, Base64.decode_loop_stop,
        Nat.zero_add, Nat.reduceAdd, Nat.reduceEqDiff, if_false, if_true, List.set,
        OfNat.ofNat_ne_one, OfNat.one_ne_ofNat, Base64.decode.tail, ne_eq, OfNat.ofNat_ne_zero,
        not_false_eq_true, Nat.reduceSub, List.range', List.foldl_cons, List.foldl_nil,
        i0, i1, i2, hz]
      rw [Base64.triple_eq _ _ _ _ (by omega) (by omega) (by omega)]
      have e0 : (a / 4 * 4 + (a % 4 * 16 + b / 16) / 16 % 4) % 256 = a := by omega
      have e1 : ((a % 4 * 16 + b / 16) % 16 * 16 + (b % 16 * 4 + 0 / 64) / 4 % 16) % 256 = b := by
        omega
      rw [e0, e1]
      simp
  | case3 a =>
    intro s hi hl hx
    have ha : a < 256 := hx a (by simp)
    obtain ⟨i, c4, ret⟩ := s
    simp only at hi hl
    subst hi
    match c4, hl with
    | [w, x, y, z], _ =>
      obtain ⟨v0, i0⟩ := Base64.chars_ok ⟨a / 4, by omega⟩
      obtain ⟨v1, i1⟩ := Base64.chars_ok ⟨a % 4 * 16 + 0 / 16, by omega⟩
      simp only at v0 i0 v1 i1
      have hz : Base64.decode.index 0 = 255 := by decide
      simp only [Base64.encBlocks, Base64.quad_eq a 0 0 ha (by omega) (by omega), List.map_cons,
        List.map_nil, List.cons_append, List.nil_append, List.take_succ_cons, List.take_zero,
        Base64.decode_loop_valid _ _ _ v0, Base64.decode_loop_valid _ _ _ v1,
        Base64.decode_loop_stop,
        Nat.zero_add, Nat.reduceAdd, Nat.reduceEqDiff, if_false, if_true, List.set,
        OfNat.ofNat_ne_one, OfNat.one_ne_ofNat, Base64.decode.tail, ne_eq, OfNat.ofNat_ne_zero,
        not_false_eq_true, Nat.reduceSub, List.range', List.foldl_cons, List.foldl_nil,
        i0, i1, hz]
      rw [Base64.triple_eq _ _ _ _ (by omega) (by omega) (by omega)]
      have e0 : (a / 4 * 4 + (a % 4 * 16 + 0 / 16) / 16 % 4) % 256 = a := by omega
      rw [e0]
      simp
  | case4 =>
    intro s hi _ _
    simp [Base64.decode.tail, Base64.encBlocks, Base64.decode.loop, hi]

/-- The text `Base64::encode` produces has four characters per group of three bytes. -/
theorem Base64.encBlocks_length :
    ∀ l : List Nat, (Base64.encBlocks l).length = 4 * ((l.length + 2) / 3)
  | a :: b :: c :: rest => by
    have ih := Base64.encBlocks_length rest
    simp only [Base64.encBlocks, List.length_append, ih, Base64.enc3, Base64.encode.quad,
      List.length_map, List.length_cons, List.length_nil]
    omega
  | [a, b] => by simp [Base64.encBlocks, Base64.encode.quad]
  | [a] => by simp [Base64.encBlocks, Base64.encode.quad]
  | [] => by simp [Base64.encBlocks]

/-- C7: for every buffer `b` (any length modulo 3, any byte values) whose Base64 text,
of `4 * ceil(size / 3)` characters, has at most `INT_MAX` characters, so that the `int`
index of `Base64::decode` can walk it, `Buffer::fromBase64(b.toBase64())` compares equal
to `b` under `operator==`: it has the same size and the same bytes.  Within that bound
the insert that builds the decoded buffer stays in the `int` range as well. -/
theorem base64_roundtrip (b : Buffer) (hwf : b.wf) (hbytes : ∀ x ∈ b.bytes, x < 256)
    (hfit : 4 * ((b.size + 2) / 3) ≤ INT_MAX) :
    Buffer.eq (Buffer.fromBase64 b.toBase64) b = true
      ∧ (Buffer.fromBase64 b.toBase64).size = b.size
      ∧ (Buffer.fromBase64 b.toBase64).bytes = b.bytes
      ∧ (b.toBase64.length : Int) ≤ INT_MAX
      ∧ BufferPrivate.insertFits ⟨0, 0, none⟩ b.size := by
  have hlen := Buffer.bytes_length b hwf
  have henc : b.toBase64 = Base64.encBlocks b.bytes := by
    have := Base64.encode_tail_fold b.bytes ⟨0, [0, 0, 0], []⟩ rfl rfl
    simpa [Buffer.toBase64, Base64.encode, Buffer.bytes] using this
  have htext : (b.toBase64.length : Int) ≤ INT_MAX := by
    rw [henc, Base64.encBlocks_length]
    unfold INT_MAX at hfit ⊢
    push_cast
    omega
  have hdec : Base64.decode.tail (Base64.decode.loop (Base64.encBlocks b.bytes)
      ⟨0, [0, 0, 0, 0], []⟩) = b.bytes := by
    have := Base64.decode_tail_loop b.bytes ⟨0, [0, 0, 0, 0], []⟩ rfl rfl hbytes
    simpa using this
  obtain ⟨_, h2, h3⟩ := Buffer.ofString_spec b.bytes
  have key : (Buffer.fromBase64 b.toBase64).size = b.size
      ∧ (Buffer.fromBase64 b.toBase64).bytes = b.bytes := by
    simp only [Buffer.fromBase64, Base64.decode, henc, hdec]
    exact ⟨by rw [h2, hlen], h3⟩
  have hins : BufferPrivate.insertFits ⟨0, 0, none⟩ b.size := by
    have h0 := hwf.1
    unfold BufferPrivate.insertFits INT_MAX
    unfold INT_MAX at hfit
    simp only [Buffer.size] at hfit h0 ⊢
    constructor
    · omega
    · intro _
      omega
  refine ⟨?_, key.1, key.2, htext, hins⟩
  unfold Buffer.eq
  have hs : (Buffer.fromBase64 b.toBase64).m_ptr.m_size = b.size := key.1
  have hb := key.2
  simp only [Buffer.bytes, Buffer.size] at hb
  rw [hs] at hb ⊢
  simp only [ne_eq, not_true_eq_false, if_false]
  simp only [Buffer.size] at hb ⊢
  rw [hb]
  simp

theorem base64_roundtrip_witness :
    (Buffer.ofString [0x00, 0x7f, 0x80, 0xff]).wf
      ∧ 4 * (((Buffer.ofString [0x00, 0x7f, 0x80, 0xff]).size + 2) / 3) ≤ INT_MAX
      ∧ Buffer.eq (Buffer.fromBase64 (Buffer.ofString [0x00, 0x7f, 0x80, 0xff]).toBase64)
          (Buffer.ofString [0x00, 0x7f, 0x80, 0xff]) = true :=
  ⟨(Buffer.ofString_spec _).1, by decide,
   (base64_roundtrip (Buffer.ofString [0x00, 0x7f, 0x80, 0xff]) (Buffer.ofString_spec _).1
      (by decide) (by decide)).1⟩

/-! ### Endian conversion -/

theorem and_byte_mask (v k : Nat) : v &&& (255 * 2 ^ k) = v / 2 ^ k % 256 * 2 ^ k := by
  apply Nat.eq_of_testBit_eq
  intro i
  have h255 : (255 : Nat) = 2 ^ 8 - 1 := by norm_num
  have h256 : (256 : Nat) = 2 ^ 8 := by norm_num
  rw [Nat.testBit_and, Nat.mul_comm 255, Nat.testBit_mul_pow_two, Nat.mul_comm _ (2 ^ k),
    Nat.testBit_mul_pow_two, h256, Nat.testBit_mod_two_pow, ← Nat.shiftRight_eq_div_pow,
    Nat.testBit_shiftRight, h255, Nat.testBit_two_pow_sub_one]
  by_cases hk : k ≤ i
  · have : k + (i - k) = i := by omega
    simp [hk, this, Bool.and_comm]
  · simp [hk]

theorem or_eq_add_of_dvd (x y i : Nat) (hx : 2 ^ i ∣ x) (hy : y < 2 ^ i) : x ||| y = x + y := by
  obtain ⟨a, rfl⟩ := hx
  exact (Nat.mul_add_lt_is_or hy a).symm

theorem swap_uint16_t_eq (v : Nat) :
    swap_uint16_t v = v % 256 * 256 + v / 256 % 256 := by
  have m0 := and_byte_mask v 0
  have m1 := and_byte_mask v 8
  norm_num at m0 m1
  unfold swap_uint16_t
  rw [m0, m1]
  simp only [Nat.shiftLeft_eq, Nat.shiftRight_eq_div_pow, Nat.zero_or]
  rw [or_eq_add_of_dvd _ _ 8 (by omega) (by omega)]
  omega

theorem swap_uint32_t_eq (v : Nat) :
    swap_uint32_t v
      = v % 256 * 2 ^ 24 + v / 2 ^ 8 % 256 * 2 ^ 16 + v / 2 ^ 16 % 256 * 2 ^ 8
        + v / 2 ^ 24 % 256 := by
  have m0 := and_byte_mask v 0
  have m1 := and_byte_mask v 8
  have m2 := and_byte_mask v 16
  have m3 := and_byte_mask v 24
  norm_num at m0 m1 m2 m3
  unfold swap_uint32_t
  rw [m0, m1, m2, m3]
  simp only [Nat.shiftLeft_eq, Nat.shiftRight_eq_div_pow, Nat.zero_or]
  simp (disch := omega) only [or_eq_add_of_dvd _ _ 24, or_eq_add_of_dvd _ _ 16,
    or_eq_add_of_dvd _ _ 8]
  omega

set_option maxHeartbeats 1000000 in

theorem swap_uint64_t_eq (v : Nat) :
    swap_uint64_t v
      = v % 256 * 2 ^ 56 + v / 2 ^ 8 % 256 * 2 ^ 48 + v / 2 ^ 16 % 256 * 2 ^ 40
        + v / 2 ^ 24 % 256 * 2 ^ 32 + v / 2 ^ 32 % 256 * 2 ^ 24 + v / 2 ^ 40 % 256 * 2 ^ 16
        + v / 2 ^ 48 % 256 * 2 ^ 8 + v / 2 ^ 56 % 256 := by
  have m0 := and_byte_mask v 0
  have m1 := and_byte_mask v 8
  have m2 := and_byte_mask v 16
  have m3 := and_byte_mask v 24
  have m4 := and_byte_mask v 32
  have m5 := and_byte_mask v 40
  have m6 := and_byte_mask v 48
  have m7 := and_byte_mask v 56
  norm_num at m0 m1 m2 m3 m4 m5 m6 m7
  unfold swap_uint64_t
  rw [m0, m1, m2, m3, m4, m5, m6, m7]
  simp only [Nat.shiftLeft_eq, Nat.shiftRight_eq_div_pow, Nat.zero_or]
  simp (disch := omega) only [or_eq_add_of_dvd _ _ 56, or_eq_add_of_dvd _ _ 48,
    or_eq_add_of_dvd _ _ 40, or_eq_add_of_dvd _ _ 32, or_eq_add_of_dvd _ _ 24,
    or_eq_add_of_dvd _ _ 16, or_eq_add_of_dvd _ _ 8]
  norm_num only
  have h0 : v % 256 < 256 := Nat.mod_lt _ (by norm_num)
  have h1 : v / 256 % 256 < 256 := Nat.mod_lt _ (by norm_num)
  have h2 : v / 65536 % 256 < 256 := Nat.mod_lt _ (by norm_num)
  have h3 : v / 16777216 % 256 < 256 := Nat.mod_lt _ (by norm_num)
  have h4 : v / 4294967296 % 256 < 256 := Nat.mod_lt _ (by norm_num)
  have h5 : v / 1099511627776 % 256 < 256 := Nat.mod_lt _ (by norm_num)
  have h6 : v / 281474976710656 % 256 < 256 := Nat.mod_lt _ (by norm_num)
  have h7 : v / 72057594037927936 % 256 < 256 := Nat.mod_lt _ (by norm_num)
  generalize v % 256 = b0 at *
  generalize v / 256 % 256 = b1 at *
  generalize v / 65536 % 256 = b2 at *
  generalize v / 16777216 % 256 = b3 at *
  generalize v / 4294967296 % 256 = b4 at *
  generalize v / 1099511627776 % 256 = b5 at *
  generalize v / 281474976710656 % 256 = b6 at *
  generalize v / 72057594037927936 % 256 = b7 at *
  omega

theorem swap_uint64_t_lt (v : Nat) : swap_uint64_t v < 2 ^ 64 := by
  rw [swap_uint64_t_eq]
  norm_num only
  omega

set_option maxHeartbeats 1000000 in

theorem swap_uint64_t_bytes (v : Nat) :
    swap_uint64_t v % 256 = v / 2 ^ 56 % 256
      ∧ swap_uint64_t v / 2 ^ 8 % 256 = v / 2 ^ 48 % 256
      ∧ swap_uint64_t v / 2 ^ 16 % 256 = v / 2 ^ 40 % 256
      ∧ swap_uint64_t v / 2 ^ 24 % 256 = v / 2 ^ 32 % 256
      ∧ swap_uint64_t v / 2 ^ 32 % 256 = v / 2 ^ 24 % 256
      ∧ swap_uint64_t v / 2 ^ 40 % 256 = v / 2 ^ 16 % 256
      ∧ swap_uint64_t v / 2 ^ 48 % 256 = v / 2 ^ 8 % 256
      ∧ swap_uint64_t v / 2 ^ 56 % 256 = v % 256 := by
  rw [swap_uint64_t_eq]
  norm_num only
  have h0 : v % 256 < 256 := Nat.mod_lt _ (by norm_num)
  have h1 : v / 256 % 256 < 256 := Nat.mod_lt _ (by norm_num)
  have h2 : v / 65536 % 256 < 256 := Nat.mod_lt _ (by norm_num)
  have h3 : v / 16777216 % 256 < 256 := Nat.mod_lt _ (by norm_num)
  have h4 : v / 4294967296 % 256 < 256 := Nat.mod_lt _ (by norm_num)
  have h5 : v / 1099511627776 % 256 < 256 := Nat.mod_lt _ (by norm_num)
  have h6 : v / 281474976710656 % 256 < 256 := Nat.mod_lt _ (by norm_num)
  have h7 : v / 72057594037927936 % 256 < 256 := Nat.mod_lt _ (by norm_num)
  generalize v % 256 = b0 at *
  generalize v / 256 % 256 = b1 at *
  generalize v / 65536 % 256 = b2 at *
  generalize v / 16777216 % 256 = b3 at *
  generalize v / 4294967296 % 256 = b4 at *
  generalize v / 1099511627776 % 256 = b5 at *
  generalize v / 281474976710656 % 256 = b6 at *
  generalize v / 72057594037927936 % 256 = b7 at *
  refine ⟨?_, ?_, ?_, ?_, ?_, ?_, ?_, ?_⟩ <;> omega

theorem bytes_uint64 (v : Nat) (hv : v < 2 ^ 64) :
    v = v % 256 + v / 2 ^ 8 % 256 * 2 ^ 8 + v / 2 ^ 16 % 256 * 2 ^ 16 + v / 2 ^ 24 % 256 * 2 ^ 24
        + v / 2 ^ 32 % 256 * 2 ^ 32 + v / 2 ^ 40 % 256 * 2 ^ 40 + v / 2 ^ 48 % 256 * 2 ^ 48
        + v / 2 ^ 56 % 256 * 2 ^ 56 := by
  omega

set_option maxHeartbeats 1000000 in

theorem swap_uint64_t_involutive (v : Nat) (hv : v < 2 ^ 64) :
    swap_uint64_t (swap_uint64_t v) = v := by
  obtain ⟨e0, e1, e2, e3, e4, e5, e6, e7⟩ := swap_uint64_t_bytes v
  rw [swap_uint64_t_eq (swap_uint64_t v), e0, e1, e2, e3, e4, e5, e6, e7]
  have := bytes_uint64 v hv
  omega

theorem swap_uint32_t_lt (v : Nat) : swap_uint32_t v < 2 ^ 32 := by
  rw [swap_uint32_t_eq]
  norm_num only
  omega

theorem swap_uint32_t_bytes (v : Nat) :
    swap_uint32_t v % 256 = v / 2 ^ 24 % 256
      ∧ swap_uint32_t v / 2 ^ 8 % 256 = v / 2 ^ 16 % 256
      ∧ swap_uint32_t v / 2 ^ 16 % 256 = v / 2 ^ 8 % 256
      ∧ swap_uint32_t v / 2 ^ 24 % 256 = v % 256 := by
  rw [swap_uint32_t_eq]
  norm_num only
  have h0 : v % 256 < 256 := Nat.mod_lt _ (by norm_num)
  have h1 : v / 256 % 256 < 256 := Nat.mod_lt _ (by norm_num)
  have h2 : v / 65536 % 256 < 256 := Nat.mod_lt _ (by norm_num)
  have h3 : v / 16777216 % 256 < 256 := Nat.mod_lt _ (by norm_num)
  generalize v % 256 = b0 at *
  generalize v / 256 % 256 = b1 at *
  generalize v / 65536 % 256 = b2 at *
  generalize v / 16777216 % 256 = b3 at *
  refine ⟨?_, ?_, ?_, ?_⟩ <;> omega

theorem swap_uint32_t_involutive (v : Nat) (hv : v < 2 ^ 32) :
    swap_uint32_t (swap_uint32_t v) = v := by
  obtain ⟨e0, e1, e2, e3⟩ := swap_uint32_t_bytes v
  rw [swap_uint32_t_eq (swap_uint32_t v), e0, e1, e2, e3]
  have : v = v % 256 + v / 2 ^ 8 % 256 * 2 ^ 8 + v / 2 ^ 16 % 256 * 2 ^ 16
      + v / 2 ^ 24 % 256 * 2 ^ 24 := by omega
  omega

theorem swap_uint16_t_lt (v : Nat) : swap_uint16_t v < 2 ^ 16 := by
  rw [swap_uint16_t_eq]
  omega

theorem swap_uint16_t_bytes (v : Nat) :
    swap_uint16_t v % 256 = v / 2 ^ 8 % 256 ∧ swap_uint16_t v / 2 ^ 8 % 256 = v % 256 := by
  rw [swap_uint16_t_eq]
  have h0 : v % 256 < 256 := Nat.mod_lt _ (by norm_num)
  have h1 : v / 256 % 256 < 256 := Nat.mod_lt _ (by norm_num)
  norm_num only
  generalize v % 256 = b0 at *
  generalize v / 256 % 256 = b1 at *
  constructor <;> omega

theorem swap_uint16_t_involutive (v : Nat) (hv : v < 2 ^ 16) :
    swap_uint16_t (swap_uint16_t v) = v := by
  obtain ⟨e0, e1⟩ := swap_uint16_t_bytes v
  norm_num only at e0 e1
  rw [swap_uint16_t_eq (swap_uint16_t v), e0, e1]
  omega

theorem isBigEndian_little : isBigEndian ByteOrder.little = false := by decide

theorem isBigEndian_big : isBigEndian ByteOrder.big = true := by decide

theorem toUnsigned_toSigned_16 (u : Nat) (hu : u < 2 ^ 16) : toUnsigned 16 (toSigned 16 u) = u := by
  simp only [toUnsigned, toSigned]
  split <;> omega

theorem toUnsigned_toSigned_32 (u : Nat) (hu : u < 2 ^ 32) : toUnsigned 32 (toSigned 32 u) = u := by
  simp only [toUnsigned, toSigned]
  split <;> omega

theorem toUnsigned_toSigned_64 (u : Nat) (hu : u < 2 ^ 64) : toUnsigned 64 (toSigned 64 u) = u := by
  simp only [toUnsigned, toSigned]
  split <;> omega

theorem toSigned_toUnsigned_16 (v : Int) (h1 : -(2 ^ 15 : Int) ≤ v) (h2 : v < 2 ^ 15) :
    toSigned 16 (toUnsigned 16 v) = v := by
  simp only [toUnsigned, toSigned]
  split <;> omega

theorem toSigned_toUnsigned_32 (v : Int) (h1 : -(2 ^ 31 : Int) ≤ v) (h2 : v < 2 ^ 31) :
    toSigned 32 (toUnsigned 32 v) = v := by
  simp only [toUnsigned, toSigned]
  split <;> omega

theorem toSigned_toUnsigned_64 (v : Int) (h1 : -(2 ^ 63 : Int) ≤ v) (h2 : v < 2 ^ 63) :
    toSigned 64 (toUnsigned 64 v) = v := by
  simp only [toUnsigned, toSigned]
  split <;> omega

theorem toSigned_range_16 (u : Nat) :
    -(2 ^ 15 : Int) ≤ toSigned 16 u ∧ toSigned 16 u < 2 ^ 15 := by
  simp only [toSigned]
  split <;> omega

theorem toSigned_range_32 (u : Nat) :
    -(2 ^ 31 : Int) ≤ toSigned 32 u ∧ toSigned 32 u < 2 ^ 31 := by
  simp only [toSigned]
  split <;> omega

theorem toSigned_range_64 (u : Nat) :
    -(2 ^ 63 : Int) ≤ toSigned 64 u ∧ toSigned 64 u < 2 ^ 63 := by
  simp only [toSigned]
  split <;> omega

theorem toUnsigned_lt_16 (v : Int) : toUnsigned 16 v < 2 ^ 16 := by
  simp only [toUnsigned]; omega

theorem toUnsigned_lt_32 (v : Int) : toUnsigned 32 v < 2 ^ 32 := by
  simp only [toUnsigned]; omega

theorem toUnsigned_lt_64 (v : Int) : toUnsigned 64 v < 2 ^ 64 := by
  simp only [toUnsigned]; omega

/-- The result of `swap<T>` is a value of type `T`, and swapping twice gives back `v`. -/
theorem swap_swap (T : IntType) (v : Int) (hv : T.inRange v) :
    T.inRange (swap T v) ∧ swap T (swap T v) = v := by
  cases T <;>
    simp only [IntType.inRange, IntType.isSigned, IntType.bits, IntType.sizeof, if_true,
      if_false, Bool.false_eq_true, swap, swap_uint8_t] at hv ⊢
  · -- uint8_t
    refine ⟨by omega, by omega⟩
  · -- uint16_t
    obtain ⟨u, rfl⟩ := Int.eq_ofNat_of_zero_le hv.1
    have hu : u < 2 ^ 16 := by omega
    have := swap_uint16_t_lt u
    simp only [Int.toNat_ofNat]
    refine ⟨by omega, ?_⟩
    rw [swap_uint16_t_involutive u hu]
  · -- uint32_t
    obtain ⟨u, rfl⟩ := Int.eq_ofNat_of_zero_le hv.1
    have hu : u < 2 ^ 32 := by omega
    have := swap_uint32_t_lt u
    simp only [Int.toNat_ofNat]
    refine ⟨by omega, ?_⟩
    rw [swap_uint32_t_involutive u hu]
  · -- uint64_t
    obtain ⟨u, rfl⟩ := Int.eq_ofNat_of_zero_le hv.1
    have hu : u < 2 ^ 64 := by omega
    have := swap_uint64_t_lt u
    simp only [Int.toNat_ofNat]
    refine ⟨by omega, ?_⟩
    rw [swap_uint64_t_involutive u hu]
  · -- int8_t
    exact ⟨hv, trivial⟩
  · -- int16_t
    refine ⟨toSigned_range_16 _, ?_⟩
    rw [toUnsigned_toSigned_16 _ (swap_uint16_t_lt _),
      swap_uint16_t_involutive _ (toUnsigned_lt_16 v), toSigned_toUnsigned_16 v hv.1 hv.2]
  · -- int32_t
    refine ⟨toSigned_range_32 _, ?_⟩
    rw [toUnsigned_toSigned_32 _ (swap_uint32_t_lt _),
      swap_uint32_t_involutive _ (toUnsigned_lt_32 v), toSigned_toUnsigned_32 v hv.1 hv.2]
  · -- int64_t
    refine ⟨toSigned_range_64 _, ?_⟩
    rw [toUnsigned_toSigned_64 _ (swap_uint64_t_lt _),
      swap_uint64_t_involutive _ (toUnsigned_lt_64 v), toSigned_toUnsigned_64 v hv.1 hv.2]

theorem swap_sizeof_one (T : IntType) (v : Int) (hv : T.inRange v) (h1 : T.sizeof = 1) :
    swap T v = v := by
  cases T <;> simp [IntType.sizeof] at h1
  · simp only [IntType.inRange, IntType.isSigned, Bool.false_eq_true, if_false] at hv
    simp only [swap, swap_uint8_t]
    omega
  · rfl

theorem fromBigEndian_toBigEndian (h : ByteOrder) (T : IntType) (v : Int) (hv : T.inRange v) :
    fromBigEndian h T (toBigEndian h T v) = v := by
  cases h
  · simp only [fromBigEndian, toBigEndian, isBigEndian_little, Bool.false_eq_true, if_false]
    exact (swap_swap T v hv).2
  · simp only [fromBigEndian, toBigEndian, isBigEndian_big, if_true]

/-- C8: for every integer type `T` of 8, 16, 32 or 64 bits, signed or unsigned, every
value `v` of that type and either host byte order, `fromBigEndian(toBigEndian(v)) = v`
and `toBigEndian(toBigEndian(v)) = v`; `swap<T>` is an involution; and on the 8-bit types
`toBigEndian` and `fromBigEndian` return their argument. -/
theorem endian_roundtrip (h : ByteOrder) (T : IntType) (v : Int) (hv : T.inRange v) :
    fromBigEndian h T (toBigEndian h T v) = v
      ∧ toBigEndian h T (toBigEndian h T v) = v
      ∧ swap T (swap T v) = v
      ∧ (T.sizeof = 1 → toBigEndian h T v = v ∧ fromBigEndian h T v = v) := by
  obtain ⟨_, hs⟩ := swap_swap T v hv
  cases h
  · simp only [fromBigEndian, toBigEndian, isBigEndian_little, Bool.false_eq_true, if_false]
    exact ⟨hs, hs, hs, fun h1 => ⟨swap_sizeof_one T v hv h1, swap_sizeof_one T v hv h1⟩⟩
  · simp only [fromBigEndian, toBigEndian, isBigEndian_big, if_true]
    exact ⟨trivial, trivial, hs, fun _ => ⟨trivial, trivial⟩⟩

theorem endian_roundtrip_witness :
    IntType.inRange IntType.int32_t (-2)
      ∧ toBigEndian ByteOrder.little IntType.int32_t (-2) = -16777217
      ∧ fromBigEndian ByteOrder.little IntType.int32_t
          (toBigEndian ByteOrder.little IntType.int32_t (-2)) = -2 :=
  ⟨by decide, by decide,
    (endian_roundtrip ByteOrder.little IntType.int32_t (-2) (by decide)).1⟩

/-! ### Serialization cursor -/

theorem range_lits : List.range 1 = [0] ∧ List.range 2 = [0, 1] ∧ List.range 4 = [0, 1, 2, 3]
    ∧ List.range 8 = [0, 1, 2, 3, 4, 5, 6, 7] := by decide

theorem toUnsigned_ofNat_8 (u : Nat) (hu : u < 2 ^ 8) : toUnsigned 8 (u : Int) = u := by
  simp only [toUnsigned]; omega

theorem toUnsigned_ofNat_16 (u : Nat) (hu : u < 2 ^ 16) : toUnsigned 16 (u : Int) = u := by
  simp only [toUnsigned]; omega

theorem toUnsigned_ofNat_32 (u : Nat) (hu : u < 2 ^ 32) : toUnsigned 32 (u : Int) = u := by
  simp only [toUnsigned]; omega

theorem toUnsigned_ofNat_64 (u : Nat) (hu : u < 2 ^ 64) : toUnsigned 64 (u : Int) = u := by
  simp only [toUnsigned]; omega

/-- The pattern of `swap<T>(v)` is the byte-swapped pattern of `v`. -/
theorem toUnsigned_swap (T : IntType) (v : Int) (hv : T.inRange v) :
    toUnsigned T.bits (swap T v)
      = match T.sizeof with
        | 1 => toUnsigned T.bits v
        | 2 => swap_uint16_t (toUnsigned T.bits v)
        | 4 => swap_uint32_t (toUnsigned T.bits v)
        | _ => swap_uint64_t (toUnsigned T.bits v) := by
  cases T <;>
    simp only [IntType.inRange, IntType.isSigned, IntType.bits, IntType.sizeof, if_true,
      if_false, Bool.false_eq_true, swap, swap_uint8_t, Nat.reduceMul] at hv ⊢
  · obtain ⟨u, rfl⟩ := Int.eq_ofNat_of_zero_le hv.1
    simp
  · obtain ⟨u, rfl⟩ := Int.eq_ofNat_of_zero_le hv.1
    rw [toUnsigned_ofNat_16 _ (swap_uint16_t_lt _), Int.toNat_ofNat,
      toUnsigned_ofNat_16 u (by omega)]
  · obtain ⟨u, rfl⟩ := Int.eq_ofNat_of_zero_le hv.1
    rw [toUnsigned_ofNat_32 _ (swap_uint32_t_lt _), Int.toNat_ofNat,
      toUnsigned_ofNat_32 u (by omega)]
  · obtain ⟨u, rfl⟩ := Int.eq_ofNat_of_zero_le hv.1
    rw [toUnsigned_ofNat_64 _ (swap_uint64_t_lt _), Int.toNat_ofNat,
      toUnsigned_ofNat_64 u (by omega)]
  · rw [toUnsigned_toSigned_16 _ (swap_uint16_t_lt _)]
  · rw [toUnsigned_toSigned_32 _ (swap_uint32_t_lt _)]
  · rw [toUnsigned_toSigned_64 _ (swap_uint64_t_lt _)]

/-- On either host the memory image of `toBigEndian(v)` is the big-endian serialization
of `v`. -/
theorem objectBytes_toBigEndian (h : ByteOrder) (T : IntType) (v : Int) (hv : T.inRange v) :
    T.objectBytes h (toBigEndian h T v) = beBytes T v := by
  obtain ⟨r1, r2, r4, r8⟩ := range_lits
  cases h
  · -- little-endian host: the swapped value, lowest byte first
    simp only [toBigEndian, isBigEndian_little, Bool.false_eq_true, if_false,
      IntType.objectBytes, toUnsigned_swap T v hv, beBytes, objectBytes]
    generalize toUnsigned T.bits v = u
    cases T <;> simp only [IntType.sizeof, IntType.bits, r1, r2, r4, r8, List.map_cons,
      List.map_nil, Nat.reduceMul, Nat.reduceAdd, Nat.reduceSub, pow_zero, Nat.div_one, pow_one]
    · obtain ⟨e0, e1⟩ := swap_uint16_t_bytes u
      norm_num only at e0 e1 ⊢
      rw [e0, e1]
    · obtain ⟨e0, e1, e2, e3⟩ := swap_uint32_t_bytes u
      norm_num only at e0 e1 e2 e3 ⊢
      rw [e0, e1, e2, e3]
    · obtain ⟨e0, e1, e2, e3, e4, e5, e6, e7⟩ := swap_uint64_t_bytes u
      norm_num only at e0 e1 e2 e3 e4 e5 e6 e7 ⊢
      rw [e0, e1, e2, e3, e4, e5, e6, e7]
    · obtain ⟨e0, e1⟩ := swap_uint16_t_bytes u
      norm_num only at e0 e1 ⊢
      rw [e0, e1]
    · obtain ⟨e0, e1, e2, e3⟩ := swap_uint32_t_bytes u
      norm_num only at e0 e1 e2 e3 ⊢
      rw [e0, e1, e2, e3]
    · obtain ⟨e0, e1, e2, e3, e4, e5, e6, e7⟩ := swap_uint64_t_bytes u
      norm_num only at e0 e1 e2 e3 e4 e5 e6 e7 ⊢
      rw [e0, e1, e2, e3, e4, e5, e6, e7]
  · -- big-endian host: the value itself, highest byte first
    simp only [toBigEndian, isBigEndian_big, if_true, IntType.objectBytes, beBytes, objectBytes]
    generalize toUnsigned T.bits v = u
    cases T <;> simp only [IntType.sizeof, IntType.bits, r1, r2, r4, r8, List.map_cons,
      List.map_nil, Nat.reduceMul, Nat.reduceAdd, Nat.reduceSub, pow_zero, Nat.div_one, pow_one,
      List.reverse_cons, List.reverse_nil, List.nil_append, List.cons_append] <;> norm_num only

theorem objectBytes_length (h : ByteOrder) (n v : Nat) : (objectBytes h n v).length = n := by
  cases h <;> simp [objectBytes]

theorem beBytes_length (T : IntType) (v : Int) : (beBytes T v).length = T.bits / 8 := by
  simp [beBytes, IntType.bits]

theorem toUnsigned_lt_8 (v : Int) : toUnsigned 8 v < 2 ^ 8 := by
  simp only [toUnsigned]; omega

theorem toSigned_toUnsigned_8 (v : Int) (h1 : -(2 ^ 7 : Int) ≤ v) (h2 : v < 2 ^ 7) :
    toSigned 8 (toUnsigned 8 v) = v := by
  simp only [toUnsigned, toSigned]
  split <;> omega

theorem toUnsigned_lt (T : IntType) (x : Int) : toUnsigned T.bits x < 2 ^ T.bits := by
  cases T <;> simp only [IntType.bits, IntType.sizeof, Nat.reduceMul]
  · exact toUnsigned_lt_8 x
  · exact toUnsigned_lt_16 x
  · exact toUnsigned_lt_32 x
  · exact toUnsigned_lt_64 x
  · exact toUnsigned_lt_8 x
  · exact toUnsigned_lt_16 x
  · exact toUnsigned_lt_32 x
  · exact toUnsigned_lt_64 x

set_option maxHeartbeats 4000000 in

theorem objectValue_objectBytes_nat (h : ByteOrder) (T : IntType) (u : Nat)
    (hlt : u < 2 ^ T.bits) :
    crypto.objectValue h (crypto.objectBytes h T.sizeof u) = u := by
  obtain ⟨r1, r2, r4, r8⟩ := range_lits
  cases h <;> cases T <;>
    simp only [IntType.sizeof, IntType.bits, objectBytes, objectValue, r1, r2, r4, r8,
      List.map_cons, List.map_nil, List.reverse_cons, List.reverse_nil, List.nil_append,
      List.cons_append, List.foldr_cons, List.foldr_nil, List.foldl_cons, List.foldl_nil,
      Nat.reduceMul] at hlt ⊢ <;>
    norm_num only at hlt ⊢ <;> omega

/-- The bytes of a variable determine its value. -/
theorem objectValue_objectBytes (h : ByteOrder) (T : IntType) (x : Int) (hx : T.inRange x) :
    T.objectValue h (T.objectBytes h x) = x := by
  unfold IntType.objectValue IntType.objectBytes
  rw [objectValue_objectBytes_nat h T _ (toUnsigned_lt T x)]
  cases T <;>
    simp only [IntType.inRange, IntType.isSigned, IntType.bits, IntType.sizeof, if_true,
      if_false, Bool.false_eq_true, Nat.reduceMul] at hx ⊢
  · simp only [toUnsigned]; omega
  · simp only [toUnsigned]; omega
  · simp only [toUnsigned]; omega
  · simp only [toUnsigned]; omega
  · exact toSigned_toUnsigned_8 x hx.1 hx.2
  · exact toSigned_toUnsigned_16 x hx.1 hx.2
  · exact toSigned_toUnsigned_32 x hx.1 hx.2
  · exact toSigned_toUnsigned_64 x hx.1 hx.2

theorem toBigEndian_inRange (h : ByteOrder) (T : IntType) (v : Int) (hv : T.inRange v) :
    T.inRange (toBigEndian h T v) := by
  cases h
  · simp only [toBigEndian, isBigEndian_little, Bool.false_eq_true, if_false]
    exact (swap_swap T v hv).1
  · simp only [toBigEndian, isBigEndian_big, if_true]
    exact hv

theorem take_drop_take (l : List Nat) (p n s : Nat) (h : p + n ≤ s) :
    ((l.take s).drop p).take n = (l.drop p).take n := by
  rw [List.drop_take, List.take_take]
  congr 1
  omega

/-- A typed read placed on the big-endian bytes of `v` returns `v` and advances the
position by `sizeof(T)`. -/
theorem read_spec (h : ByteOrder) (T : IntType) (buf : Buffer) (g v : Int)
    (pre post : List Nat) (hwf : buf.wf) (hv : T.inRange v)
    (hb : buf.bytes = pre ++ beBytes T v ++ post) :
    read h T ⟨buf, pre.length⟩ g = (⟨buf, ((pre.length + T.sizeof : Nat) : Int)⟩, v) := by
  have hsz := Buffer.bytes_length buf hwf
  have hbl : (beBytes T v).length = T.sizeof := by simp [beBytes]
  have hsize : buf.size = ((pre.length + T.sizeof + post.length : Nat) : Int) := by
    rw [← hsz, hb]; simp [hbl]; omega
  have hpos : T.sizeof ≠ 0 := by cases T <;> simp [IntType.sizeof]
  have hge : ¬ ((pre.length : Int) ≥ buf.size) := by rw [hsize]; push_cast; omega
  have hlen : ¬ ((T.sizeof : Int) > buf.size - (pre.length : Int)) := by
    rw [hsize]; push_cast; omega
  have hcopy : memcpy (T.objectBytes h g) 0 (buf.data.drop pre.length) T.sizeof
      = beBytes T v := by
    have hsrc : (buf.data.drop pre.length).take T.sizeof = beBytes T v := by
      have := take_drop_take buf.data pre.length T.sizeof buf.size.toNat
        (by rw [hsize]; simp; omega)
      rw [← this]
      have hbb : buf.data.take buf.size.toNat = pre ++ beBytes T v ++ post := hb
      rw [hbb, List.append_assoc, List.drop_left, List.take_left' hbl]
    unfold memcpy
    rw [hsrc, List.take_zero, List.nil_append, Nat.zero_add,
      List.drop_of_length_le (by rw [IntType.objectBytes, objectBytes_length]),
      List.append_nil]
  simp only [read, BufferReader.read, hge, if_false, hlen, Int.toNat_ofNat, hcopy, if_true]
  rw [← objectBytes_toBigEndian h T v hv,
    objectValue_objectBytes h T _ (toBigEndian_inRange h T v hv),
    fromBigEndian_toBigEndian h T v hv]
  simp

theorem ROTL_mod32 (x n : Nat) (h0 : 0 < n) (h32 : n < 32) :
    ROTL ShiftTarget.mod32 x (n : Int) = Std.rotl x n := by
  have h1 : (0 : Int) ≤ (n : Int) ∧ (n : Int) < 32 := by omega
  have h2 : (0 : Int) ≤ 32 - (n : Int) ∧ 32 - (n : Int) < 32 := by omega
  have h3 : (32 - (n : Int)).toNat = 32 - n := by omega
  have h4 : n % 32 = n := Nat.mod_eq_of_lt h32
  simp only [ROTL, SHL, shl32, shr32, h1, h2, and_self, if_true, Int.toNat_ofNat, h3, Std.rotl,
    h4, and_FFFFFFFF, Nat.shiftLeft_eq]
  rw [Nat.mod_mul_mod]

theorem P0_mod32 (x : Nat) : P0 ShiftTarget.mod32 x = Std.P0 x := by
  have h9 := ROTL_mod32 x 9 (by norm_num) (by norm_num)
  have h17 := ROTL_mod32 x 17 (by norm_num) (by norm_num)
  simp only [Nat.cast_ofNat] at h9 h17
  simp only [P0, Std.P0, h9, h17]

theorem P1_mod32 (x : Nat) : P1 ShiftTarget.mod32 x = Std.P1 x := by
  have h15 := ROTL_mod32 x 15 (by norm_num) (by norm_num)
  have h23 := ROTL_mod32 x 23 (by norm_num) (by norm_num)
  simp only [Nat.cast_ofNat] at h15 h23
  simp only [P1, Std.P1, h15, h23]

theorem ROTL_T_mod32 : ∀ j : Fin 64,
    ROTL ShiftTarget.mod32 (sm3_process.T.getD j.val 0) (j.val : Int)
      = Std.rotl (Std.T j.val) (j.val % 32) := by
  decide!

theorem foldl_congr_mem {α β : Type} (f g : α → β → α) (l : List β) :
    ∀ a : α, (∀ b, ∀ x ∈ l, f b x = g b x) → l.foldl f a = l.foldl g a := by
  induction l with
  | nil => intro a _; rfl
  | cons x rest ih =>
    intro a h
    simp only [List.foldl_cons]
    rw [h a x (List.mem_cons_self _ _)]
    exact ih _ (fun b y hy => h b y (List.mem_cons_of_mem _ hy))

theorem getD_set (l : List Nat) (j i v : Nat) (hj : j < l.length) :
    (l.set j v).getD i 0 = if i = j then v else l.getD i 0 := by
  simp only [List.getD_eq_getElem?_getD, List.getElem?_set]
  by_cases h : j = i
  · subst h; simp [hj]
  · have h' : ¬ i = j := fun e => h e.symm
    simp [h, h']

/-- Filling an array cell by cell: after the loop `for (j = s; j < s + m; ++j) A[j] = f(A, j)`
the cells below `s` are untouched and the length is kept. -/
theorem fill_length (f : List Nat → Nat → Nat) (s m : Nat) (A : List Nat) :
    ((List.range' s m).foldl (fun A j => A.set j (f A j)) A).length = A.length := by
  induction m generalizing A with
  | zero => simp
  | succ k ih =>
    rw [List.range'_concat, List.foldl_append]
    simp [ih]

theorem fill_getD (f : Nat → Nat) (n m : Nat) (hm : m ≤ n) :
    ∀ j < m, ((List.range' 0 m).foldl (fun A j => A.set j (f j)) (List.replicate n 0)).getD j 0
      = f j := by
  induction m with
  | zero => intro j hj; omega
  | succ k ih =>
    intro j hj
    rw [List.range'_concat, List.foldl_append]
    simp only [List.foldl_cons, List.foldl_nil, Nat.zero_add, Nat.one_mul]
    rw [getD_set _ _ _ _ (by rw [fill_length (fun _ j => f j) 0 k]; simp; omega)]
    by_cases hjk : j = k
    · simp [hjk]
    · simp only [hjk, if_false]
      exact ih (by omega) j (by omega)

theorem getD_lt_256 (data : List Nat) (hd : ∀ x ∈ data, x < 256) (i : Nat) :
    data.getD i 0 < 256 := by
  rw [List.getD_eq_getElem?_getD]
  by_cases hi : i < data.length
  · rw [List.getElem?_eq_getElem hi]
    exact hd _ (List.getElem_mem hi)
  · rw [List.getElem?_eq_none (by omega)]
    simp

theorem GET_eq_word (data : List Nat) (hd : ∀ x ∈ data, x < 256) (k : Nat) :
    SM3_GET_ULONG_BE data (4 * k) = Std.word data k := by
  have h0 := getD_lt_256 data hd (4 * k)
  have h1 := getD_lt_256 data hd (4 * k + 1)
  have h2 := getD_lt_256 data hd (4 * k + 2)
  have h3 := getD_lt_256 data hd (4 * k + 3)
  simp only [SM3_GET_ULONG_BE, Std.word, Nat.shiftLeft_eq]
  generalize data.getD (4 * k) 0 = b0 at *
  generalize data.getD (4 * k + 1) 0 = b1 at *
  generalize data.getD (4 * k + 2) 0 = b2 at *
  generalize data.getD (4 * k + 3) 0 = b3 at *
  simp (disch := omega) only [or_eq_add_of_dvd _ _ 24, or_eq_add_of_dvd _ _ 16,
    or_eq_add_of_dvd _ _ 8]
  omega

/-- The schedule of `sm3_process` on a target reducing shift counts modulo 32 holds the
words of the standard's message expansion. -/
theorem W_mod32 (data : List Nat) (hd : ∀ x ∈ data, x < 256) (m : Nat) (hm : m ≤ 52) :
    ((List.range' 16 m).foldl
        (fun W j =>
          let Temp1 := W.getD (j - 16) 0 ^^^ W.getD (j - 9) 0
          let Temp2 := ROTL ShiftTarget.mod32 (W.getD (j - 3) 0) 15
          let Temp3 := Temp1 ^^^ Temp2
          let Temp4 := P1 ShiftTarget.mod32 Temp3
          let Temp5 := ROTL ShiftTarget.mod32 (W.getD (j - 13) 0) 7 ^^^ W.getD (j - 6) 0
          W.set j (Temp4 ^^^ Temp5))
        ((List.range 16).foldl (fun W k => W.set k (SM3_GET_ULONG_BE data (4 * k)))
          (List.replicate 68 0))).length = 68
      ∧ ((List.range' 16 m).foldl
        (fun W j =>
          W ++ [Std.P1 (W.getD (j - 16) 0 ^^^ W.getD (j - 9) 0
                  ^^^ Std.rotl (W.getD (j - 3) 0) 15)
                ^^^ Std.rotl (W.getD (j - 13) 0) 7 ^^^ W.getD (j - 6) 0])
        ((List.range 16).map (Std.word data))).length = 16 + m
      ∧ ∀ i < 16 + m,
        ((List.range' 16 m).foldl
          (fun W j =>
            let Temp1 := W.getD (j - 16) 0 ^^^ W.getD (j - 9) 0
            let Temp2 := ROTL ShiftTarget.mod32 (W.getD (j - 3) 0) 15
            let Temp3 := Temp1 ^^^ Temp2
            let Temp4 := P1 ShiftTarget.mod32 Temp3
            let Temp5 := ROTL ShiftTarget.mod32 (W.getD (j - 13) 0) 7 ^^^ W.getD (j - 6) 0
            W.set j (Temp4 ^^^ Temp5))
          ((List.range 16).foldl (fun W k => W.set k (SM3_GET_ULONG_BE data (4 * k)))
            (List.replicate 68 0))).getD i 0
        = ((List.range' 16 m).foldl
          (fun W j =>
            W ++ [Std.P1 (W.getD (j - 16) 0 ^^^ W.getD (j - 9) 0
                    ^^^ Std.rotl (W.getD (j - 3) 0) 15)
                  ^^^ Std.rotl (W.getD (j - 13) 0) 7 ^^^ W.getD (j - 6) 0])
          ((List.range 16).map (Std.word data))).getD i 0 := by
  have r15 : ∀ x, ROTL ShiftTarget.mod32 x 15 = Std.rotl x 15 := fun x => by
    have := ROTL_mod32 x 15 (by norm_num) (by norm_num); simpa using this
  have r7 : ∀ x, ROTL ShiftTarget.mod32 x 7 = Std.rotl x 7 := fun x => by
    have := ROTL_mod32 x 7 (by norm_num) (by norm_num); simpa using this
  induction m with
  | zero =>
    simp only [List.range'_zero, List.foldl_nil, List.length_map, List.length_range,
      Nat.add_zero, List.range_eq_range']
    refine ⟨?_, by simp, ?_⟩
    · rw [fill_length (fun _ k => SM3_GET_ULONG_BE data (4 * k)) 0 16]; simp
    · intro i hi
      rw [fill_getD (fun k => SM3_GET_ULONG_BE data (4 * k)) 68 16 (by norm_num) i hi]
      rw [GET_eq_word data hd]
      simp [List.getD_eq_getElem?_getD, List.getElem?_map, List.getElem?_range' , hi]
  | succ k ih =>
    obtain ⟨l1, l2, heq⟩ := ih (by omega)
    rw [List.range'_concat, List.foldl_append, List.foldl_append]
    simp only [List.foldl_cons, List.foldl_nil, Nat.one_mul]
    generalize (List.range' 16 k).foldl _ ((List.range 16).foldl _ _) = Wc at l1 heq ⊢
    generalize (List.range' 16 k).foldl _ ((List.range 16).map (Std.word data)) = Ws at l2 heq ⊢
    refine ⟨by rw [List.length_set]; exact l1, by rw [List.length_append, l2]; simp; omega, ?_⟩
    intro i hi
    rw [getD_set _ _ _ _ (by omega)]
    have e16 := heq (16 + k - 16) (by omega)
    have e9 := heq (16 + k - 9) (by omega)
    have e3 := heq (16 + k - 3) (by omega)
    have e13 := heq (16 + k - 13) (by omega)
    have e6 := heq (16 + k - 6) (by omega)
    by_cases hik : i = 16 + k
    · subst hik
      simp only [if_true, e16, e9, e3, e13, e6, r15, r7, P1_mod32]
      rw [List.getD_append_right _ _ _ _ (by omega), l2]
      simp [Nat.xor_assoc]
    · simp only [hik, if_false]
      rw [heq i (by omega), List.getD_append _ _ _ _ (by omega)]

theorem W1_getD (W : List Nat) (m : Nat) (hm : m ≤ 64) :
    ∀ j < m, ((List.range' 0 m).foldl
        (fun W1 j => W1.set j (W.getD j 0 ^^^ W.getD (j + 4) 0)) (List.replicate 64 0)).getD j 0
      = W.getD j 0 ^^^ W.getD (j + 4) 0 := by
  induction m with
  | zero => intro j hj; omega
  | succ k ih =>
    intro j hj
    rw [List.range'_concat, List.foldl_append]
    simp only [List.foldl_cons, List.foldl_nil, Nat.zero_add, Nat.one_mul]
    rw [getD_set _ _ _ _ (by
      rw [fill_length (fun _ j => W.getD j 0 ^^^ W.getD (j + 4) 0) 0 k]; simp; omega)]
    by_cases hjk : j = k
    · simp [hjk]
    · simp only [hjk, if_false]
      exact ih (by omega) j (by omega)

theorem round_mod32 (Wc W1 Ws : List Nat) (r : Regs) (j : Nat) (hj : j < 64)
    (hW : Wc.getD j 0 = Ws.getD j 0)
    (hW1 : W1.getD j 0 = Ws.getD j 0 ^^^ Ws.getD (j + 4) 0) :
    sm3_process.round ShiftTarget.mod32 (if j < 16 then FF0 else FF1)
        (if j < 16 then GG0 else GG1) sm3_process.T Wc W1 r j
      = Std.round Ws r j := by
  have r12 : ∀ x, ROTL ShiftTarget.mod32 x 12 = Std.rotl x 12 := fun x => by
    have := ROTL_mod32 x 12 (by norm_num) (by norm_num); simpa using this
  have r7 : ∀ x, ROTL ShiftTarget.mod32 x 7 = Std.rotl x 7 := fun x => by
    have := ROTL_mod32 x 7 (by norm_num) (by norm_num); simpa using this
  have r9 : ∀ x, ROTL ShiftTarget.mod32 x 9 = Std.rotl x 9 := fun x => by
    have := ROTL_mod32 x 9 (by norm_num) (by norm_num); simpa using this
  have r19 : ∀ x, ROTL ShiftTarget.mod32 x 19 = Std.rotl x 19 := fun x => by
    have := ROTL_mod32 x 19 (by norm_num) (by norm_num); simpa using this
  have hT := ROTL_T_mod32 ⟨j, hj⟩
  simp only at hT
  simp only [sm3_process.round, Std.round, r12, r7, r9, r19, hT, hW, hW1, P0_mod32,
    Regs.mk.injEq, and_true, true_and]
  by_cases h16 : j < 16
  · simp [h16, FF0, GG0, Std.FF, Std.GG]
  · simp [h16, FF1, GG1, Std.FF, Std.GG]

/-- On a target that reduces shift counts modulo 32, `sm3_process` replaces the state by
the standard's `CF(V, B)` for every state and every block of bytes. -/
theorem sm3_process_mod32_eq_CF (ctx : sm3_context) (data : List Nat)
    (hd : ∀ x ∈ data, x < 256) :
    (sm3_process ShiftTarget.mod32 ctx data).state = Std.CF ctx.state data := by
  have hW : ∀ i < 68, (sm3_process.W ShiftTarget.mod32 data).getD i 0
      = (Std.W data).getD i 0 :=
    fun i hi => (W_mod32 data hd 52 (le_refl _)).2.2 i (by omega)
  have hW1 : ∀ j < 64, (sm3_process.W1 (sm3_process.W ShiftTarget.mod32 data)).getD j 0
      = (sm3_process.W ShiftTarget.mod32 data).getD j 0
        ^^^ (sm3_process.W ShiftTarget.mod32 data).getD (j + 4) 0 :=
    W1_getD (sm3_process.W ShiftTarget.mod32 data) 64 (le_refl _)
  have hr : List.range 64 = List.range' 0 16 ++ List.range' 16 48 := by decide
  have hregs : (List.range' 16 48).foldl
        (sm3_process.round ShiftTarget.mod32 FF1 GG1 sm3_process.T
          (sm3_process.W ShiftTarget.mod32 data)
          (sm3_process.W1 (sm3_process.W ShiftTarget.mod32 data)))
        ((List.range' 0 16).foldl
          (sm3_process.round ShiftTarget.mod32 FF0 GG0 sm3_process.T
            (sm3_process.W ShiftTarget.mod32 data)
            (sm3_process.W1 (sm3_process.W ShiftTarget.mod32 data)))
          { A := ctx.state.getD 0 0, B := ctx.state.getD 1 0, C := ctx.state.getD 2 0,
            D := ctx.state.getD 3 0, E := ctx.state.getD 4 0, F := ctx.state.getD 5 0,
            G := ctx.state.getD 6 0, H := ctx.state.getD 7 0 })
      = (List.range 64).foldl (Std.round (Std.W data))
          { A := ctx.state.getD 0 0, B := ctx.state.getD 1 0, C := ctx.state.getD 2 0,
            D := ctx.state.getD 3 0, E := ctx.state.getD 4 0, F := ctx.state.getD 5 0,
            G := ctx.state.getD 6 0, H := ctx.state.getD 7 0 } := by
    rw [hr, List.foldl_append]
    rw [foldl_congr_mem _ (Std.round (Std.W data)) (List.range' 0 16) _ (fun r j hj => by
      have hj16 : j < 16 := by simp [List.mem_range'_1] at hj; omega
      have := round_mod32 (sm3_process.W ShiftTarget.mod32 data)
        (sm3_process.W1 (sm3_process.W ShiftTarget.mod32 data)) (Std.W data) r j (by omega)
        (hW j (by omega))
        (by rw [hW1 j (by omega), hW j (by omega), hW (j + 4) (by omega)])
      simpa [hj16] using this)]
    rw [foldl_congr_mem _ (Std.round (Std.W data)) (List.range' 16 48) _ (fun r j hj => by
      have hj16 : ¬ j < 16 ∧ j < 64 := by simp [List.mem_range'_1] at hj; omega
      have := round_mod32 (sm3_process.W ShiftTarget.mod32 data)
        (sm3_process.W1 (sm3_process.W ShiftTarget.mod32 data)) (Std.W data) r j hj16.2
        (hW j (by omega))
        (by rw [hW1 j (by omega), hW j (by omega), hW (j + 4) (by omega)])
      simpa [hj16.1] using this)]
  simp only [sm3_process, Std.CF, hregs]

/-! ### Byte buffer operations -/

theorem memcpy_drop (dst src : List Nat) (off len : Nat) (h1 : off ≤ dst.length)
    (h2 : len ≤ src.length) :
    (memcpy dst off src len).drop (off + len) = dst.drop (off + len) := by
  have hl : (dst.take off ++ src.take len).length = off + len := by
    rw [List.length_append, List.length_take, List.length_take]; omega
  unfold memcpy
  exact List.drop_left' hl

/-- Shifting the tail right and copying the new bytes into the gap. -/
theorem memcpy_memmove_insert (mem d : List Nat) (p s n : Nat) (hp : p ≤ s)
    (hs : s + n ≤ mem.length) (hn : n ≤ d.length) :
    (memcpy (memmove mem (p + n) p (s - p)) p d n).length = mem.length
      ∧ (memcpy (memmove mem (p + n) p (s - p)) p d n).take (s + n)
          = (mem.take s).take p ++ d.take n ++ (mem.take s).drop p := by
  have hsrc : s - p ≤ (mem.drop p).length := by simp; omega
  have hM1 : (memmove mem (p + n) p (s - p)).length = mem.length :=
    memcpy_length _ _ _ _ (by omega) hsrc
  have hMt : (memmove mem (p + n) p (s - p)).take (p + n + (s - p))
      = mem.take (p + n) ++ (mem.drop p).take (s - p) :=
    memcpy_take _ _ _ _ (by omega) hsrc
  refine ⟨by rw [memcpy_length _ _ _ _ (by omega) hn, hM1], ?_⟩
  have e1 : (memmove mem (p + n) p (s - p)).take p = mem.take p := by
    have := congrArg (List.take p) hMt
    rw [List.take_take, List.take_append_of_le_length (by simp; omega), List.take_take] at this
    simpa [Nat.min_eq_left (show p ≤ p + n + (s - p) by omega),
      Nat.min_eq_left (show p ≤ p + n by omega)] using this
  have e2 : ((memmove mem (p + n) p (s - p)).drop (p + n)).take (s - p)
      = (mem.drop p).take (s - p) := by
    have := congrArg (List.drop (p + n)) hMt
    rw [List.drop_take, List.drop_left' (by simp; omega)] at this
    have h3 : p + n + (s - p) - (p + n) = s - p := by omega
    rw [h3] at this
    rw [this]
  have hl : ((memmove mem (p + n) p (s - p)).take p ++ d.take n).length = p + n := by
    rw [List.length_append, List.length_take, List.length_take]; omega
  unfold memcpy
  have hsn : s + n = (p + n) + (s - p) := by omega
  have key := @List.take_append Nat ((memmove mem (p + n) p (s - p)).take p ++ d.take n)
    ((memmove mem (p + n) p (s - p)).drop (p + n)) (s - p)
  rw [hl] at key
  rw [hsn, key, e2, e1, List.take_take, List.drop_take, Nat.min_eq_left hp]

/-- Shifting the tail left over the removed window. -/
theorem memmove_remove (mem : List Nat) (p l s : Nat) (hp : p + l ≤ s)
    (hs : s ≤ mem.length) :
    (memmove mem p (p + l) (s - p - l)).length = mem.length
      ∧ (memmove mem p (p + l) (s - p - l)).take (s - l)
          = (mem.take s).take p ++ (mem.take s).drop (p + l) := by
  have hsrc : s - p - l ≤ (mem.drop (p + l)).length := by simp; omega
  refine ⟨memcpy_length _ _ _ _ (by omega) hsrc, ?_⟩
  have := memcpy_take mem (mem.drop (p + l)) p (s - p - l) (by omega) hsrc
  have h3 : p + (s - p - l) = s - l := by omega
  rw [h3] at this
  unfold memmove
  rw [this, List.take_take, List.drop_take, Nat.min_eq_left (show p ≤ s by omega)]
  have h4 : s - (p + l) = s - p - l := by omega
  rw [h4]

theorem strlen_lt (d : List Nat) (h : 0 ∈ d) : strlen d < d.length := by
  unfold strlen
  induction d with
  | nil => simp at h
  | cons a rest ih =>
    by_cases ha : a = 0
    · subst ha; simp [List.takeWhile]
    · have hr : 0 ∈ rest := by
        rcases List.mem_cons.mp h with h1 | h1
        · exact absurd h1.symm ha
        · exact h1
      have := ih hr
      have hne : (a != 0) = true := by simpa using ha
      rw [List.takeWhile_cons, hne]
      simp only [if_true, List.length_cons]
      omega

/-- A growing `reserve` leaves the old content followed by zero bytes. -/
theorem BufferPrivate.reserve_fresh (b : BufferPrivate) (size : Int) (hwf : b.wf)
    (hgt : b.m_capacity < size) :
    (b.reserve size).m_data = some ((b.m_data.getD []).take b.m_size.toNat
        ++ List.replicate (size.toNat - b.m_size.toNat) 0) := by
  obtain ⟨sz, cap, dat⟩ := b
  obtain ⟨h0, hc, hd⟩ := hwf
  simp only at h0 hc hd hgt
  have hle : ¬ size ≤ cap := by omega
  simp only [BufferPrivate.reserve, hle, if_false]
  congr 1
  split
  · simp [memcpy, List.drop_replicate]
  · have : sz.toNat = 0 := by omega
    simp [this]

theorem BufferPrivate.resize_wf (b : BufferPrivate) (size : Int) (hwf : b.wf) :
    (b.resize size).wf := by
  obtain ⟨h1, h2, h3, _⟩ := BufferPrivate.reserve_spec b size hwf
  unfold BufferPrivate.resize
  simp only
  split
  · rename_i hs
    obtain ⟨_, _, hd⟩ := h1
    refine ⟨hs, ?_, hd⟩
    show size ≤ (b.reserve size).m_capacity
    rw [h3]; omega
  · exact h1

/-- The storage after the growth step of `insert` has room for `n` more bytes and
still starts with the old content. -/
theorem BufferPrivate.insert_room (b b1 : BufferPrivate) (n : Nat) (hwf : b.wf)
    (hb1 : (if (n : Int) > b.m_capacity - b.m_size then
        b.reserve (b.m_capacity + (b.m_capacity - b.m_size + (((n : Int) + 64) / 64 + 1) * 64))
      else b) = b1) :
    b1.wf ∧ b1.m_size = b.m_size
      ∧ (b1.m_data.getD []).take b.m_size.toNat = (b.m_data.getD []).take b.m_size.toNat
      ∧ b.m_size + n ≤ b1.m_capacity := by
  subst hb1
  split
  · rename_i hg
    obtain ⟨h1, h2, h3, h4⟩ := BufferPrivate.reserve_spec b
      (b.m_capacity + (b.m_capacity - b.m_size + (((n : Int) + 64) / 64 + 1) * 64)) hwf
    refine ⟨h1, h2, h4, ?_⟩
    rw [h3]
    have := hwf.1
    have := hwf.2.1
    omega
  · rename_i hg
    exact ⟨hwf, rfl, rfl, by omega⟩

theorem BufferPrivate.insert_spec (b : BufferPrivate) (pos : Int) (d : List Nat) (n : Nat)
    (hwf : b.wf) (hpos : 0 ≤ pos) (hn : n ≤ d.length) :
    (b.insert pos (some d) n).wf
      ∧ (b.insert pos (some d) n).m_size = b.m_size + n
      ∧ ((b.insert pos (some d) n).m_data.getD []).take (b.m_size + n).toNat
          = ((b.m_data.getD []).take b.m_size.toNat).take pos.toNat ++ d.take n
              ++ ((b.m_data.getD []).take b.m_size.toNat).drop pos.toNat := by
  have hneg : ¬ ((n : Int) < 0) := by omega
  simp only [BufferPrivate.insert, hneg, if_false]
  obtain ⟨hwf1, hs1, ht1, hcap1⟩ := BufferPrivate.insert_room b _ n hwf rfl
  generalize (if (n : Int) > b.m_capacity - b.m_size then
        b.reserve (b.m_capacity + (b.m_capacity - b.m_size + (((n : Int) + 64) / 64 + 1) * 64))
      else b) = b1 at hwf1 hs1 ht1 hcap1 ⊢
  obtain ⟨sz, cap, dat⟩ := b1
  obtain ⟨h0, hc, hd⟩ := hwf1
  simp only at h0 hc hd hs1 ht1 hcap1
  subst hs1
  rw [← ht1]
  cases dat with
  | none =>
    simp only at hd
    have hs0 : b.m_size = 0 := by omega
    have hn0 : n = 0 := by omega
    subst hn0
    rw [hs0]
    dsimp only
    rw [hs0] at hc
    refine ⟨⟨le_refl _, hc, hd⟩, by simp, ?_⟩
    simp
  | some mem =>
    simp only at hd
    simp only [Option.getD_some, Int.toNat_ofNat]
    have hlen : (b.m_size.toNat : Int) = b.m_size := Int.toNat_of_nonneg h0
    have hfit : b.m_size.toNat + n ≤ mem.length := by omega
    have hto : (b.m_size + (n : Int)).toNat = b.m_size.toNat + n := by omega
    by_cases hge : pos ≥ b.m_size
    · simp only [hge, if_true]
      refine ⟨⟨by show 0 ≤ b.m_size + (n : Int); omega,
        by show b.m_size + (n : Int) ≤ cap; omega, ?_⟩, trivial, ?_⟩
      · show ((memcpy mem b.m_size.toNat d n).length : Int) = cap
        rw [memcpy_length _ _ _ _ hfit hn]; exact hd
      · simp only [Option.getD_some]
        have t1 : (mem.take b.m_size.toNat).take pos.toNat = mem.take b.m_size.toNat :=
          List.take_of_length_le (by simp; omega)
        have t2 : (mem.take b.m_size.toNat).drop pos.toNat = [] :=
          List.drop_of_length_le (by simp; omega)
        rw [hto, memcpy_take _ _ _ _ (by omega) hn, t1, t2, List.append_nil]
    · simp only [hge, if_false]
      have hpsz : 0 < b.m_size := by omega
      simp only [hpsz, if_true]
      have hp1 : (pos + (n : Int)).toNat = pos.toNat + n := by omega
      have hp2 : (b.m_size - pos).toNat = b.m_size.toNat - pos.toNat := by omega
      rw [hp1, hp2]
      obtain ⟨e1, e2⟩ := memcpy_memmove_insert mem d pos.toNat b.m_size.toNat n
        (by omega) hfit hn
      refine ⟨⟨by show 0 ≤ b.m_size + (n : Int); omega,
        by show b.m_size + (n : Int) ≤ cap; omega, ?_⟩, trivial, ?_⟩
      · show ((memcpy (memmove mem (pos.toNat + n) pos.toNat
          (b.m_size.toNat - pos.toNat)) pos.toNat d n).length : Int) = cap
        rw [e1]; exact hd
      · simp only [Option.getD_some]
        rw [hto]; exact e2

/-- A negative size argument stands for `strlen(data) + 1`. -/
theorem BufferPrivate.insert_neg (b : BufferPrivate) (pos : Int) (d : List Nat) (size : Int)
    (hs : size < 0) :
    b.insert pos (some d) size = b.insert pos (some d) ((strlen d + 1 : Nat) : Int) := by
  have h2 : ¬ (((strlen d + 1 : Nat) : Int) < 0) := by omega
  simp only [BufferPrivate.insert, hs, if_true, h2, if_false]
  push_cast
  rfl

theorem BufferPrivate.remove_spec (b : BufferPrivate) (pos len : Int) (hwf : b.wf)
    (hpos : 0 ≤ pos) (hlen : 0 ≤ len) (hle : pos + len ≤ b.m_size) :
    (b.remove pos len).wf
      ∧ (b.remove pos len).m_size = b.m_size - len
      ∧ (b.remove pos len).m_capacity = b.m_capacity
      ∧ ((b.remove pos len).m_data.getD []).take (b.m_size - len).toNat
          = ((b.m_data.getD []).take b.m_size.toNat).take pos.toNat
              ++ ((b.m_data.getD []).take b.m_size.toNat).drop (pos + len).toNat := by
  obtain ⟨sz, cap, dat⟩ := b
  obtain ⟨h0, hc, hd⟩ := hwf
  simp only at h0 hc hd hle
  simp only [BufferPrivate.remove]
  cases dat with
  | none =>
    simp only at hd
    refine ⟨⟨by show 0 ≤ sz - len; omega, by show sz - len ≤ cap; omega, hd⟩,
      trivial, trivial, ?_⟩
    simp
  | some mem =>
    simp only at hd
    simp only [Option.map_some', Option.getD_some]
    have h1 : (pos + len).toNat = pos.toNat + len.toNat := by omega
    have h2 : (sz - pos - len).toNat = sz.toNat - pos.toNat - len.toNat := by omega
    have h3 : (sz - len).toNat = sz.toNat - len.toNat := by omega
    rw [h1, h2, h3]
    obtain ⟨e1, e2⟩ := memmove_remove mem pos.toNat len.toNat sz.toNat (by omega) (by omega)
    refine ⟨⟨by show 0 ≤ sz - len; omega, by show sz - len ≤ cap; omega, ?_⟩,
      trivial, trivial, e2⟩
    show ((memmove mem pos.toNat (pos.toNat + len.toNat)
      (sz.toNat - pos.toNat - len.toNat)).length : Int) = cap
    rw [e1]; exact hd

theorem BufferPrivate.truncate_spec (b : BufferPrivate) (n : Int) (hwf : b.wf)
    (h0n : 0 ≤ n) (hlt : n < b.m_size) :
    (b.truncate n).wf ∧ (b.truncate n).m_size = n ∧ (b.truncate n).m_capacity = n
      ∧ ((b.truncate n).m_data.getD []).take n.toNat
          = ((b.m_data.getD []).take b.m_size.toNat).take n.toNat := by
  obtain ⟨sz, cap, dat⟩ := b
  obtain ⟨h0, hc, hd⟩ := hwf
  simp only at h0 hc hd hlt
  have hle : ¬ sz ≤ n := by omega
  simp only [BufferPrivate.truncate, hle, if_false]
  by_cases hz : n = 0
  · subst hz
    simp only [if_true, BufferPrivate.clear]
    exact ⟨⟨le_refl _, le_refl _, rfl⟩, trivial, trivial, by simp⟩
  · simp only [hz, if_false]
    have hpos : 0 < sz := by omega
    simp only [hpos, if_true, Option.getD_some]
    have hsrc : n.toNat ≤ (dat.getD []).length := by
      cases dat with
      | none => simp at hd; omega
      | some mem => simp at hd ⊢; omega
    refine ⟨⟨h0n, le_refl _, ?_⟩, trivial, trivial, ?_⟩
    · show ((memcpy (List.replicate n.toNat 0) 0 (dat.getD []) n.toNat).length : Int) = n
      rw [memcpy_length _ _ _ _ (by simp) hsrc]; simp; omega
    · have := memcpy_take (List.replicate n.toNat 0) (dat.getD []) 0 n.toNat (by simp) hsrc
      rw [Nat.zero_add, List.take_zero, List.nil_append] at this
      rw [this, List.take_take, Nat.min_eq_left (by omega)]

theorem BufferPrivate.truncate_noop (b : BufferPrivate) (n : Int) (h : b.m_size ≤ n) :
    b.truncate n = b := by
  simp [BufferPrivate.truncate, h]

theorem BufferPrivate.truncate_wf (b : BufferPrivate) (n : Int) (hwf : b.wf) (h0n : 0 ≤ n) :
    (b.truncate n).wf := by
  by_cases h : b.m_size ≤ n
  · rw [BufferPrivate.truncate_noop b n h]; exact hwf
  · exact (BufferPrivate.truncate_spec b n hwf h0n (by omega)).1

theorem BufferPrivate.clear_wf (b : BufferPrivate) : b.clear.wf :=
  ⟨le_refl _, le_refl _, rfl⟩

theorem BufferPrivate.assign_wf (b other : BufferPrivate) (hwf : b.wf) (hother : other.wf) :
    (b.assign other).wf := by
  have key : ∀ b1 : BufferPrivate, b1.wf → (0 < other.m_size → other.m_size ≤ b1.m_capacity) →
      (if 0 < other.m_size then
        ({ b1 with
          m_data := Option.map
            (fun mem => memcpy mem 0 (other.m_data.getD []) other.m_size.toNat) b1.m_data } :
          BufferPrivate)
      else b1).wf := by
    intro b1 hb1 hfit
    split
    · rename_i hp
      have hf := hfit hp
      obtain ⟨sz, cap, dat⟩ := b1
      obtain ⟨h0, hc, hd⟩ := hb1
      obtain ⟨_, oc, od⟩ := hother
      simp only at h0 hc hd hf
      cases dat with
      | none => exact ⟨h0, hc, hd⟩
      | some mem =>
        simp only at hd
        refine ⟨h0, hc, ?_⟩
        show ((memcpy mem 0 (other.m_data.getD []) other.m_size.toNat).length : Int) = cap
        have hsrc : other.m_size.toNat ≤ (other.m_data.getD []).length := by
          cases hod : other.m_data with
          | none => rw [hod] at od; simp at od; omega
          | some om => rw [hod] at od; simp at od ⊢; omega
        rw [memcpy_length _ _ _ _ (by omega) hsrc]; exact hd
    · exact hb1
  unfold BufferPrivate.assign
  apply key
  · split
    · split
      · exact BufferPrivate.resize_wf _ _ (BufferPrivate.clear_wf b)
      · exact BufferPrivate.clear_wf b
    · exact hwf
  · intro hp
    split
    · rename_i hne
      have h0 : (0 : Int) ≤ other.m_size := by omega
      simp only [BufferPrivate.resize, h0, if_true]
      have := (BufferPrivate.reserve_spec b.clear other.m_size (BufferPrivate.clear_wf b)).2.2.1
      show other.m_size ≤ (b.clear.reserve other.m_size).m_capacity
      rw [this]; omega
    · rename_i he
      have he2 : b.m_capacity = other.m_capacity := by
        by_contra hc; exact he hc
      rw [he2]; exact hother.2.1

/-- The capacity after `insert` of `len ≥ 0` bytes from a non-null source. -/
theorem BufferPrivate.insert_capacity (b : BufferPrivate) (pos : Int) (d : List Nat)
    (len : Nat) (hwf : b.wf) :
    (b.insert pos (some d) len).m_capacity
      = if (len : Int) > b.m_capacity - b.m_size then
          b.m_capacity + (b.m_capacity - b.m_size) + (((len : Int) + 64) / 64 + 1) * 64
        else b.m_capacity := by
  have hneg : ¬ ((len : Int) < 0) := by omega
  have h0 := hwf.1
  have h1 := hwf.2.1
  have hres := (BufferPrivate.reserve_spec b
    (b.m_capacity + (b.m_capacity - b.m_size + (((len : Int) + 64) / 64 + 1) * 64)) hwf).2.2.1
  have hb1 : (if (len : Int) > b.m_capacity - b.m_size then
        b.reserve (b.m_capacity + (b.m_capacity - b.m_size + (((len : Int) + 64) / 64 + 1) * 64))
      else b).m_capacity
      = if (len : Int) > b.m_capacity - b.m_size then
          b.m_capacity + (b.m_capacity - b.m_size) + (((len : Int) + 64) / 64 + 1) * 64
        else b.m_capacity := by
    split
    · rw [hres]; omega
    · rfl
  rw [← hb1]
  simp only [BufferPrivate.insert, hneg, if_false]
  generalize (if (len : Int) > b.m_capacity - b.m_size then
        b.reserve (b.m_capacity + (b.m_capacity - b.m_size + (((len : Int) + 64) / 64 + 1) * 64))
      else b) = b1
  cases hm : b1.m_data with
  | none => rfl
  | some mem =>
    simp only
    split <;> rfl

/-- Within the `int` range the capacity after `insert` is an `int` again. -/
theorem BufferPrivate.insert_fits (b : BufferPrivate) (pos : Int) (d : List Nat)
    (len : Nat) (hwf : b.wf) (hfit : b.insertFits len) :
    (b.insert pos (some d) len).m_capacity ≤ INT_MAX := by
  rw [BufferPrivate.insert_capacity b pos d len hwf]
  obtain ⟨h1, h2⟩ := hfit
  split
  · rename_i hg
    have := h2 hg
    omega
  · exact h1

/-- An insert of `len ≥ 0` readable bytes or of null-terminated data whose `int`
arithmetic stays in range keeps the buffer invariant and an `int` capacity. -/
theorem BufferPrivate.insert_wf (c : BufferPrivate) (pos n : Int) (d : List Nat)
    (hc : c.wf) (hpos : 0 ≤ pos)
    (hcase : (0 ≤ n ∧ n ≤ d.length ∧ c.insertFits n)
      ∨ (n < 0 ∧ 0 ∈ d ∧ c.insertFits ((strlen d : Int) + 1))) :
    (c.insert pos (some d) n).wf ∧ (c.insert pos (some d) n).m_capacity ≤ INT_MAX := by
  rcases hcase with ⟨h0, h1, hf⟩ | ⟨h0, h1, hf⟩
  · lift n to ℕ using h0
    exact ⟨(BufferPrivate.insert_spec c pos d n hc hpos (by omega)).1,
      BufferPrivate.insert_fits c pos d n hc hf⟩
  · rw [BufferPrivate.insert_neg c pos d n h0]
    have := strlen_lt d h1
    have hf2 : c.insertFits ((strlen d + 1 : Nat) : Int) := by
      push_cast
      exact hf
    exact ⟨(BufferPrivate.insert_spec c pos d (strlen d + 1) hc hpos (by omega)).1,
      BufferPrivate.insert_fits c pos d (strlen d + 1) hc hf2⟩

theorem Buffer.insert_at (b : Buffer) (pos : Int) (d : List Nat) (n : Nat) (hwf : b.wf)
    (hpos : 0 ≤ pos) (hn : n ≤ d.length) :
    (b.insert pos (some d) n).wf ∧ (b.insert pos (some d) n).size = b.size + n
      ∧ (b.insert pos (some d) n).bytes
          = b.bytes.take pos.toNat ++ d.take n ++ b.bytes.drop pos.toNat := by
  obtain ⟨h1, h2, h3⟩ := BufferPrivate.insert_spec b.m_ptr pos d n hwf hpos hn
  refine ⟨h1, h2, ?_⟩
  simp only [Buffer.bytes, Buffer.size, Buffer.data, Buffer.insert] at h2 ⊢
  rw [h2]
  exact h3

/-- C15: the buffer invariant (`0 ≤ size ≤ capacity`, the storage being a block of
`capacity` bytes and hence present whenever the capacity is positive) holds after both
constructors and is kept by `reserve`, `resize` with any argument, `truncate(n)` with
`n ≥ 0`, `insert` at `pos ≥ 0` of a null pointer, of `len ≥ 0` readable bytes or of
null-terminated data, `remove` under `pos ≥ 0`, `len ≥ 0`, `pos + len ≤ size`, `clear`,
copy assignment and move assignment.  For an insert of data (and the constructor built
on it) the `int` arithmetic of the growth step has to stay within `INT_MAX`
(`insertFits`); the capacity afterwards is then within `INT_MAX` too. -/
theorem buffer_invariant (b other : BufferPrivate) (n : Int) (hwf : b.wf)
    (hother : other.wf) :
    (0 ≤ b.m_size ∧ b.m_size ≤ b.m_capacity ∧ (0 < b.m_capacity → b.m_data.isSome = true))
      ∧ (BufferPrivate.ofSize n).wf
      ∧ (BufferPrivate.ofData none n).wf
      ∧ (∀ d : List Nat,
          (0 ≤ n ∧ n ≤ d.length ∧ BufferPrivate.insertFits ⟨0, 0, none⟩ n)
            ∨ (n < 0 ∧ 0 ∈ d ∧ BufferPrivate.insertFits ⟨0, 0, none⟩ ((strlen d : Int) + 1)) →
          (BufferPrivate.ofData (some d) n).wf
            ∧ (BufferPrivate.ofData (some d) n).m_capacity ≤ INT_MAX)
      ∧ (b.reserve n).wf
      ∧ (b.resize n).wf
      ∧ (0 ≤ n → (b.truncate n).wf)
      ∧ (∀ pos : Int, (b.insert pos none n).wf)
      ∧ (∀ (pos : Int) (d : List Nat), 0 ≤ pos →
          (0 ≤ n ∧ n ≤ d.length ∧ b.insertFits n)
            ∨ (n < 0 ∧ 0 ∈ d ∧ b.insertFits ((strlen d : Int) + 1)) →
          (b.insert pos (some d) n).wf ∧ (b.insert pos (some d) n).m_capacity ≤ INT_MAX)
      ∧ (∀ pos : Int, 0 ≤ pos → 0 ≤ n → pos + n ≤ b.m_size → (b.remove pos n).wf)
      ∧ b.clear.wf
      ∧ (b.assign other).wf
      ∧ (b.move other).1.wf ∧ (b.move other).2.wf := by
  have hempty : BufferPrivate.wf ⟨0, 0, none⟩ := ⟨le_refl _, le_refl _, rfl⟩
  refine ⟨⟨hwf.1, hwf.2.1, ?_⟩, BufferPrivate.resize_wf _ n hempty, hempty,
    fun d hd => BufferPrivate.insert_wf _ 0 n d hempty (le_refl _) hd,
    (BufferPrivate.reserve_spec b n hwf).1, BufferPrivate.resize_wf b n hwf,
    fun h0 => BufferPrivate.truncate_wf b n hwf h0, fun _ => hwf,
    fun pos d hpos hd => BufferPrivate.insert_wf b pos n d hwf hpos hd,
    fun pos hpos h0 hle => (BufferPrivate.remove_spec b pos n hwf hpos h0 hle).1,
    BufferPrivate.clear_wf b, BufferPrivate.assign_wf b other hwf hother, hother, hempty⟩
  intro hcap
  obtain ⟨_, _, hd⟩ := hwf
  cases hdat : b.m_data with
  | none => rw [hdat] at hd; simp only at hd; omega
  | some mem => rfl

theorem buffer_invariant_witness :
    BufferPrivate.wf ⟨2, 4, some [1, 2, 0, 0]⟩ ∧ BufferPrivate.wf ⟨1, 1, some [7]⟩
      ∧ BufferPrivate.insertFits ⟨2, 4, some [1, 2, 0, 0]⟩ 1
      ∧ (BufferPrivate.assign ⟨2, 4, some [1, 2, 0, 0]⟩ ⟨1, 1, some [7]⟩).wf
      ∧ (BufferPrivate.truncate ⟨2, 4, some [1, 2, 0, 0]⟩ 1).wf
      ∧ (BufferPrivate.insert ⟨2, 4, some [1, 2, 0, 0]⟩ 1 (some [5]) 1).wf :=
  ⟨⟨by decide, by decide, rfl⟩, ⟨by decide, by decide, rfl⟩, by decide,
   (buffer_invariant ⟨2, 4, some [1, 2, 0, 0]⟩ ⟨1, 1, some [7]⟩ 1
      ⟨by decide, by decide, rfl⟩ ⟨by decide, by decide, rfl⟩).2.2.2.2.2.2.2.2.2.2.2.1,
   (buffer_invariant ⟨2, 4, some [1, 2, 0, 0]⟩ ⟨1, 1, some [7]⟩ 1
      ⟨by decide, by decide, rfl⟩ ⟨by decide, by decide, rfl⟩).2.2.2.2.2.2.1 (by decide),
   ((buffer_invariant ⟨2, 4, some [1, 2, 0, 0]⟩ ⟨1, 1, some [7]⟩ 1
      ⟨by decide, by decide, rfl⟩ ⟨by decide, by decide, rfl⟩).2.2.2.2.2.2.2.2.1 1 [5]
      (by decide) (Or.inl ⟨by decide, by decide, by decide⟩)).1⟩

/-- C16: for a buffer satisfying the invariant and `n ≥ 0`, `resize(n)` sets the size to
`n` and keeps the first `min(old size, n)` bytes; when `n` exceeds the old capacity the
content is the old content followed by zero bytes, so every byte at an index in
`[old size, n)` is zero; for `n < 0` the buffer (size, capacity and storage) is
unchanged. -/
theorem resize_size_and_content (b : Buffer) (n : Int) (hwf : b.wf) :
    (0 ≤ n →
      (b.resize n).size = n
        ∧ (b.resize n).bytes.take (min b.size n).toNat = b.bytes.take (min b.size n).toNat
        ∧ (b.m_ptr.m_capacity < n →
            (b.resize n).bytes = b.bytes ++ List.replicate (n - b.size).toNat 0
              ∧ ∀ i : Nat, b.size ≤ i → (i : Int) < n → (b.resize n).bytes[i]? = some 0))
      ∧ (n < 0 → b.resize n = b) := by
  obtain ⟨h1, h2, h3, h4⟩ := BufferPrivate.reserve_spec b.m_ptr n hwf
  have hs0 := hwf.1
  have hsc := hwf.2.1
  constructor
  · intro h0
    have hsize : (b.resize n).size = n := by
      simp [Buffer.resize, Buffer.size, BufferPrivate.resize, h0]
    have hdata : (b.resize n).data = (b.m_ptr.reserve n).m_data.getD [] := by
      simp [Buffer.resize, Buffer.data, BufferPrivate.resize, h0]
    refine ⟨hsize, ?_, ?_⟩
    · unfold Buffer.bytes
      rw [hsize, hdata]
      simp only [Buffer.size, Buffer.data, List.take_take]
      have e1 : min (min b.m_ptr.m_size n).toNat n.toNat = (min b.m_ptr.m_size n).toNat := by
        omega
      have e2 : min (min b.m_ptr.m_size n).toNat b.m_ptr.m_size.toNat
          = (min b.m_ptr.m_size n).toNat := by omega
      rw [e1, e2]
      have := congrArg (List.take (min b.m_ptr.m_size n).toNat) h4
      rw [List.take_take, List.take_take, e2] at this
      exact this
    · intro hgt
      have hfresh := BufferPrivate.reserve_fresh b.m_ptr n hwf hgt
      have hb : (b.resize n).bytes = b.bytes ++ List.replicate (n - b.size).toNat 0 := by
        unfold Buffer.bytes
        rw [hsize, hdata, hfresh]
        simp only [Option.getD_some, Buffer.size, Buffer.data]
        have hl : ((b.m_ptr.m_data.getD []).take b.m_ptr.m_size.toNat).length
            = b.m_ptr.m_size.toNat := by
          have := Buffer.bytes_length b hwf
          simp only [Buffer.bytes, Buffer.size, Buffer.data] at this
          omega
        have e : (n - b.m_ptr.m_size).toNat = n.toNat - b.m_ptr.m_size.toNat := by omega
        rw [e]
        apply List.take_of_length_le
        rw [List.length_append, hl, List.length_replicate]
        omega
      refine ⟨hb, ?_⟩
      intro i hi hin
      have hl := Buffer.bytes_length b hwf
      rw [hb, List.getElem?_append_right (by omega)]
      rw [List.getElem?_replicate]
      have : i - b.bytes.length < (n - b.size).toNat := by omega
      simp [this]
  · intro hneg
    have hle : n ≤ b.m_ptr.m_capacity := by omega
    have hn0 : ¬ (0 ≤ n) := by omega
    simp [Buffer.resize, BufferPrivate.resize, BufferPrivate.reserve, hle, hn0]

theorem resize_size_and_content_witness :
    (Buffer.ofString [1, 2, 3]).wf
      ∧ (0 ≤ (200 : Int) → ((Buffer.ofString [1, 2, 3]).resize 200).size = 200) :=
  ⟨(Buffer.ofString_spec _).1,
   fun h => ((resize_size_and_content (Buffer.ofString [1, 2, 3]) 200
      (Buffer.ofString_spec _).1).1 h).1⟩

/-- C17: for a buffer with content `c` satisfying the invariant, `0 ≤ pos` (the range
`0 ≤ pos ≤ size` in particular) and `len` bytes `d` read from a source outside the
buffer, the `int` arithmetic of the growth step staying within `INT_MAX` (`insertFits`),
`insert(pos, d, len)` leaves the content `c[0..pos) ++ d ++ c[pos..size)` and the
size `size + len`; `append(d, len)` leaves `c ++ d` and the size `size + len`; the
capacity afterwards is within `INT_MAX`. -/
theorem insert_content (b : Buffer) (pos : Int) (d : List Nat) (len : Nat) (hwf : b.wf)
    (hpos : 0 ≤ pos) (hlen : len ≤ d.length) (hfit : b.m_ptr.insertFits len) :
    (b.insert pos (some d) len).bytes
        = b.bytes.take pos.toNat ++ d.take len ++ b.bytes.drop pos.toNat
      ∧ (b.insert pos (some d) len).size = b.size + len
      ∧ (b.append (some d) len).bytes = b.bytes ++ d.take len
      ∧ (b.append (some d) len).size = b.size + len
      ∧ (b.insert pos (some d) len).m_ptr.m_capacity ≤ INT_MAX
      ∧ (b.append (some d) len).m_ptr.m_capacity ≤ INT_MAX := by
  obtain ⟨_, h2, h3⟩ := Buffer.insert_at b pos d len hwf hpos hlen
  obtain ⟨_, a2, a3⟩ := Buffer.append_spec b d len hwf hlen
  exact ⟨h3, h2, a3, a2, BufferPrivate.insert_fits b.m_ptr pos d len hwf hfit,
    BufferPrivate.insert_fits b.m_ptr b.m_ptr.m_size d len hwf hfit⟩

theorem insert_content_witness :
    (Buffer.ofString [1, 2, 3, 4, 5]).wf
      ∧ (Buffer.ofString [1, 2, 3, 4, 5]).m_ptr.insertFits (2 : Nat)
      ∧ ((Buffer.ofString [1, 2, 3, 4, 5]).insert 2 (some [9, 8, 7]) (2 : Nat)).bytes
          = [1, 2, 9, 8, 3, 4, 5] := by
  have h := insert_content (Buffer.ofString [1, 2, 3, 4, 5]) 2 [9, 8, 7] 2
    (Buffer.ofString_spec _).1 (by decide) (by decide) (by decide)
  refine ⟨(Buffer.ofString_spec _).1, by decide, ?_⟩
  rw [h.1]
  decide

/-- C18: for a buffer with content `c` satisfying the invariant and `pos ≥ 0`, `len ≥ 0`,
`pos + len ≤ size`, `remove(pos, len)` leaves the content `c[0..pos) ++ c[pos+len..size)`,
the size `size - len` and the capacity unchanged. -/
theorem remove_content (b : Buffer) (pos len : Int) (hwf : b.wf) (hpos : 0 ≤ pos)
    (hlen : 0 ≤ len) (hle : pos + len ≤ b.size) :
    (b.remove pos len).bytes = b.bytes.take pos.toNat ++ b.bytes.drop (pos + len).toNat
      ∧ (b.remove pos len).size = b.size - len
      ∧ (b.remove pos len).m_ptr.m_capacity = b.m_ptr.m_capacity
      ∧ (b.remove pos len).wf := by
  obtain ⟨h1, h2, h3, h4⟩ := BufferPrivate.remove_spec b.m_ptr pos len hwf hpos hlen hle
  refine ⟨?_, h2, h3, h1⟩
  simp only [Buffer.bytes, Buffer.size, Buffer.data, Buffer.remove] at h2 ⊢
  rw [h2]
  exact h4

theorem remove_content_witness :
    (Buffer.ofString [1, 2, 3, 4, 5]).wf
      ∧ ((Buffer.ofString [1, 2, 3, 4, 5]).remove 1 2).bytes = [1, 4, 5] := by
  have h := remove_content (Buffer.ofString [1, 2, 3, 4, 5]) 1 2
    (Buffer.ofString_spec _).1 (by decide) (by decide) (by decide)
  refine ⟨(Buffer.ofString_spec _).1, ?_⟩
  rw [h.1]
  decide

/-- C19: for a buffer satisfying the invariant and `0 ≤ n < size`, `truncate(n)` leaves
size `n`, capacity `n` and the first `n` bytes of the old content; for `n ≥ size` the
buffer (size, capacity and storage) is unchanged. -/
theorem truncate_content (b : Buffer) (n : Int) (hwf : b.wf) :
    (0 ≤ n → n < b.size →
      (b.truncate n).size = n ∧ (b.truncate n).m_ptr.m_capacity = n
        ∧ (b.truncate n).bytes = b.bytes.take n.toNat ∧ (b.truncate n).wf)
      ∧ (b.size ≤ n → b.truncate n = b) := by
  constructor
  · intro h0 hlt
    obtain ⟨h1, h2, h3, h4⟩ := BufferPrivate.truncate_spec b.m_ptr n hwf h0 hlt
    refine ⟨h2, h3, ?_, h1⟩
    simp only [Buffer.bytes, Buffer.size, Buffer.data, Buffer.truncate] at h2 ⊢
    rw [h2]
    exact h4
  · intro hle
    simp only [Buffer.truncate]
    rw [BufferPrivate.truncate_noop b.m_ptr n hle]

theorem truncate_content_witness :
    (Buffer.ofString [1, 2, 3, 4, 5]).wf
      ∧ ((Buffer.ofString [1, 2, 3, 4, 5]).truncate 2).bytes = [1, 2]
      ∧ ((Buffer.ofString [1, 2, 3, 4, 5]).truncate 2).m_ptr.m_capacity = 2 := by
  have h := (truncate_content (Buffer.ofString [1, 2, 3, 4, 5]) 2
    (Buffer.ofString_spec _).1).1 (by decide) (by decide)
  refine ⟨(Buffer.ofString_spec _).1, ?_, h.2.1⟩
  rw [h.2.2.1]
  decide

/-- C20 (failing input): `a = Buffer("x")` and `b = Buffer("yz")` both have capacity 128,
so the copy assignment `a = b` skips the reallocation, copies two bytes into the storage
of `a` and leaves `m_size` at 1: afterwards `a` has size 1 and content "y", and
`a == b` is false, while `b` still has size 2 and content "yz". -/
theorem copy_assign_keeps_old_size :
    (Buffer.ofString [0x78]).m_ptr.m_capacity = 128
      ∧ (Buffer.ofString [0x79, 0x7A]).m_ptr.m_capacity = 128
      ∧ ((Buffer.ofString [0x78]).assign (Buffer.ofString [0x79, 0x7A])).size = 1
      ∧ ((Buffer.ofString [0x78]).assign (Buffer.ofString [0x79, 0x7A])).bytes = [0x79]
      ∧ (Buffer.ofString [0x79, 0x7A]).size = 2
      ∧ (Buffer.ofString [0x79, 0x7A]).bytes = [0x79, 0x7A]
      ∧ Buffer.eq ((Buffer.ofString [0x78]).assign (Buffer.ofString [0x79, 0x7A]))
          (Buffer.ofString [0x79, 0x7A]) = false := by
  decide

/-! ### Reads of the serialization cursor -/

theorem BufferReader.readString.scan_found (data : List Nat) (size : Int) (z : Nat)
    (hz : (z : Int) < size) (hzero : data.getD z 0 = 0) :
    ∀ (fuel k : Nat), k ≤ z → (∀ i, k ≤ i → i < z → data.getD i 0 ≠ 0) → z - k < fuel →
      BufferReader.readString.scan data size fuel (k : Int) = (z : Int) := by
  intro fuel
  induction fuel with
  | zero => intro k _ _ h; omega
  | succ fuel ih =>
    intro k hk hnz hf
    have hlt : (k : Int) < size := by omega
    simp only [BufferReader.readString.scan, hlt, if_true, Int.toNat_ofNat]
    by_cases hkz : k = z
    · subst hkz; simp only [hzero, if_true]
    · have hne := hnz k (le_refl _) (by omega)
      simp only [hne, if_false]
      have := ih (k + 1) (by omega) (fun i h1 h2 => hnz i (by omega) h2) (by omega)
      push_cast at this
      exact this

theorem Buffer.bytes_getD (buf : Buffer) (i : Nat) (hi : (i : Int) < buf.size) :
    buf.bytes.getD i 0 = buf.data.getD i 0 := by
  unfold Buffer.bytes
  rw [List.getD_eq_getElem?_getD, List.getD_eq_getElem?_getD, List.getElem?_take_of_lt]
  omega

/-- A string read placed before a non-empty run of non-zero bytes that ends with a zero
byte at index `z` yields the run and moves to `z + 1`. -/
theorem BufferReader.readString_found (buf : Buffer) (p z : Nat) (value : List Nat)
    (hpz : p < z) (hz : (z : Int) < buf.size) (hzero : buf.bytes.getD z 0 = 0)
    (hnz : ∀ i, p ≤ i → i < z → buf.bytes.getD i 0 ≠ 0) :
    BufferReader.readString ⟨buf, (p : Int)⟩ value
      = (⟨buf, (z : Int) + 1⟩, (buf.bytes.drop p).take (z - p)) := by
  have hscan := BufferReader.readString.scan_found buf.data buf.size z hz
    (by rw [← Buffer.bytes_getD buf z hz]; exact hzero) (buf.size - (p : Int)).toNat p
    (by omega)
    (fun i h1 h2 => by rw [← Buffer.bytes_getD buf i (by omega)]; exact hnz i h1 h2)
    (by omega)
  have hgt : (z : Int) > (p : Int) := by omega
  simp only [BufferReader.readString, hscan, hgt, if_true, Int.toNat_ofNat]
  have e : ((z : Int) - (p : Int)).toNat = z - p := by omega
  rw [e]
  congr 1
  unfold Buffer.bytes
  rw [take_drop_take _ _ _ _ (by omega)]

/-- A string read placed on a zero byte changes nothing: the terminator of an empty
string is not consumed. -/
theorem BufferReader.readString_empty (buf : Buffer) (p : Nat) (value : List Nat)
    (hp : (p : Int) < buf.size) (hzero : buf.bytes.getD p 0 = 0) :
    BufferReader.readString ⟨buf, (p : Int)⟩ value = (⟨buf, (p : Int)⟩, value) := by
  have hscan := BufferReader.readString.scan_found buf.data buf.size p hp
    (by rw [← Buffer.bytes_getD buf p hp]; exact hzero) (buf.size - (p : Int)).toNat p
    (le_refl _) (fun i h1 h2 => by omega) (by omega)
  simp only [BufferReader.readString, hscan, gt_iff_lt, lt_self_iff_false, if_false]

theorem beValue_digits_1 (bs : List Nat) (hl : bs.length = 1) (hb : ∀ x ∈ bs, x < 256) :
    beValue bs < 2 ^ 8 ∧ [beValue bs / 2 ^ 0 % 256] = bs := by
  rcases bs with _ | ⟨b0, _ | ⟨b1, t⟩⟩ <;> simp at hl
  have h0 := hb b0 (by simp)
  simp only [beValue, List.foldl_cons, List.foldl_nil]
  refine ⟨by omega, ?_⟩
  congr 1
  omega

theorem beValue_digits_2 (bs : List Nat) (hl : bs.length = 2) (hb : ∀ x ∈ bs, x < 256) :
    beValue bs < 2 ^ 16 ∧ [beValue bs / 2 ^ 8 % 256, beValue bs / 2 ^ 0 % 256] = bs := by
  rcases bs with _ | ⟨b0, _ | ⟨b1, _ | ⟨b2, t⟩⟩⟩ <;> simp at hl
  have h0 := hb b0 (by simp)
  have h1 := hb b1 (by simp)
  simp only [beValue, List.foldl_cons, List.foldl_nil]
  norm_num only
  refine ⟨by omega, ?_⟩
  simp only [List.cons.injEq, and_true]
  refine ⟨?_, ?_⟩ <;> omega

theorem beValue_digits_4 (bs : List Nat) (hl : bs.length = 4) (hb : ∀ x ∈ bs, x < 256) :
    beValue bs < 2 ^ 32
      ∧ [beValue bs / 2 ^ 24 % 256, beValue bs / 2 ^ 16 % 256, beValue bs / 2 ^ 8 % 256,
          beValue bs / 2 ^ 0 % 256] = bs := by
  rcases bs with _ | ⟨b0, _ | ⟨b1, _ | ⟨b2, _ | ⟨b3, _ | ⟨b4, t⟩⟩⟩⟩⟩ <;> simp at hl
  have h0 := hb b0 (by simp)
  have h1 := hb b1 (by simp)
  have h2 := hb b2 (by simp)
  have h3 := hb b3 (by simp)
  simp only [beValue, List.foldl_cons, List.foldl_nil]
  norm_num only
  refine ⟨by omega, ?_⟩
  simp only [List.cons.injEq, and_true]
  refine ⟨?_, ?_, ?_, ?_⟩ <;> omega

set_option maxHeartbeats 4000000 in

theorem beValue_digits_8 (bs : List Nat) (hl : bs.length = 8) (hb : ∀ x ∈ bs, x < 256) :
    beValue bs < 2 ^ 64
      ∧ [beValue bs / 2 ^ 56 % 256, beValue bs / 2 ^ 48 % 256, beValue bs / 2 ^ 40 % 256,
          beValue bs / 2 ^ 32 % 256, beValue bs / 2 ^ 24 % 256, beValue bs / 2 ^ 16 % 256,
          beValue bs / 2 ^ 8 % 256, beValue bs / 2 ^ 0 % 256] = bs := by
  rcases bs with _ | ⟨b0, _ | ⟨b1, _ | ⟨b2, _ | ⟨b3, _ | ⟨b4, _ | ⟨b5, _ | ⟨b6, _ | ⟨b7,
    _ | ⟨b8, t⟩⟩⟩⟩⟩⟩⟩⟩⟩ <;> simp at hl
  have h0 := hb b0 (by simp)
  have h1 := hb b1 (by simp)
  have h2 := hb b2 (by simp)
  have h3 := hb b3 (by simp)
  have h4 := hb b4 (by simp)
  have h5 := hb b5 (by simp)
  have h6 := hb b6 (by simp)
  have h7 := hb b7 (by simp)
  simp only [beValue, List.foldl_cons, List.foldl_nil]
  norm_num only
  refine ⟨by omega, ?_⟩
  simp only [List.cons.injEq, and_true]
  refine ⟨?_, ?_, ?_, ?_, ?_, ?_, ?_, ?_⟩ <;> omega

/-- Every string of `sizeof(T)` bytes is the big-endian serialization of one value of
type `T`. -/
theorem beBytes_surj (T : IntType) (bs : List Nat) (hl : bs.length = T.sizeof)
    (hb : ∀ x ∈ bs, x < 256) : ∃ w : Int, T.inRange w ∧ beBytes T w = bs := by
  obtain ⟨r1, r2, r4, r8⟩ := range_lits
  have key : ∀ w : Int, toUnsigned T.bits w = beValue bs → beBytes T w = bs := by
    intro w hw
    unfold beBytes
    rw [hw]
    cases T <;> simp only [IntType.sizeof, IntType.bits, Nat.reduceMul] at hl ⊢
    · rw [r1]; exact (beValue_digits_1 bs hl hb).2
    · rw [r2]; exact (beValue_digits_2 bs hl hb).2
    · rw [r4]; exact (beValue_digits_4 bs hl hb).2
    · rw [r8]; exact (beValue_digits_8 bs hl hb).2
    · rw [r1]; exact (beValue_digits_1 bs hl hb).2
    · rw [r2]; exact (beValue_digits_2 bs hl hb).2
    · rw [r4]; exact (beValue_digits_4 bs hl hb).2
    · rw [r8]; exact (beValue_digits_8 bs hl hb).2
  have hlt : beValue bs < 2 ^ T.bits := by
    cases T <;> simp only [IntType.sizeof, IntType.bits, Nat.reduceMul] at hl ⊢
    · exact (beValue_digits_1 bs hl hb).1
    · exact (beValue_digits_2 bs hl hb).1
    · exact (beValue_digits_4 bs hl hb).1
    · exact (beValue_digits_8 bs hl hb).1
    · exact (beValue_digits_1 bs hl hb).1
    · exact (beValue_digits_2 bs hl hb).1
    · exact (beValue_digits_4 bs hl hb).1
    · exact (beValue_digits_8 bs hl hb).1
  generalize beValue bs = W at key hlt
  by_cases hs : T.isSigned = true
  · by_cases hW : W < 2 ^ (T.bits - 1)
    · refine ⟨(W : Int), ?_, key _ ?_⟩
      · cases T <;> simp only [IntType.inRange, IntType.isSigned, IntType.bits,
          IntType.sizeof, Nat.reduceMul, if_true, Bool.false_eq_true] at hs hW hlt ⊢ <;>
          norm_num only at hW hlt ⊢ <;> omega
      · cases T <;> simp only [toUnsigned, IntType.isSigned, IntType.bits,
          IntType.sizeof, Nat.reduceMul, Bool.false_eq_true] at hs hW hlt ⊢ <;>
          norm_num only at hW hlt ⊢ <;> omega
    · refine ⟨(W : Int) - 2 ^ T.bits, ?_, key _ ?_⟩
      · cases T <;> simp only [IntType.inRange, IntType.isSigned, IntType.bits,
          IntType.sizeof, Nat.reduceMul, if_true, Bool.false_eq_true] at hs hW hlt ⊢ <;>
          norm_num only at hW hlt ⊢ <;> omega
      · cases T <;> simp only [toUnsigned, IntType.isSigned, IntType.bits,
          IntType.sizeof, Nat.reduceMul, Bool.false_eq_true] at hs hW hlt ⊢ <;>
          norm_num only at hW hlt ⊢ <;> omega
  · refine ⟨(W : Int), ?_, key _ ?_⟩
    · cases T <;> simp only [IntType.inRange, IntType.isSigned, IntType.bits,
        IntType.sizeof, Nat.reduceMul, if_false, Bool.false_eq_true, not_true_eq_false]
        at hs hlt ⊢ <;>
        norm_num only at hlt ⊢ <;> omega
    · cases T <;> simp only [toUnsigned, IntType.isSigned, IntType.bits,
        IntType.sizeof, Nat.reduceMul, Bool.false_eq_true, not_true_eq_false] at hs hlt ⊢ <;>
        norm_num only at hlt ⊢ <;> omega

theorem BufferReader.read_count (r : BufferReader) (out : List Nat) (len : Int)
    (h1 : r.m_position ≤ r.m_buffer.size) (hlen : 0 ≤ len) :
    (r.read out len).2.2 = min len (r.m_buffer.size - r.m_position)
      ∧ (r.read out len).1.m_position
          = r.m_position + min len (r.m_buffer.size - r.m_position)
      ∧ (r.read out len).1.m_buffer = r.m_buffer := by
  unfold BufferReader.read
  by_cases hge : r.m_position ≥ r.m_buffer.size
  · simp only [hge, if_true]
    have : min len (r.m_buffer.size - r.m_position) = 0 := by omega
    rw [this]
    exact ⟨rfl, by omega, trivial⟩
  · simp only [hge, if_false]
    by_cases hgt : len > r.m_buffer.size - r.m_position
    · simp only [hgt, if_true]
      have : min len (r.m_buffer.size - r.m_position) = r.m_buffer.size - r.m_position := by
        omega
      rw [this]
      exact ⟨rfl, rfl, trivial⟩
    · simp only [hgt, if_false]
      have : min len (r.m_buffer.size - r.m_position) = len := by omega
      rw [this]
      exact ⟨rfl, rfl, trivial⟩

theorem BufferReader.read_bytes (r : BufferReader) (out : List Nat) (len : Int)
    (h0 : 0 ≤ r.m_position) (h1 : r.m_position ≤ r.m_buffer.size) (hlen : 0 ≤ len) :
    (r.read out len).2.1
      = memcpy out 0 (r.m_buffer.bytes.drop r.m_position.toNat)
          (min len (r.m_buffer.size - r.m_position)).toNat := by
  unfold BufferReader.read
  by_cases hge : r.m_position ≥ r.m_buffer.size
  · simp only [hge, if_true]
    have : (min len (r.m_buffer.size - r.m_position)).toNat = 0 := by omega
    rw [this]
    simp [memcpy]
  · simp only [hge, if_false]
    have hc : (if len > r.m_buffer.size - r.m_position then r.m_buffer.size - r.m_position
        else len) = min len (r.m_buffer.size - r.m_position) := by
      split <;> omega
    rw [hc]
    have e := take_drop_take r.m_buffer.data r.m_position.toNat
      (min len (r.m_buffer.size - r.m_position)).toNat r.m_buffer.size.toNat (by omega)
    simp only [memcpy, List.take_zero, List.nil_append, Nat.zero_add]
    unfold Buffer.bytes
    rw [e]

/-- The reader invariant holds after construction and is kept by the raw read with
`len ≥ 0`, by `seek` with any argument, by every typed integer read and by the buffer
read into a buffer of non-negative size. -/
theorem BufferReader.inv_preserved (r : BufferReader) (hinv : r.inv) :
    (∀ buf : Buffer, 0 ≤ buf.size → (BufferReader.ofBuffer buf).inv)
      ∧ (∀ (out : List Nat) (len : Int), 0 ≤ len → (r.read out len).1.inv)
      ∧ (∀ position : Int, (r.seek position).1.inv)
      ∧ (∀ (h : ByteOrder) (T : IntType) (g : Int), (crypto.read h T r g).1.inv)
      ∧ (∀ target : Buffer, 0 ≤ target.size → (r.readBuffer target).1.inv) := by
  obtain ⟨h0, h1⟩ := hinv
  have hsize : 0 ≤ r.m_buffer.size := le_trans h0 h1
  have hread : ∀ (out : List Nat) (len : Int), 0 ≤ len → (r.read out len).1.inv := by
    intro out len hlen
    obtain ⟨_, e2, e3⟩ := BufferReader.read_count r out len h1 hlen
    unfold BufferReader.inv
    rw [e2, e3]
    omega
  refine ⟨fun buf hb => ⟨le_refl _, hb⟩, hread, ?_, ?_, fun target ht => hread _ _ ht⟩
  · intro position
    unfold BufferReader.inv BufferReader.seek
    simp only
    split
    · exact ⟨le_refl _, hsize⟩
    · split <;> omega
  · intro h T g
    have := hread (T.objectBytes h g) T.sizeof (by omega)
    unfold crypto.read
    simp only
    split <;> exact this

/-- C11 (failing input): the writer stores the empty string as its terminator alone, so
after writing "" and then "A" the buffer holds `00 41 00`.  The string read at position 0
finds the zero byte at the position itself, and the guard `tmp > m_position` skips the
assignment and the advance: a variable holding "X" still holds "X" instead of the empty
string, the position stays 0 instead of 1, and the next string read, which should yield
"A", is in the same state and yields nothing either. -/
theorem string_read_empty_string_not_consumed :
    (BufferWriter.writeString (BufferWriter.writeString ⟨Buffer.ofSize (-1)⟩ [])
        [0x41]).m_buffer.bytes = [0, 0x41, 0]
      ∧ (BufferReader.readString (BufferReader.ofBuffer (BufferWriter.writeString
          (BufferWriter.writeString ⟨Buffer.ofSize (-1)⟩ []) [0x41]).m_buffer) [0x58]).2
          = [0x58]
      ∧ (BufferReader.readString (BufferReader.ofBuffer (BufferWriter.writeString
          (BufferWriter.writeString ⟨Buffer.ofSize (-1)⟩ []) [0x41]).m_buffer)
          [0x58]).1.m_position = 0
      ∧ (BufferReader.readString (BufferReader.readString (BufferReader.ofBuffer
          (BufferWriter.writeString (BufferWriter.writeString ⟨Buffer.ofSize (-1)⟩ [])
            [0x41]).m_buffer) [0x58]).1 [0x59]).2 = [0x59] := by
  decide

/-- C13 (failing input): on the buffer `41 42 00 43` (size 4) a reader at position 3
satisfies `0 ≤ position ≤ size`; the string read finds no zero byte before the end, takes
"C" and sets the position to `tmp + 1 = 5`, which is past the size. -/
theorem string_read_position_past_end :
    (Buffer.ofString [0x41, 0x42, 0, 0x43]).size = 4
      ∧ BufferReader.inv ⟨Buffer.ofString [0x41, 0x42, 0, 0x43], 3⟩
      ∧ (BufferReader.readString ⟨Buffer.ofString [0x41, 0x42, 0, 0x43], 3⟩
          []).1.m_position = 5
      ∧ ¬ (BufferReader.readString ⟨Buffer.ofString [0x41, 0x42, 0, 0x43], 3⟩ []).1.inv := by
  decide

/-- C14: for a reader with `0 ≤ position ≤ size` on a buffer satisfying the invariant and
`len ≥ 0`, `read(len)` returns `c = min(len, size - position)`, writes the `c` bytes at
`[position, position + c)` over the start of the output and keeps the rest of it, and
advances the position by `c`.  A typed read of `T`, the buffer holding bytes below 256,
with at least `sizeof(T)` bytes left advances by `sizeof(T)` and yields the value of `T`
whose big-endian serialization is the bytes consumed; with fewer bytes left it stops at
`position = size`. -/
theorem read_consumes_or_stops (r : BufferReader) (out : List Nat) (len : Int)
    (hwf : r.m_buffer.wf) (h0 : 0 ≤ r.m_position) (h1 : r.m_position ≤ r.m_buffer.size)
    (hlen : 0 ≤ len) (hbytes : ∀ x ∈ r.m_buffer.bytes, x < 256) :
    (r.read out len).2.2 = min len (r.m_buffer.size - r.m_position)
      ∧ (r.read out len).1.m_position
          = r.m_position + min len (r.m_buffer.size - r.m_position)
      ∧ (r.read out len).1.m_buffer = r.m_buffer
      ∧ (r.read out len).2.1
          = (r.m_buffer.bytes.drop r.m_position.toNat).take
              (min len (r.m_buffer.size - r.m_position)).toNat
            ++ out.drop (min len (r.m_buffer.size - r.m_position)).toNat
      ∧ (∀ (h : ByteOrder) (T : IntType) (g : Int),
          ((T.sizeof : Int) ≤ r.m_buffer.size - r.m_position →
            (read h T r g).1.m_position = r.m_position + T.sizeof
              ∧ T.inRange (read h T r g).2
              ∧ beBytes T (read h T r g).2
                  = (r.m_buffer.bytes.drop r.m_position.toNat).take T.sizeof)
          ∧ (r.m_buffer.size - r.m_position < (T.sizeof : Int) →
              (read h T r g).1.m_position = r.m_buffer.size)) := by
  obtain ⟨c1, c2, c3⟩ := BufferReader.read_count r out len h1 hlen
  refine ⟨c1, c2, c3, ?_, ?_⟩
  · rw [BufferReader.read_bytes r out len h0 h1 hlen]
    simp [memcpy]
  · intro h T g
    constructor
    · intro hfit
      obtain ⟨buf, pos⟩ := r
      simp only at hwf h0 h1 hbytes hfit ⊢
      lift pos to ℕ using h0
      have hbl := Buffer.bytes_length buf hwf
      have hl : ((buf.bytes.drop pos).take T.sizeof).length = T.sizeof := by
        rw [List.length_take, List.length_drop]; omega
      obtain ⟨w, hw1, hw2⟩ := beBytes_surj T ((buf.bytes.drop pos).take T.sizeof) hl
        (fun x hx => hbytes x (List.mem_of_mem_drop (List.mem_of_mem_take hx)))
      have hsplit : buf.bytes = buf.bytes.take pos ++ beBytes T w
          ++ buf.bytes.drop (pos + T.sizeof) := by
        rw [hw2, List.append_assoc, ← List.drop_drop, List.take_append_drop,
          List.take_append_drop]
      have hpl : (buf.bytes.take pos).length = pos := by
        rw [List.length_take]; omega
      have hrs := read_spec h T buf g w (buf.bytes.take pos)
        (buf.bytes.drop (pos + T.sizeof)) hwf hw1 hsplit
      rw [hpl] at hrs
      rw [hrs]
      simp only [Int.toNat_ofNat]
      refine ⟨by push_cast; rfl, hw1, hw2⟩
    · intro hshort
      have hs : 0 ≤ (T.sizeof : Int) := by omega
      obtain ⟨_, e2, _⟩ := BufferReader.read_count r (T.objectBytes h g) T.sizeof h1 hs
      have hm : min (T.sizeof : Int) (r.m_buffer.size - r.m_position)
          = r.m_buffer.size - r.m_position := by omega
      rw [hm] at e2
      unfold read
      simp only
      split <;> rw [e2] <;> omega

theorem read_consumes_or_stops_witness :
    (Buffer.ofString [0x12, 0x34, 0xFF]).wf
      ∧ (read ByteOrder.little IntType.uint16_t
          ⟨Buffer.ofString [0x12, 0x34, 0xFF], 0⟩ 0).1.m_position = 2
      ∧ (read ByteOrder.little IntType.uint16_t
          ⟨Buffer.ofString [0x12, 0x34, 0xFF], 2⟩ 0).1.m_position = 3 := by
  have hb : ∀ x ∈ (Buffer.ofString [0x12, 0x34, 0xFF]).bytes, x < 256 := by decide
  have h1 := (read_consumes_or_stops ⟨Buffer.ofString [0x12, 0x34, 0xFF], 0⟩ [] 0
    (Buffer.ofString_spec _).1 (by decide) (by decide) (by decide) hb).2.2.2.2
    ByteOrder.little IntType.uint16_t 0
  have h2 := (read_consumes_or_stops ⟨Buffer.ofString [0x12, 0x34, 0xFF], 2⟩ [] 0
    (Buffer.ofString_spec _).1 (by decide) (by decide) (by decide) hb).2.2.2.2
    ByteOrder.little IntType.uint16_t 0
  exact ⟨(Buffer.ofString_spec _).1, (h1.1 (by decide)).1, h2.2 (by decide)⟩

/-! ### Hex decoding of malformed text and capacity growth -/

/-- For an even number of characters (below `2^31`) `Hex::decode` returns a buffer of half
that size, whatever the characters are: the buffer is sized before the loop and never
shrunk. -/
theorem Hex.decode_size (hex : List Nat) (heven : hex.length % 2 = 0)
    (hfit : hex.length < 2 ^ 31) :
    (Hex.decode hex).size = ((hex.length / 2 : Nat) : Int) := by
  have h2 : ¬ ((hex.length : Int) % 2 ≠ 0) := by omega
  have h3 : (hex.length : Int) / 2 = ((hex.length / 2 : Nat) : Int) := by omega
  simp only [Hex.decode, static_cast_int_of_lt _ hfit, h2, if_false, h3, Buffer.resize_empty]
  by_cases hn : hex.length / 2 = 0
  · simp only [hn, if_true]
    rfl
  · simp only [hn, if_false]
    rfl

/-- The loop of `Hex::decode` over pairs of upper-case digits followed by any text: the
pairs are stored and the loop goes on with the text. -/
theorem Hex.decode_loop_append (bytes : List Nat) (tail : List Nat) :
    ∀ (data : List Nat) (j : Nat), j + bytes.length ≤ data.length →
      (∀ x ∈ bytes, x < 256) →
      Hex.decode.loop ((bytes.map Hex.pair).flatten ++ tail) data j
        = Hex.decode.loop tail (data.take j ++ bytes ++ data.drop (j + bytes.length))
            (j + bytes.length) := by
  induction bytes with
  | nil => intro data j _ _; simp
  | cons x rest ih =>
    intro data j hj hx
    have hx256 : x < 256 := hx x (List.mem_cons_self _ _)
    obtain ⟨h1, h2⟩ := Hex.pair_ok ⟨x, hx256⟩
    simp only at h1 h2
    simp only [List.map_cons, List.flatten_cons, Hex.pair, List.cons_append, List.nil_append,
      Hex.decode.loop, h1, h2, Bool.not_true, Bool.false_eq_true, if_false]
    simp only [List.length_cons] at hj
    change Hex.decode.loop ((List.map Hex.pair rest).flatten ++ tail) (data.set j x) (j + 1) = _
    rw [ih (data.set j x) (j + 1) (by simp; omega) (fun y hy => hx y (List.mem_cons_of_mem _ hy))]
    have hjl : j < data.length := by omega
    have hset : data.set j x = (data.take j ++ [x]) ++ data.drop (j + 1) := by
      rw [List.set_eq_take_append_cons_drop]; simp [hjl]
    have hl : (data.take j ++ [x]).length = j + 1 := by simp; omega
    rw [hset, List.take_left' hl]
    have hd : List.drop (j + 1 + rest.length) (List.take j data ++ [x] ++ List.drop (j + 1) data)
        = List.drop (j + (rest.length + 1)) data := by
      rw [List.drop_append_eq_append_drop, hl]
      have h1 : List.drop (j + 1 + rest.length) (List.take j data ++ [x]) = [] :=
        List.drop_of_length_le (by rw [hl]; omega)
      rw [h1, List.drop_drop, List.nil_append]
      congr 1; omega
    rw [hd]
    have e : j + 1 + rest.length = j + (rest.length + 1) := by omega
    simp [e]

/-- What `Hex::decode` returns when the pairs before the first invalid one are pairs of
upper-case digits and the invalid pair starts with a non-hex character: a buffer of
`length / 2` bytes, the decoded bytes followed by zero bytes. -/
theorem Hex.decode_invalid_first (bytes : List Nat) (a b : Nat) (rest : List Nat)
    (hb : ∀ x ∈ bytes, x < 256) (ha : Hex.isHex (Hex.hexToUpper a) = false)
    (hr : rest.length % 2 = 0) (hfit : 2 * (bytes.length + 1 + rest.length / 2) < 2 ^ 31) :
    (Hex.decode ((bytes.map Hex.pair).flatten ++ a :: b :: rest)).size
        = ((bytes.length + 1 + rest.length / 2 : Nat) : Int)
      ∧ (Hex.decode ((bytes.map Hex.pair).flatten ++ a :: b :: rest)).bytes
        = bytes ++ List.replicate (1 + rest.length / 2) 0 := by
  have hlen : ((bytes.map Hex.pair).flatten ++ a :: b :: rest).length
      = 2 * (bytes.length + 1 + rest.length / 2) := by
    rw [List.length_append, Hex.pair_flatten_length]
    simp only [List.length_cons]
    omega
  have hsz := Hex.decode_size ((bytes.map Hex.pair).flatten ++ a :: b :: rest)
    (by rw [hlen]; omega) (by rw [hlen]; exact hfit)
  have hhalf : ((bytes.map Hex.pair).flatten ++ a :: b :: rest).length / 2
      = bytes.length + 1 + rest.length / 2 := by rw [hlen]; omega
  rw [hhalf] at hsz
  refine ⟨hsz, ?_⟩
  unfold Buffer.bytes
  rw [hsz]
  have h2 : ¬ ((((bytes.map Hex.pair).flatten ++ a :: b :: rest).length : Int) % 2 ≠ 0) := by
    rw [hlen]; omega
  have h3 : (((bytes.map Hex.pair).flatten ++ a :: b :: rest).length : Int) / 2
      = ((bytes.length + 1 + rest.length / 2 : Nat) : Int) := by rw [hlen]; omega
  have hn : ¬ (bytes.length + 1 + rest.length / 2 = 0) := by omega
  have hcast := static_cast_int_of_lt ((bytes.map Hex.pair).flatten ++ a :: b :: rest).length
    (by rw [hlen]; exact hfit)
  have htake : List.take ((bytes.map Hex.pair).flatten ++ a :: b :: rest).length
      ((bytes.map Hex.pair).flatten ++ a :: b :: rest)
      = (bytes.map Hex.pair).flatten ++ a :: b :: rest := List.take_length _
  simp only [Hex.decode, hcast, h2, if_false, h3, Buffer.resize_empty, hn, Buffer.data,
    Option.getD_some, Int.toNat_ofNat, htake]
  rw [Hex.decode_loop_append bytes _ _ 0 (by simp; omega) hb]
  simp only [Hex.decode.loop, ha, Bool.not_false, if_true, List.take_zero, List.nil_append,
    Nat.zero_add, List.drop_replicate]
  have e : bytes.length + 1 + rest.length / 2 - bytes.length = 1 + rest.length / 2 := by omega
  rw [e]
  apply List.take_of_length_le
  simp; omega

/-- C21 (failing input): the string "0a" consists of hex digits and `upper("0a")` is
"0A", whose decoding is the byte `0A`; `fromHex("0a")` is the byte `FF`, and
`fromHex("a0")` is `F0` instead of `A0`.  The upper-cased character is used for the
`isHex` test only: the lookup `Chars.find` receives the raw character, does not find a
lower-case letter in "0123456789ABCDEF" and returns `npos`, whose low bits end up in the
byte. -/
theorem hex_decode_lowercase_garbage :
    ([0x30, 0x61].all Hex.isHex = true ∧ [0x30, 0x61].map Hex.hexToUpper = [0x30, 0x41])
      ∧ (Buffer.fromHex [0x30, 0x41]).bytes = [0x0A]
      ∧ (Buffer.fromHex [0x30, 0x61]).bytes = [0xFF]
      ∧ Buffer.eq (Buffer.fromHex [0x30, 0x61])
          (Buffer.fromHex ([0x30, 0x61].map Hex.hexToUpper)) = false
      ∧ (Buffer.fromHex [0x61, 0x30]).bytes = [0xF0]
      ∧ (Buffer.fromHex [0x41, 0x30]).bytes = [0xA0] := by
  decide

/-- C22 (failing input): in "41ZZ" pair 1 is the first pair with a non-hex character, so
the claim gives a buffer of size 1 holding `41`; `fromHex("41ZZ")` has size 2 and holds
`41 00`, because the buffer is resized to `length / 2` before the loop and the `break`
is not followed by a shrink.  In "4G41" the invalid character is the second of pair 0, so
the claim gives size 0; only the first character of a pair is tested, and
`fromHex("4G41")` has size 2 and holds `FF 41`. -/
theorem hex_decode_invalid_not_truncated :
    (Hex.isHex 0x5A = false ∧ Hex.isHex 0x47 = false)
      ∧ (Buffer.fromHex [0x34, 0x31, 0x5A, 0x5A]).size = 2
      ∧ (Buffer.fromHex [0x34, 0x31, 0x5A, 0x5A]).bytes = [0x41, 0x00]
      ∧ (Buffer.fromHex [0x34, 0x47, 0x34, 0x31]).size = 2
      ∧ (Buffer.fromHex [0x34, 0x47, 0x34, 0x31]).bytes = [0xFF, 0x41] := by
  decide

/-- C23 (counterexample): `Buffer("x")` has size 1 and capacity 128; appending 200 bytes
needs growth, and the capacity afterwards is `128 + 127 + 320 = 575`, not
`128 + ((200 + 64) / 64 + 1) * 64 = 448`. -/
theorem insert_growth_adds_free_space :
    (Buffer.ofString [0x78]).m_ptr.m_size = 1
      ∧ (Buffer.ofString [0x78]).m_ptr.m_capacity = 128
      ∧ (128 : Int) + ((200 + 64) / 64 + 1) * 64 = 448
      ∧ ((Buffer.ofString [0x78]).append (some (List.replicate 200 0x79)) 200).m_ptr.m_capacity
          = 575 := by
  decide

/-- C23 (amended): for a buffer satisfying the invariant with size `s` and capacity `c`
and an insert of `len ≥ 0` bytes from a non-null source, if `len > c - s` and the request
`c + (c - s) + ((len + 64) / 64 + 1) * 64` does not exceed `INT_MAX` (`insertFits`), the
capacity after the insert is exactly that request (the old free space is added to the
amount of the formula), which is `c + ((len + 64) / 64 + 1) * 64` when the buffer was
full; if `len ≤ c - s` the capacity is unchanged. -/
theorem insert_growth (b : BufferPrivate) (pos : Int) (d : List Nat) (len : Nat)
    (hwf : b.wf) (hfit : b.insertFits len) :
    ((len : Int) > b.m_capacity - b.m_size →
        (b.insert pos (some d) len).m_capacity
            = b.m_capacity + (b.m_capacity - b.m_size) + (((len : Int) + 64) / 64 + 1) * 64
          ∧ (b.m_size = b.m_capacity →
              (b.insert pos (some d) len).m_capacity
                = b.m_capacity + (((len : Int) + 64) / 64 + 1) * 64))
      ∧ ((len : Int) ≤ b.m_capacity - b.m_size →
          (b.insert pos (some d) len).m_capacity = b.m_capacity)
      ∧ (b.insert pos (some d) len).m_capacity ≤ INT_MAX := by
  have h := BufferPrivate.insert_capacity b pos d len hwf
  refine ⟨?_, ?_, BufferPrivate.insert_fits b pos d len hwf hfit⟩
  · intro hgt
    rw [h]
    simp only [hgt, if_true]
    exact ⟨trivial, fun he => by rw [he]; omega⟩
  · intro hle
    rw [h]
    have : ¬ ((len : Int) > b.m_capacity - b.m_size) := by omega
    simp only [this, if_false]

theorem insert_growth_witness :
    BufferPrivate.wf ⟨1, 2, some [7, 0]⟩
      ∧ BufferPrivate.insertFits ⟨1, 2, some [7, 0]⟩ (2 : Nat)
      ∧ (BufferPrivate.insert ⟨1, 2, some [7, 0]⟩ 1 (some [8, 9]) (2 : Nat)).m_capacity
          = 131 := by
  have h := (insert_growth ⟨1, 2, some [7, 0]⟩ 1 [8, 9] 2 ⟨by decide, by decide, rfl⟩
    (by decide)).1 (by decide)
  refine ⟨⟨by decide, by decide, rfl⟩, by decide, ?_⟩
  rw [h.1]
  decide

/-! ### SM3 length counter and block buffer -/

theorem sm3_update_total (t : ShiftTarget) (ctx : sm3_context) (x : List Nat)
    (hb : ctx.buffer.length = 64) :
    (sm3_update t ctx x).total0
        = (if x.length = 0 then ctx.total0 else (ctx.total0 + x.length) % 2 ^ 32)
      ∧ (sm3_update t ctx x).total1
        = (if x.length = 0 then ctx.total1
           else if (ctx.total0 + x.length) % 2 ^ 32 < x.length % 2 ^ 32 then
             (ctx.total1 + 1) % 2 ^ 32
           else ctx.total1)
      ∧ (sm3_update t ctx x).buffer.length = 64 := by
  obtain ⟨hv, hl⟩ := view_update t ctx x hb
  have h0 := congrArg View.total0 hv
  have h1 := congrArg View.total1 hv
  refine ⟨?_, ?_, hl⟩
  · simp only [view, View.absorb] at h0
    rw [h0]; split <;> rfl
  · simp only [view, View.absorb] at h1
    rw [h1]; split <;> rfl

/-- The two counter words after a run of updates hold the number of bytes absorbed,
modulo `2^64`. -/
theorem sm3_total_foldl (t : ShiftTarget) (chunks : List (List Nat)) :
    ∀ (ctx : sm3_context) (n : Nat), ctx.buffer.length = 64 → ctx.total0 < 2 ^ 32 →
      ctx.total1 < 2 ^ 32 → ctx.total1 * 2 ^ 32 + ctx.total0 = n % 2 ^ 64 →
      (∀ x ∈ chunks, x.length < 2 ^ 31) →
      (chunks.foldl (sm3_update t) ctx).total0 < 2 ^ 32
        ∧ (chunks.foldl (sm3_update t) ctx).total1 < 2 ^ 32
        ∧ (chunks.foldl (sm3_update t) ctx).total1 * 2 ^ 32
            + (chunks.foldl (sm3_update t) ctx).total0 = (n + chunks.flatten.length) % 2 ^ 64
        ∧ (chunks.foldl (sm3_update t) ctx).buffer.length = 64 := by
  induction chunks with
  | nil => intro ctx n hb h0 h1 hn _; simpa using ⟨h0, h1, hn, hb⟩
  | cons x rest ih =>
    intro ctx n hb h0 h1 hn hlen
    obtain ⟨e0, e1, e2⟩ := sm3_update_total t ctx x hb
    have hx : x.length < 2 ^ 31 := hlen x (List.mem_cons_self _ _)
    simp only [List.foldl_cons, List.flatten_cons, List.length_append]
    rw [← Nat.add_assoc]
    apply ih (sm3_update t ctx x) (n + x.length) e2
    · rw [e0]; split <;> omega
    · rw [e1]; split
      · exact h1
      · split <;> omega
    · rw [e0, e1]
      by_cases hz : x.length = 0
      · simp only [hz, if_true, Nat.add_zero]; exact hn
      · simp only [hz, if_false]
        norm_num only at hx h0 h1 hn ⊢
        split <;> omega
    · intro y hy
      exact hlen y (List.mem_cons_of_mem _ hy)

/-- The eight bytes of `msglen`: the 64-bit bit count, most significant byte first. -/
theorem msglen_bytes (ctx : sm3_context) (h0 : ctx.total0 < 2 ^ 32) :
    bitLength ctx / 2 ^ 32 = (ctx.total0 >>> 29) ||| ((ctx.total1 <<< 3) % 2 ^ 32)
      ∧ bitLength ctx % 2 ^ 32 = (ctx.total0 <<< 3) % 2 ^ 32
      ∧ sm3_finish.msglen ctx
          = [bitLength ctx / 2 ^ 56 % 256, bitLength ctx / 2 ^ 48 % 256,
             bitLength ctx / 2 ^ 40 % 256, bitLength ctx / 2 ^ 32 % 256,
             bitLength ctx / 2 ^ 24 % 256, bitLength ctx / 2 ^ 16 % 256,
             bitLength ctx / 2 ^ 8 % 256, bitLength ctx % 256] := by
  have hor : ((ctx.total1 <<< 3) % 2 ^ 32) ||| (ctx.total0 >>> 29)
      = (ctx.total1 <<< 3) % 2 ^ 32 + ctx.total0 >>> 29 := by
    apply or_eq_add_of_dvd _ _ 3
    · rw [Nat.shiftLeft_eq]
      have : (ctx.total1 * 2 ^ 3) % 2 ^ 32 = (ctx.total1 % 2 ^ 29) * 2 ^ 3 := by omega
      rw [this]
      exact Dvd.intro_left _ rfl
    · rw [Nat.shiftRight_eq_div_pow]; omega
  have hhigh : (ctx.total0 >>> 29) ||| ((ctx.total1 <<< 3) % 2 ^ 32)
      = (ctx.total1 * 8) % 2 ^ 32 + ctx.total0 / 2 ^ 29 := by
    rw [Nat.lor_comm, hor, Nat.shiftLeft_eq, Nat.shiftRight_eq_div_pow]
  have hlow : (ctx.total0 <<< 3) % 2 ^ 32 = (ctx.total0 * 8) % 2 ^ 32 := by
    rw [Nat.shiftLeft_eq]
  have c1 : bitLength ctx / 2 ^ 32 = (ctx.total0 >>> 29) ||| ((ctx.total1 <<< 3) % 2 ^ 32) := by
    rw [hhigh]; unfold bitLength; omega
  have c2 : bitLength ctx % 2 ^ 32 = (ctx.total0 <<< 3) % 2 ^ 32 := by
    rw [hlow]; unfold bitLength; omega
  refine ⟨c1, c2, ?_⟩
  simp only [sm3_finish.msglen]
  rw [← c1, ← c2]
  have hB : bitLength ctx < 2 ^ 64 := Nat.mod_lt _ (by norm_num)
  generalize bitLength ctx = B at hB ⊢
  simp only [SM3_PUT_ULONG_BE, List.replicate, List.set_cons_zero, List.set_cons_succ,
    Nat.shiftRight_eq_div_pow, List.cons.injEq, and_true]
  clear c1 c2 hlow hhigh hor h0
  refine ⟨?_, ?_, ?_, ?_, ?_, ?_, ?_, ?_⟩ <;> first | trivial | omega

/-- C24: the eight length bytes `msglen` that `sm3_finish` absorbs after the padding are
the big-endian bytes of `(8 * (total[1] * 2^32 + total[0])) mod 2^64`, whose high word is
`(total[0] >> 29) | (total[1] << 3)` and whose low word is `total[0] << 3`, both as
`uint32_t`; and after `sm3_init` and any run of updates with chunks of `int` length the
counters satisfy `total[1] * 2^32 + total[0] = n mod 2^64`, `n` the number of bytes
absorbed. -/
theorem sm3_length_bytes (t : ShiftTarget) (ctx c : sm3_context) (o : List Nat)
    (chunks : List (List Nat)) (hb : ctx.buffer.length = 64) (h0 : ctx.total0 < 2 ^ 32)
    (hc : c.buffer.length = 64) (hlen : ∀ x ∈ chunks, x.length < 2 ^ 31) :
    (sm3_finish t ctx o).1
        = sm3_update t (sm3_update t ctx (0x80 :: List.replicate (sm3_finish.padn ctx - 1) 0))
            (sm3_finish.msglen ctx)
      ∧ sm3_finish.msglen ctx
          = [bitLength ctx / 2 ^ 56 % 256, bitLength ctx / 2 ^ 48 % 256,
             bitLength ctx / 2 ^ 40 % 256, bitLength ctx / 2 ^ 32 % 256,
             bitLength ctx / 2 ^ 24 % 256, bitLength ctx / 2 ^ 16 % 256,
             bitLength ctx / 2 ^ 8 % 256, bitLength ctx % 256]
      ∧ bitLength ctx / 2 ^ 32 = (ctx.total0 >>> 29) ||| ((ctx.total1 <<< 3) % 2 ^ 32)
      ∧ bitLength ctx % 2 ^ 32 = (ctx.total0 <<< 3) % 2 ^ 32
      ∧ (chunks.foldl (sm3_update t) (sm3_init c)).total1 * 2 ^ 32
          + (chunks.foldl (sm3_update t) (sm3_init c)).total0
          = chunks.flatten.length % 2 ^ 64
      ∧ (chunks.foldl (sm3_update t) (sm3_init c)).total0 < 2 ^ 32
      ∧ (chunks.foldl (sm3_update t) (sm3_init c)).total1 < 2 ^ 32 := by
  obtain ⟨m1, m2, m3⟩ := msglen_bytes ctx h0
  obtain ⟨f1, f2, f3, _⟩ := sm3_total_foldl t chunks (sm3_init c) 0 hc (by simp [sm3_init])
    (by simp [sm3_init]) (by simp [sm3_init]) hlen
  rw [Nat.zero_add] at f3
  exact ⟨(sm3_finish_last_block t ctx o hb).1, m3, m1, m2, f3, f1, f2⟩

theorem sm3_length_bytes_witness :
    (⟨0xFFFFFFFF, 1, [], List.replicate 64 0, 0⟩ : sm3_context).buffer.length = 64
      ∧ sm3_finish.msglen ⟨0xFFFFFFFF, 1, [], List.replicate 64 0, 0⟩
          = [0, 0, 0, 0x0F, 0xFF, 0xFF, 0xFF, 0xF8]
      ∧ ([[0x61], [], [0x62, 0x63]].foldl (sm3_update ShiftTarget.mod32)
          (sm3_init ⟨5, 7, [], List.replicate 64 0xAA, 0⟩)).total0 = 3 := by
  have h := sm3_length_bytes ShiftTarget.mod32 ⟨0xFFFFFFFF, 1, [], List.replicate 64 0, 0⟩
    ⟨5, 7, [], List.replicate 64 0xAA, 0⟩ (List.replicate 32 0) [[0x61], [], [0x62, 0x63]]
    (by decide) (by decide) (by decide) (by decide)
  refine ⟨by decide, ?_, ?_⟩
  · rw [h.2.1]; decide
  · have h5 := h.2.2.2.2.1
    have h6 := h.2.2.2.2.2.2
    have hl : ([[0x61], [], [0x62, 0x63]] : List (List Nat)).flatten.length % 2 ^ 64 = 3 := by
      decide
    rw [hl] at h5
    omega

theorem view_foldl_congr (t : ShiftTarget) (chunks : List (List Nat)) :
    ∀ (c1 c2 : sm3_context), c1.buffer.length = 64 → c2.buffer.length = 64 →
      view c1 = view c2 →
      view (chunks.foldl (sm3_update t) c1) = view (chunks.foldl (sm3_update t) c2)
        ∧ (chunks.foldl (sm3_update t) c1).buffer.length = 64
        ∧ (chunks.foldl (sm3_update t) c2).buffer.length = 64 := by
  induction chunks with
  | nil => intro c1 c2 h1 h2 hv; exact ⟨hv, h1, h2⟩
  | cons x rest ih =>
    intro c1 c2 h1 h2 hv
    obtain ⟨a1, a2⟩ := view_update t c1 x h1
    obtain ⟨b1, b2⟩ := view_update t c2 x h2
    simp only [List.foldl_cons]
    exact ih _ _ a2 b2 (by rw [a1, b1, hv])

/-- The bytes `absorbAll` leaves over are the input after its last full block. -/
theorem absorbAll_rest (t : ShiftTarget) (n : Nat) :
    ∀ (st input : List Nat), input.length = n →
      (absorbAll t st input).2 = input.drop (input.length / 64 * 64) := by
  induction n using Nat.strong_induction_on with
  | _ n ih =>
    intro st input hn
    by_cases hb : 64 ≤ input.length
    · have hsplit : input = input.take 64 ++ input.drop 64 := (List.take_append_drop 64 input).symm
      have h := ih (n - 64) (by omega) (compress t st (input.take 64)) (input.drop 64)
        (by simp; omega)
      have e : absorbAll t st input
          = absorbAll t (compress t st (input.take 64)) (input.drop 64) := by
        conv_lhs => rw [hsplit]
        exact absorbAll_block t st _ _ (by simp; omega)
      rw [e, h, List.drop_drop, List.length_drop]
      congr 1
      omega
    · rw [absorbAll_short t st input (by omega)]
      have : input.length / 64 * 64 = 0 := by omega
      rw [this]
      rfl

/-- Between updates the first `total[0] mod 64` bytes of the block buffer are the input
bytes after the last full block. -/
theorem pending_foldl (t : ShiftTarget) (chunks : List (List Nat)) :
    ∀ (ctx : sm3_context) (m : List Nat), ctx.buffer.length = 64 →
      ctx.total0 % 64 = m.length % 64 →
      ctx.buffer.take (ctx.total0 % 64) = m.drop (m.length / 64 * 64) →
      (chunks.foldl (sm3_update t) ctx).total0 % 64 = (m ++ chunks.flatten).length % 64
        ∧ (chunks.foldl (sm3_update t) ctx).buffer.take
            ((chunks.foldl (sm3_update t) ctx).total0 % 64)
          = (m ++ chunks.flatten).drop ((m ++ chunks.flatten).length / 64 * 64) := by
  induction chunks with
  | nil => intro ctx m _ h1 h2; simpa using ⟨h1, h2⟩
  | cons x rest ih =>
    intro ctx m hb h1 h2
    obtain ⟨hv, hl⟩ := view_update t ctx x hb
    simp only [List.foldl_cons, List.flatten_cons]
    rw [← List.append_assoc]
    have h0 := congrArg View.total0 hv
    have hp := congrArg View.pending hv
    simp only [view] at h0 hp
    by_cases hx : x.length = 0
    · have hnil : x = [] := List.eq_nil_of_length_eq_zero hx
      subst hnil
      simp only [View.absorb, List.length_nil, if_true] at h0 hp
      rw [List.append_nil]
      apply ih _ _ hl
      · rw [h0]; exact h1
      · rw [h0] at hp ⊢; rw [hp]; exact h2
    · simp only [View.absorb, hx, if_false] at h0 hp
      apply ih _ _ hl
      · rw [h0, List.length_append]; omega
      · rw [hp, absorbAll_rest t _ _ _ rfl, h2, List.length_append, List.length_drop,
          List.length_append]
        have hk : m.length / 64 * 64 ≤ m.length := Nat.div_mul_le_self _ _
        have e1 : (m ++ x).drop (m.length / 64 * 64) = m.drop (m.length / 64 * 64) ++ x :=
          List.drop_append_of_le_length hk
        rw [← e1, List.drop_drop]
        congr 1
        omega

/-- C25: the digest does not depend on what the context held before `sm3_init`: for any
two contexts (any bytes in their 64-byte block buffers) and any list of chunks,
`sm3_init`, the updates and `sm3_finish` write the same output bytes; and after any run
of updates the first `total[0] mod 64` bytes of the block buffer are exactly the input
bytes after the last full 64-byte block, i.e. the tail not yet compressed. -/
theorem sm3_digest_ignores_pending (t : ShiftTarget) (c c' : sm3_context) (o : List Nat)
    (chunks : List (List Nat)) (hc : c.buffer.length = 64) (hc' : c'.buffer.length = 64) :
    (sm3_finish t (chunks.foldl (sm3_update t) (sm3_init c)) o).2
        = (sm3_finish t (chunks.foldl (sm3_update t) (sm3_init c')) o).2
      ∧ (chunks.foldl (sm3_update t) (sm3_init c)).total0 % 64 = chunks.flatten.length % 64
      ∧ (chunks.foldl (sm3_update t) (sm3_init c)).buffer.take
            ((chunks.foldl (sm3_update t) (sm3_init c)).total0 % 64)
          = chunks.flatten.drop (chunks.flatten.length / 64 * 64) := by
  have hv : view (sm3_init c) = view (sm3_init c') := by
    rw [view_init t c, view_init t c']
  obtain ⟨v1, v2, v3⟩ := view_foldl_congr t chunks (sm3_init c) (sm3_init c') hc hc' hv
  obtain ⟨p1, p2⟩ := pending_foldl t chunks (sm3_init c) [] hc (by simp [sm3_init])
    (by simp [sm3_init])
  rw [List.nil_append] at p1 p2
  exact ⟨sm3_finish_view t _ _ o v2 v3 v1, p1, p2⟩

theorem sm3_digest_ignores_pending_witness :
    (⟨5, 7, [], List.replicate 64 0xAA, 0⟩ : sm3_context).buffer.length = 64
      ∧ (⟨0, 0, [], List.replicate 64 0, 0⟩ : sm3_context).buffer.length = 64
      ∧ (sm3_finish ShiftTarget.mod32
          ([[0x61], [], [0x62, 0x63]].foldl (sm3_update ShiftTarget.mod32)
            (sm3_init ⟨5, 7, [], List.replicate 64 0xAA, 0⟩)) (List.replicate 32 0)).2
        = (sm3_finish ShiftTarget.mod32
          ([[0x61], [], [0x62, 0x63]].foldl (sm3_update ShiftTarget.mod32)
            (sm3_init ⟨0, 0, [], List.replicate 64 0, 0⟩)) (List.replicate 32 0)).2 :=
  ⟨by decide, by decide,
   (sm3_digest_ignores_pending ShiftTarget.mod32 ⟨5, 7, [], List.replicate 64 0xAA, 0⟩
    ⟨0, 0, [], List.replicate 64 0, 0⟩ (List.replicate 32 0) [[0x61], [], [0x62, 0x63]]
    (by decide) (by decide)).1⟩

end crypto
